import Mathlib

/-!
Verification of the claycli bootstrap/dispatch transcoder and import pipeline.

The repository has two relevant parts:

* `lib/formatting.js` (the graph transcoder `toDispatch` / `toBootstrap`).
  Its implementation file is not present in the source tree; only its test
  suite is.  The transcoder is therefore modelled from the specification
  (sections 3, 4.1 and 8), and every definition doing so carries a doc
  comment starting with `Modelled from the spec:`.  The repository's own
  test fixtures are reproduced below as concrete inputs and the model is
  checked against the expected outputs of those tests.

* `lib/cmd/import.js` (the streaming import pipeline), which is present in
  the source tree and is embedded faithfully: the highland stream pipeline
  is translated into sequential list processing, with the external
  collaborators (JSON parsing, chunk validation, re-keying, HTTP PUT)
  passed in as function parameters.

JSON values are modelled by the inductive type `Json`; JavaScript objects
are association lists that preserve key insertion order, exactly as V8
does for string keys.  JavaScript deep equality of documents (jest's
`toEqual`) ignores object key order, which the development expresses by
comparing documents through the recursive key-sorting normalizer `sortJ`.
-/

/-- A JSON value.  Objects are ordered association lists (JS insertion
order); arrays are ordered lists. -/
inductive Json where
  | null : Json
  | str (s : String) : Json
  | num (n : Int) : Json
  | bool (b : Bool) : Json
  | arr (xs : List Json) : Json
  | obj (kvs : List (String × Json)) : Json

mutual

/-- Boolean structural equality on `Json`. -/
def Json.beq : Json → Json → Bool
  | .null, .null => true
  | .str a, .str b => a == b
  | .num a, .num b => a == b
  | .bool a, .bool b => a == b
  | .arr xs, .arr ys => Json.beqList xs ys
  | .obj xs, .obj ys => Json.beqKVs xs ys
  | _, _ => false

/-- Boolean structural equality on lists of `Json`. -/
def Json.beqList : List Json → List Json → Bool
  | [], [] => true
  | x :: xs, y :: ys => Json.beq x y && Json.beqList xs ys
  | _, _ => false

/-- Boolean structural equality on association lists of `Json`. -/
def Json.beqKVs : List (String × Json) → List (String × Json) → Bool
  | [], [] => true
  | (k, v) :: xs, (l, w) :: ys => k == l && Json.beq v w && Json.beqKVs xs ys
  | _, _ => false

end

mutual

theorem Json.eq_of_beq : ∀ (a b : Json), Json.beq a b = true → a = b
  | .null, b, h => by cases b <;> first | rfl | simp [Json.beq] at h
  | .str s, b, h => by
      cases b <;> simp [Json.beq] at h ⊢; exact h
  | .num n, b, h => by
      cases b <;> simp [Json.beq] at h ⊢; exact h
  | .bool v, b, h => by
      cases b <;> simp [Json.beq] at h ⊢; exact h
  | .arr xs, b, h => by
      cases b <;> simp [Json.beq] at h ⊢
      exact Json.eqList_of_beq xs _ h
  | .obj xs, b, h => by
      cases b <;> simp [Json.beq] at h ⊢
      exact Json.eqKVs_of_beq xs _ h

theorem Json.eqList_of_beq : ∀ (xs ys : List Json), Json.beqList xs ys = true → xs = ys
  | [], [], _ => rfl
  | [], _ :: _, h => by simp [Json.beqList] at h
  | _ :: _, [], h => by simp [Json.beqList] at h
  | x :: xs, y :: ys, h => by
      simp only [Json.beqList, Bool.and_eq_true] at h
      rw [Json.eq_of_beq x y h.1, Json.eqList_of_beq xs ys h.2]

theorem Json.eqKVs_of_beq : ∀ (xs ys : List (String × Json)), Json.beqKVs xs ys = true → xs = ys
  | [], [], _ => rfl
  | [], _ :: _, h => by simp [Json.beqKVs] at h
  | _ :: _, [], h => by simp [Json.beqKVs] at h
  | (k, v) :: xs, (l, w) :: ys, h => by
      simp only [Json.beqKVs, Bool.and_eq_true, beq_iff_eq] at h
      rw [h.1.1, Json.eq_of_beq v w h.1.2, Json.eqKVs_of_beq xs ys h.2]

end

mutual

theorem Json.beq_refl : ∀ (a : Json), Json.beq a a = true
  | .null => rfl
  | .str s => by simp [Json.beq]
  | .num n => by simp [Json.beq]
  | .bool v => by simp [Json.beq]
  | .arr xs => by simp [Json.beq]; exact Json.beqList_refl xs
  | .obj xs => by simp [Json.beq]; exact Json.beqKVs_refl xs

theorem Json.beqList_refl : ∀ (xs : List Json), Json.beqList xs xs = true
  | [] => rfl
  | x :: xs => by
      simp only [Json.beqList, Bool.and_eq_true]
      exact ⟨Json.beq_refl x, Json.beqList_refl xs⟩

theorem Json.beqKVs_refl : ∀ (xs : List (String × Json)), Json.beqKVs xs xs = true
  | [] => rfl
  | (k, v) :: xs => by
      simp only [Json.beqKVs, Bool.and_eq_true, beq_iff_eq]
      exact ⟨⟨trivial, Json.beq_refl v⟩, Json.beqKVs_refl xs⟩

end

instance : DecidableEq Json := fun a b =>
  if h : Json.beq a b = true then isTrue (Json.eq_of_beq a b h)
  else isFalse (fun he => h (he ▸ Json.beq_refl a))

/-! ### Ordered association lists (JS object semantics) -/

/-- Lookup of a key in an association list (first match, like JS property
access on an object without duplicate keys). -/
def getKV {α : Type} : List (String × α) → String → Option α
  | [], _ => none
  | (k, v) :: rest, key => if k = key then some v else getKV rest key

/-- JS property assignment `o[key] = v`: update in place if the key
exists, otherwise append at the end (insertion order). -/
def setKV {α : Type} : List (String × α) → String → α → List (String × α)
  | [], key, v => [(key, v)]
  | (k, w) :: rest, key, v =>
      if k = key then (k, v) :: rest else (k, w) :: setKV rest key v

/-- JS `delete o[key]` (all occurrences; lists we build have unique keys). -/
def removeKV {α : Type} : List (String × α) → String → List (String × α)
  | [], _ => []
  | (k, v) :: rest, key =>
      if k = key then removeKV rest key else (k, v) :: removeKV rest key

/-- The keys of an association list, in order. -/
def kvKeys {α : Type} (l : List (String × α)) : List String := l.map Prod.fst

/-- Keys of an association list are pairwise distinct (Boolean). -/
def keysNodup {α : Type} [DecidableEq α] (l : List (String × α)) : Bool :=
  (kvKeys l).Nodup

theorem getKV_setKV_self {α : Type} (l : List (String × α)) (k : String) (v : α) :
    getKV (setKV l k v) k = some v := by
  induction l with
  | nil => simp [setKV, getKV]
  | cons hd tl ih =>
      obtain ⟨k0, v0⟩ := hd
      by_cases h : k0 = k <;> simp [setKV, getKV, h, ih]

theorem getKV_setKV_other {α : Type} (l : List (String × α)) (k k2 : String) (v : α)
    (h : k ≠ k2) : getKV (setKV l k v) k2 = getKV l k2 := by
  induction l with
  | nil => simp [setKV, getKV, h]
  | cons hd tl ih =>
      obtain ⟨k0, v0⟩ := hd
      by_cases h0 : k0 = k
      · subst h0; simp [setKV, getKV, h]
      · simp [setKV, h0, getKV]
        by_cases h1 : k0 = k2 <;> simp [h1, ih]

theorem setKV_of_getKV_eq {α : Type} (l : List (String × α)) (k : String) (v : α)
    (h : getKV l k = some v) : setKV l k v = l := by
  induction l with
  | nil => simp [getKV] at h
  | cons hd tl ih =>
      obtain ⟨k0, v0⟩ := hd
      by_cases h0 : k0 = k
      · subst h0
        simp [getKV] at h
        simp [setKV, h]
      · simp [getKV, h0] at h
        simp [setKV, h0, ih h]

theorem setKV_of_getKV_none {α : Type} (l : List (String × α)) (k : String) (v : α)
    (h : getKV l k = none) : setKV l k v = l ++ [(k, v)] := by
  induction l with
  | nil => simp [setKV]
  | cons hd tl ih =>
      obtain ⟨k0, v0⟩ := hd
      by_cases h0 : k0 = k
      · subst h0; simp [getKV] at h
      · simp [getKV, h0] at h
        simp [setKV, h0, ih h]

theorem getKV_append {α : Type} (l1 l2 : List (String × α)) (k : String) :
    getKV (l1 ++ l2) k = ((getKV l1 k).rec (getKV l2 k) fun v => some v) := by
  induction l1 with
  | nil => simp [getKV]
  | cons hd tl ih =>
      obtain ⟨k0, v0⟩ := hd
      by_cases h0 : k0 = k <;> simp [getKV, h0, ih]

theorem getKV_eq_none_of_not_mem {α : Type} (l : List (String × α)) (k : String)
    (h : k ∉ kvKeys l) : getKV l k = none := by
  induction l with
  | nil => rfl
  | cons hd tl ih =>
      obtain ⟨k0, v0⟩ := hd
      simp only [kvKeys, List.map_cons, List.mem_cons] at h
      push_neg at h
      simp [getKV, Ne.symm h.1, ih (by simpa [kvKeys] using h.2)]

theorem getKV_isSome_of_mem {α : Type} (l : List (String × α)) (k : String)
    (h : k ∈ kvKeys l) : (getKV l k).isSome := by
  induction l with
  | nil => simp [kvKeys] at h
  | cons hd tl ih =>
      obtain ⟨k0, v0⟩ := hd
      by_cases h0 : k0 = k
      · simp [getKV, h0]
      · simp [kvKeys, h0] at h
        rcases h with h | h
        · exact absurd h.symm h0
        · simpa [getKV, h0] using ih (by simpa [kvKeys] using h)

theorem mem_keys_iff_getKV {α : Type} (l : List (String × α)) (k : String) :
    k ∈ kvKeys l ↔ (getKV l k).isSome := by
  constructor
  · exact getKV_isSome_of_mem l k
  · intro h
    by_contra hmem
    rw [getKV_eq_none_of_not_mem l k hmem] at h
    simp [Option.isSome] at h

theorem kvKeys_setKV {α : Type} (l : List (String × α)) (k : String) (v : α) :
    kvKeys (setKV l k v) = if k ∈ kvKeys l then kvKeys l else kvKeys l ++ [k] := by
  induction l with
  | nil => simp [setKV, kvKeys]
  | cons hd tl ih =>
      obtain ⟨k0, v0⟩ := hd
      by_cases h0 : k0 = k
      · subst h0; simp [setKV, kvKeys]
      · simp only [setKV, h0, if_false, kvKeys, List.map_cons] at ih ⊢
        by_cases hm : k ∈ List.map Prod.fst tl
        · rw [if_pos hm] at ih
          rw [ih, if_pos (by simp [hm])]
        · rw [if_neg hm] at ih
          rw [ih, if_neg (by simp [hm, Ne.symm h0])]
          simp

theorem keysNodup_setKV {α : Type} [DecidableEq α] (l : List (String × α)) (k : String) (v : α)
    (h : keysNodup l) : keysNodup (setKV l k v) := by
  simp only [keysNodup, decide_eq_true_eq] at h ⊢
  rw [kvKeys_setKV]
  by_cases hm : k ∈ kvKeys l
  · simpa [hm]
  · simpa [hm] using List.Nodup.append h (by simp) (by simpa using hm)

/-! ### Path segment utilities -/

/-- Characters up to the first slash, and the rest after it (if any). -/
def breakSlash : List Char → List Char × Option (List Char)
  | [] => ([], none)
  | c :: r =>
      if c = '/' then ([], some r)
      else
        let p := breakSlash r
        (c :: p.1, p.2)

/-- Split a character list on every slash. -/
def splitSlash : List Char → List (List Char)
  | [] => [[]]
  | c :: r =>
      if c = '/' then [] :: splitSlash r
      else
        match splitSlash r with
        | s :: ss => (c :: s) :: ss
        | [] => [[c]]

/-- A list of characters contains no slash. -/
def noSlash (l : List Char) : Bool := l.all (· ≠ '/')

theorem breakSlash_append (xs ys : List Char) (h : noSlash xs) :
    breakSlash (xs ++ '/' :: ys) = (xs, some ys) := by
  induction xs with
  | nil => simp [breakSlash]
  | cons c r ih =>
      simp only [noSlash, List.all_cons, Bool.and_eq_true, decide_eq_true_eq] at h
      simp [breakSlash, h.1, ih (by simpa [noSlash] using h.2)]

theorem breakSlash_of_noSlash (xs : List Char) (h : noSlash xs) :
    breakSlash xs = (xs, none) := by
  induction xs with
  | nil => rfl
  | cons c r ih =>
      simp only [noSlash, List.all_cons, Bool.and_eq_true, decide_eq_true_eq] at h
      simp [breakSlash, h.1, ih (by simpa [noSlash] using h.2)]

theorem splitSlash_append (xs ys : List Char) (h : noSlash xs) :
    splitSlash (xs ++ '/' :: ys) = xs :: splitSlash ys := by
  induction xs with
  | nil => simp [splitSlash]
  | cons c r ih =>
      simp only [noSlash, List.all_cons, Bool.and_eq_true, decide_eq_true_eq] at h
      simp [splitSlash, h.1, ih (by simpa [noSlash] using h.2)]

theorem splitSlash_of_noSlash (xs : List Char) (h : noSlash xs) :
    splitSlash xs = [xs] := by
  induction xs with
  | nil => rfl
  | cons c r ih =>
      simp only [noSlash, List.all_cons, Bool.and_eq_true, decide_eq_true_eq] at h
      simp [splitSlash, h.1, ih (by simpa [noSlash] using h.2)]

/-- Strip one redundant leading path separator from a key. -/
def stripLeadSlash (s : String) : String :=
  if s.data.head? = some '/' then String.mk s.data.tail else s

/-- A well-formed segment name: nonempty and slash-free. -/
def wfName (s : String) : Bool := !s.data.isEmpty && noSlash s.data

/-! ### Resource URIs -/

/-- URI of a component base definition. -/
def compUri (ty : String) : String := "/_components/" ++ ty

/-- URI of a component instance. -/
def instUri (ty i : String) : String := "/_components/" ++ ty ++ "/instances/" ++ i

/-- URI of a page. -/
def pageUri (k : String) : String := "/_pages/" ++ k

/-- URI of a user record. -/
def userUri (k : String) : String := "/_users/" ++ k

/-- URI of an entry of an arbitrary root collection.  An entry key equal
to the path separator itself collapses to an empty remainder so that the
URI carries no duplicated separator. -/
def arbUri (coll k : String) : String :=
  "/" ++ coll ++ "/" ++ (if k = "/" then "" else k)

/-- The classification of a dispatch record URI by its root segment. -/
inductive RKey where
  | comp (ty : String) (inst : Option String)
  | page (key : String)
  | user (key : String)
  | arb (coll : String) (key : String)
  | bad
deriving DecidableEq

/-- Modelled from the spec: the `_components` remainder is either a bare
type name or `{type}/instances/{name}` (spec 3, identity invariant). -/
def parseCompRem (rem : List Char) : RKey :=
  match splitSlash rem with
  | [ty] => if ty.isEmpty then .bad else .comp (String.mk ty) none
  | [ty, mid, i] =>
      if mid = "instances".data ∧ ¬ty.isEmpty ∧ ¬i.isEmpty then
        .comp (String.mk ty) (some (String.mk i))
      else .bad
  | _ => .bad

/-- Modelled from the spec: dispatch of the root segment name and the
remainder of the URI (spec 4.1 `toBootstrap` classification; for `_pages`
the same redundant leading separator is stripped, for arbitrary
collections the leading separator is re-added when the entry key is
empty). -/
def parseSegs (seg : List Char) : Option (List Char) → RKey
  | none => .bad
  | some rem =>
      if String.mk seg = "_components" then parseCompRem rem
      else if String.mk seg = "_pages" then .page (stripLeadSlash (String.mk rem))
      else if String.mk seg = "_users" then .user (String.mk rem)
      else .arb (String.mk seg) (if rem.isEmpty then "/" else String.mk rem)

/-- Modelled from the spec: `toBootstrap` "classifies each record's URI by
its root segment" (spec 4.1). -/
def parseUriData : List Char → RKey
  | [] => .bad
  | c :: rest =>
      if c = '/' then parseSegs (breakSlash rest).1 (breakSlash rest).2 else .bad

/-- URI classification on strings. -/
def parseUri (uri : String) : RKey := parseUriData uri.data

theorem data_append_eq (a b : String) : (a ++ b).data = a.data ++ b.data := rfl

theorem compUri_data (ty : String) :
    (compUri ty).data = '/' :: ("_components".data ++ '/' :: ty.data) := by
  have h : (compUri ty).data = "/_components/".data ++ ty.data := rfl
  rw [h]
  rfl

theorem instUri_data (ty i : String) :
    (instUri ty i).data
      = '/' :: ("_components".data ++ '/' :: (ty.data ++ ('/' :: "instances".data ++ '/' :: i.data))) := by
  have h : (instUri ty i).data = "/_components/".data ++ ty.data ++ "/instances/".data ++ i.data := rfl
  rw [h]
  simp

theorem pageUri_data (k : String) :
    (pageUri k).data = '/' :: ("_pages".data ++ '/' :: k.data) := rfl

theorem userUri_data (k : String) :
    (userUri k).data = '/' :: ("_users".data ++ '/' :: k.data) := rfl

theorem parseUri_compUri (ty : String) (h : wfName ty) :
    parseUri (compUri ty) = .comp ty none := by
  simp only [wfName, Bool.and_eq_true, Bool.not_eq_true'] at h
  rw [parseUri, compUri_data, parseUriData]
  rw [if_pos rfl, breakSlash_append _ _ (by decide)]
  rw [parseSegs, if_pos rfl, parseCompRem, splitSlash_of_noSlash _ h.2]
  simp [h.1]

theorem parseUri_instUri (ty i : String) (hty : wfName ty) (hi : wfName i) :
    parseUri (instUri ty i) = .comp ty (some i) := by
  simp only [wfName, Bool.and_eq_true, Bool.not_eq_true'] at hty hi
  rw [parseUri, instUri_data, parseUriData]
  rw [if_pos rfl, breakSlash_append _ _ (by decide)]
  rw [parseSegs, if_pos rfl, parseCompRem]
  rw [show ('/' :: "instances".data ++ '/' :: i.data) = ('/' :: ("instances".data ++ '/' :: i.data)) from rfl]
  rw [splitSlash_append _ _ hty.2, splitSlash_append _ _ (by decide),
      splitSlash_of_noSlash _ hi.2]
  simp [hty.1, hi.1]

theorem parseUri_pageUri (k : String) :
    parseUri (pageUri k) = .page (stripLeadSlash k) := by
  rw [parseUri, pageUri_data, parseUriData]
  rw [if_pos rfl, breakSlash_append _ _ (by decide)]
  simp [parseSegs]

theorem parseUri_userUri (k : String) :
    parseUri (userUri k) = .user k := by
  rw [parseUri, userUri_data, parseUriData]
  rw [if_pos rfl, breakSlash_append _ _ (by decide)]
  simp [parseSegs]

/-- A well-formed arbitrary root collection name: a nonempty slash-free
segment distinct from the three dedicated root collections. -/
def wfArbName (coll : String) : Bool :=
  wfName coll && coll != "_components" && coll != "_pages" && coll != "_users"

theorem string_data_eq_nil_iff (s : String) : s.data = [] ↔ s = "" := by
  cases s with
  | mk d =>
      constructor
      · intro h; exact congrArg String.mk h
      · intro h; exact congrArg String.data h

theorem arbUri_data (coll k : String) :
    (arbUri coll k).data
      = '/' :: (coll.data ++ '/' :: (if k = "/" then "" else k).data) := by
  have h : (arbUri coll k).data
      = ("/".data ++ coll.data) ++ "/".data ++ (if k = "/" then "" else k).data := rfl
  rw [h]
  simp

theorem parseUri_arbUri (coll k : String) (hc : wfArbName coll) (hk : k ≠ "") :
    parseUri (arbUri coll k) = .arb coll k := by
  simp only [wfArbName, Bool.and_eq_true, bne_iff_ne, ne_eq, wfName,
    Bool.not_eq_true'] at hc
  rw [parseUri, arbUri_data, parseUriData]
  rw [if_pos rfl, breakSlash_append _ _ hc.1.1.1.2]
  by_cases hsl : k = "/"
  · simp [parseSegs, hsl, hc.1.1.2, hc.1.2, hc.2]
  · have hne : k.data.isEmpty = false := by
      cases hd : k.data with
      | nil => exact absurd ((string_data_eq_nil_iff k).mp hd) hk
      | cons a b => rfl
    simp [parseSegs, hc.1.1.2, hc.1.2, hc.2, hne, hsl]

/-! ### Base64 (the reversible user-key encoding) -/

/-- The base64 alphabet. -/
def b64chars : List Char :=
  "ABCDEFGHIJKLMNOPQRSTUVWXYZabcdefghijklmnopqrstuvwxyz0123456789+/".data

/-- Character of a 6-bit group. -/
def b64idx (n : Nat) : Char := b64chars.getD n 'A'

/-- Index of a base64 character in the alphabet. -/
def b64code (c : Char) : Nat := (b64chars.indexOf c)

/-- Base64 encoding of a byte list, with `=` padding. -/
def b64encodeBytes : List Nat → List Char
  | [] => []
  | [b1] => [b64idx (b1 / 4), b64idx (b1 % 4 * 16), '=', '=']
  | [b1, b2] => [b64idx (b1 / 4), b64idx (b1 % 4 * 16 + b2 / 16), b64idx (b2 % 16 * 4), '=']
  | b1 :: b2 :: b3 :: rest =>
      b64idx (b1 / 4) :: b64idx (b1 % 4 * 16 + b2 / 16)
        :: b64idx (b2 % 16 * 4 + b3 / 64) :: b64idx (b3 % 64)
        :: b64encodeBytes rest

/-- Base64 decoding back to a byte list (inverse of `b64encodeBytes`). -/
def b64decodeChars : List Char → Option (List Nat)
  | [] => some []
  | c1 :: c2 :: c3 :: c4 :: rest =>
      if c3 = '=' then some [b64code c1 * 4 + b64code c2 / 16]
      else if c4 = '=' then
        some [b64code c1 * 4 + b64code c2 / 16, b64code c2 % 16 * 16 + b64code c3 / 4]
      else
        (b64decodeChars rest).map
          (fun r => (b64code c1 * 4 + b64code c2 / 16)
            :: (b64code c2 % 16 * 16 + b64code c3 / 4)
            :: (b64code c3 % 4 * 64 + b64code c4) :: r)
  | _ => none

theorem b64code_b64idx : ∀ n < 64, b64code (b64idx n) = n := by decide

theorem b64idx_ne_pad : ∀ n < 64, b64idx n ≠ '=' := by decide

theorem b64decode_encode (bytes : List Nat) (h : ∀ b ∈ bytes, b < 256) :
    b64decodeChars (b64encodeBytes bytes) = some bytes := by
  induction bytes using b64encodeBytes.induct with
  | case1 => simp [b64encodeBytes, b64decodeChars]
  | case2 b1 =>
      have hb1 : b1 < 256 := h b1 (by simp)
      simp only [b64encodeBytes, b64decodeChars, if_true]
      rw [b64code_b64idx (b1 / 4) (by omega), b64code_b64idx (b1 % 4 * 16) (by omega)]
      have e1 : b1 / 4 * 4 + b1 % 4 * 16 / 16 = b1 := by omega
      rw [e1]
  | case3 b1 b2 =>
      have hb1 : b1 < 256 := h b1 (by simp)
      have hb2 : b2 < 256 := h b2 (by simp)
      simp only [b64encodeBytes, b64decodeChars, if_true]
      rw [if_neg (b64idx_ne_pad (b2 % 16 * 4) (by omega))]
      rw [b64code_b64idx (b1 / 4) (by omega),
          b64code_b64idx (b1 % 4 * 16 + b2 / 16) (by omega),
          b64code_b64idx (b2 % 16 * 4) (by omega)]
      have e1 : b1 / 4 * 4 + (b1 % 4 * 16 + b2 / 16) / 16 = b1 := by omega
      have e2 : (b1 % 4 * 16 + b2 / 16) % 16 * 16 + b2 % 16 * 4 / 4 = b2 := by omega
      rw [e1, e2]
  | case4 b1 b2 b3 rest ih =>
      have hb1 : b1 < 256 := h b1 (by simp)
      have hb2 : b2 < 256 := h b2 (by simp)
      have hb3 : b3 < 256 := h b3 (by simp)
      have hrest : ∀ b ∈ rest, b < 256 := fun b hb => h b (by simp [hb])
      simp only [b64encodeBytes, b64decodeChars]
      rw [if_neg (b64idx_ne_pad (b2 % 16 * 4 + b3 / 64) (by omega)),
          if_neg (b64idx_ne_pad (b3 % 64) (by omega))]
      rw [ih hrest]
      rw [b64code_b64idx (b1 / 4) (by omega),
          b64code_b64idx (b1 % 4 * 16 + b2 / 16) (by omega),
          b64code_b64idx (b2 % 16 * 4 + b3 / 64) (by omega),
          b64code_b64idx (b3 % 64) (by omega)]
      have e1 : b1 / 4 * 4 + (b1 % 4 * 16 + b2 / 16) / 16 = b1 := by omega
      have e2 : (b1 % 4 * 16 + b2 / 16) % 16 * 16 + (b2 % 16 * 4 + b3 / 64) / 4 = b2 := by omega
      have e3 : (b2 % 16 * 4 + b3 / 64) % 4 * 64 + b3 % 64 = b3 := by omega
      rw [e1, e2, e3]
      rfl

/-- Base64 encoding of a string (byte values of its characters). -/
def b64encodeStr (s : String) : String :=
  String.mk (b64encodeBytes (s.data.map Char.toNat))

/-- Base64 decoding of a string back to the encoded text. -/
def b64decodeStr (s : String) : Option String :=
  (b64decodeChars s.data).map (fun bytes => String.mk (bytes.map Char.ofNat))

/-- The characters of a string are all ASCII. -/
def asciiStr (s : String) : Bool := s.data.all (fun c => c.toNat < 128)

theorem b64decodeStr_encodeStr (s : String) (h : asciiStr s) :
    b64decodeStr (b64encodeStr s) = some s := by
  simp only [asciiStr, List.all_eq_true, decide_eq_true_eq] at h
  rw [b64decodeStr, b64encodeStr]
  have hb : ∀ b ∈ s.data.map Char.toNat, b < 256 := by
    intro b hb
    simp only [List.mem_map] at hb
    obtain ⟨c, hc, rfl⟩ := hb
    exact Nat.lt_trans (h c hc) (by omega)
  rw [show (String.mk (b64encodeBytes (s.data.map Char.toNat))).data
        = b64encodeBytes (s.data.map Char.toNat) from rfl]
  rw [b64decode_encode _ hb]
  rw [show Option.map (fun bytes => String.mk (bytes.map Char.ofNat)) (some (s.data.map Char.toNat))
        = some (String.mk ((s.data.map Char.toNat).map Char.ofNat)) from rfl]
  congr 1
  rw [List.map_map]
  have : ∀ c ∈ s.data, (Char.ofNat ∘ Char.toNat) c = c := by
    intro c hc
    exact Char.ofNat_toNat c
  rw [List.map_congr_left this]
  have h2 : List.map (fun a => a) s.data = s.data := by simp
  rw [h2]

/-! ### The graph transcoder (modelled from the spec) -/

/-- The fields of an object value (empty for non-objects). -/
def Json.objFields : Json → List (String × Json)
  | .obj kvs => kvs
  | _ => []

/-- The items of an array value (empty for non-arrays). -/
def Json.arrItems : Json → List Json
  | .arr xs => xs
  | _ => []

/-- Modelled from the spec: resolution of a component reference URI to the
target's current data; a base URI resolves to the type's fields without
its `instances` sub-mapping, an instance URI resolves to the instance's
fields (spec 3, 4.1). -/
def resolveComp (comps : List (String × Json)) (uri : String) : Option Json :=
  match parseUri uri with
  | .comp ty none =>
      (getKV comps ty).map (fun d => Json.obj (removeKV d.objFields "instances"))
  | .comp ty (some i) =>
      (getKV comps ty).bind fun d =>
        (getKV d.objFields "instances").bind fun iv => getKV iv.objFields i
  | _ => none

/-- Merge that keeps the left operand's entries and appends the right
operand's entries whose keys are still absent. -/
def mergeKVs (a b : List (String × Json)) : List (String × Json) :=
  a ++ b.filter (fun p => (getKV a p.1).isNone)

mutual

/-- Modelled from the spec: denormalization of component references "one
level deep using each reference's current target data" (spec 4.1): every
object carrying `_ref` is merged with the resolved target's fields taken
verbatim; other objects and arrays are traversed. -/
def inlineJ (comps : List (String × Json)) : Json → Json
  | .obj kvs =>
      match getKV kvs "_ref" with
      | some (.str uri) =>
          match resolveComp comps uri with
          | some (.obj tf) => .obj (mergeKVs kvs tf)
          | _ => .obj kvs
      | _ => .obj (inlineKVs comps kvs)
  | .arr xs => .arr (inlineList comps xs)
  | j => j

/-- `inlineJ` on every element of an array. -/
def inlineList (comps : List (String × Json)) : List Json → List Json
  | [] => []
  | x :: xs => inlineJ comps x :: inlineList comps xs

/-- `inlineJ` on every value of an object. -/
def inlineKVs (comps : List (String × Json)) : List (String × Json) → List (String × Json)
  | [] => []
  | (k, v) :: kvs => (k, inlineJ comps v) :: inlineKVs comps kvs

end

/-- The records emitted for one component type: one base record, then one
record per instance, each with references inlined one level deep. -/
def recordsFor (comps : List (String × Json)) (p : String × Json) : List Json :=
  Json.obj [(compUri p.1, inlineJ comps (Json.obj (removeKV p.2.objFields "instances")))] ::
    (match getKV p.2.objFields "instances" with
     | some (.obj insts) =>
         insts.map (fun q => Json.obj [(instUri p.1 q.1, inlineJ comps q.2)])
     | _ => [])

/-- Modelled from the spec: `toDispatch` on `_components` — "for each
type, emit one record for the base definition (fields with references
inlined one level deep), in the type's field-declaration order; then, for
each instance under that type (in declaration order), emit one record at
the `.../instances/{name}` URI, same inlining rule.  Base record precedes
its instances" (spec 4.1). -/
def componentsDispatch (comps : List (String × Json)) : List Json :=
  comps.flatMap (recordsFor comps)

/-- Modelled from the spec: the page-level rename of the legacy `url`
field to the canonical `customUrl` field (spec 4.1; fixture comments
"deals with slahes … and legacy urls"). -/
def renameUrlJ : Json → Json
  | .obj kvs => .obj (kvs.map (fun p => if p.1 = "url" then ("customUrl", p.2) else p))
  | j => j

/-- Modelled from the spec: `toDispatch` on `_pages` — "normalize the key
by stripping a redundant leading path separator if present; rename a
legacy `legacyUrl`-style field to the canonical external field name; emit
one record per page" (spec 4.1). -/
def pagesDispatch (pages : List (String × Json)) : List Json :=
  pages.map (fun p => Json.obj [(pageUri (stripLeadSlash p.1), renameUrlJ p.2)])

/-- A user that carries an `auth` field. -/
def hasAuth (u : Json) : Bool :=
  match u with
  | .obj kvs => (getKV kvs "auth").isSome
  | _ => false

/-- The string field of an object, or `""`. -/
def getStrD (u : Json) (k : String) : String :=
  match getKV u.objFields k with
  | some (.str s) => s
  | _ => ""

/-- Modelled from the spec: the resource key of a user is "a reversible
encoding of `{username}@{provider}`" (spec 4.1), base64 per the fixture
key `Zm9vQGdvb2dsZQ==`. -/
def userKey (u : Json) : String :=
  b64encodeStr (getStrD u "username" ++ "@" ++ getStrD u "provider")

/-- Modelled from the spec: `toDispatch` on `_users` — "silently drop any
user lacking `auth`; for the remainder, compute the resource key as a
reversible encoding of `{username}@{provider}`; emit one record per
qualifying user, preserving input order" (spec 4.1). -/
def usersDispatch (users : List Json) : List Json :=
  (users.filter hasAuth).map (fun u => Json.obj [(userUri (userKey u), u)])

/-- Modelled from the spec: `toDispatch` on every other root collection —
"for each entry, emit `/{collectionName}/{entryKey}` → value; an entry key
equal to the path separator itself collapses to an empty remainder"
(spec 4.1). -/
def arbitraryDispatch (coll : String) (entries : List (String × Json)) : List Json :=
  entries.map (fun p => Json.obj [(arbUri coll p.1, p.2)])

/-- Modelled from the spec: `toDispatch(bootstrapDocument)` — the lazy
sequence of flat dispatch records, root collections in declaration order,
each converted by its dedicated rule; empty or absent root collections
emit nothing (spec 4.1). -/
def toDispatch (doc : Json) : List Json :=
  doc.objFields.flatMap (fun p =>
    if p.1 = "_components" then componentsDispatch p.2.objFields
    else if p.1 = "_pages" then pagesDispatch p.2.objFields
    else if p.1 = "_users" then usersDispatch p.2.arrItems
    else arbitraryDispatch p.1 p.2.objFields)

mutual

/-- Modelled from the spec: per-record normalization inside `toBootstrap`
— every object carrying `_ref` is reduced back to `{_ref}` only
("stripping is unconditional per-record", spec 4.1), and the denormalized
fields removed from it are collected, with the target URI, for insertion
at the target's own top-level entry. -/
def stripJ : Json → Json × List (String × List (String × Json))
  | .obj kvs =>
      match getKV kvs "_ref" with
      | some (.str uri) =>
          let p := stripSkipRef kvs
          (Json.obj [("_ref", Json.str uri)],
            if p.1.isEmpty then p.2 else (uri, p.1) :: p.2)
      | _ =>
          let p := stripKVs kvs
          (Json.obj p.1, p.2)
  | .arr xs =>
      let p := stripList xs
      (Json.arr p.1, p.2)
  | j => (j, [])

/-- `stripJ` on every element of an array, collecting insertions. -/
def stripList : List Json → List Json × List (String × List (String × Json))
  | [] => ([], [])
  | x :: xs =>
      let p := stripJ x
      let q := stripList xs
      (p.1 :: q.1, p.2 ++ q.2)

/-- `stripJ` on every value of an object, collecting insertions. -/
def stripKVs : List (String × Json) → List (String × Json) × List (String × List (String × Json))
  | [] => ([], [])
  | (k, v) :: kvs =>
      let p := stripJ v
      let q := stripKVs kvs
      ((k, p.1) :: q.1, p.2 ++ q.2)

/-- `stripJ` on every value of an object except the `_ref` field itself. -/
def stripSkipRef : List (String × Json) → List (String × Json) × List (String × List (String × Json))
  | [] => ([], [])
  | (k, v) :: kvs =>
      if k = "_ref" then stripSkipRef kvs
      else
        let p := stripJ v
        let q := stripSkipRef kvs
        ((k, p.1) :: q.1, p.2 ++ q.2)

end

/-- The accumulating state of `toBootstrap`: the growing `_components`
mapping, the growing `_pages` mapping, the `_users` sequence in arrival
order, and the arbitrary collections in first-touch order. -/
structure BState where
  comps : List (String × Json)
  pages : List (String × Json)
  users : List Json
  arbs : List (String × List (String × Json))
deriving DecidableEq

/-- The empty accumulator. -/
def BState.empty : BState := ⟨[], [], [], []⟩

/-- Modelled from the spec: a single write into the growing `_components`
mapping — a base write merges the given fields into the type's entry
field by field (preserving an existing `instances` sub-mapping), an
instance write stores the instance's fields whole under the type's
`instances` sub-mapping, "creating the type's instances sub-mapping on
first use" (spec 4.1). -/
def compWrite (comps : List (String × Json)) (ty : String) (inst : Option String)
    (fields : List (String × Json)) : List (String × Json) :=
  let ekvs := ((getKV comps ty).getD (Json.obj [])).objFields
  match inst with
  | none =>
      setKV comps ty (Json.obj (fields.foldl (fun acc q => setKV acc q.1 q.2) ekvs))
  | some i =>
      let il := ((getKV ekvs "instances").getD (Json.obj [])).objFields
      setKV comps ty (Json.obj (setKV ekvs "instances" (Json.obj (setKV il i (Json.obj fields)))))

/-- Modelled from the spec: application of the insertions collected while
stripping a record — each denormalized reference's fields are inserted at
the referenced component's own entry (even when no separate record for
that target appears in the input). -/
def applyInserts (comps : List (String × Json))
    (ins : List (String × List (String × Json))) : List (String × Json) :=
  ins.foldl
    (fun acc q =>
      match parseUri q.1 with
      | .comp ty inst => compWrite acc ty inst q.2
      | _ => acc)
    comps

/-- Modelled from the spec: insertion of one record of an arbitrary root
collection. -/
def arbWrite (arbs : List (String × List (String × Json))) (coll k : String) (v : Json) :
    List (String × List (String × Json)) :=
  match getKV arbs coll with
  | some es => setKV arbs coll (setKV es k v)
  | none => arbs ++ [(coll, [(k, v)])]

/-- Modelled from the spec: `toBootstrap`'s handling of one dispatch
record — the record's single URI is classified by root segment; component
records are stripped of denormalized reference fields (collected and
re-inserted at their targets), page records get the redundant leading
separator stripped and the legacy `url` field renamed, user records are
appended to the `_users` sequence in arrival order with the key
discarded, anything else goes to the corresponding arbitrary collection
(spec 4.1). -/
def bootstrapStep (st : BState) (record : Json) : BState :=
  match record with
  | .obj ((uri, value) :: _) =>
      match parseUri uri with
      | .comp ty inst =>
          let p := stripJ value
          { st with comps := applyInserts (compWrite st.comps ty inst p.1.objFields) p.2 }
      | .page k => { st with pages := setKV st.pages k (renameUrlJ value) }
      | .user _ => { st with users := st.users ++ [value] }
      | .arb coll k => { st with arbs := arbWrite st.arbs coll k value }
      | .bad => st
  | _ => st

/-- The accumulator after consuming a record sequence. -/
def runBootstrap (records : List Json) : BState :=
  records.foldl bootstrapStep BState.empty

/-- Modelled from the spec: assembly of the final bootstrap document from
the accumulator; root collections that received no record are absent. -/
def finalizeBootstrap (st : BState) : Json :=
  Json.obj
    ((if st.comps.isEmpty then [] else [("_components", Json.obj st.comps)])
      ++ (if st.pages.isEmpty then [] else [("_pages", Json.obj st.pages)])
      ++ (if st.users.isEmpty then [] else [("_users", Json.arr st.users)])
      ++ st.arbs.map (fun p => (p.1, Json.obj p.2)))

/-- Modelled from the spec: `toBootstrap(sequence of dispatch records)`
folds the records into one nested bootstrap document (spec 4.1). -/
def toBootstrap (records : List Json) : Json :=
  finalizeBootstrap (runBootstrap records)

/-! ### The import pipeline (`lib/cmd/import.js`)

The highland stream pipelines of `importStream` and `importSingleUrl` are
embedded as sequential list processing.  A stream slot is
`Except String Json`: `ok` for a fetched/parsed chunk, `error` for an
error value travelling down the stream.  External collaborators are
parameters: `parseJson` (`JSON.parse`), `validate` (`chunks.validate`),
`fromChunk` (`chunks.fromChunk`, the destination re-keying) and `put`
(`rest.put`).  `process.exit(1)` inside `validationError` is modelled by
an exit code of `some 1` and by the fact that no later element of the
input is processed. -/

/-- Result of a run of `importStream`: the chunks that reached
`showProgress`, the exit code of a fatal abort (`none` when the stream
completed), and the pluralized count reported by `showCompleted`
(`none` when the run aborted before `toArray`). -/
structure StreamRunResult where
  progressed : List Json
  exitCode : Option Nat
  summary : Option Nat
deriving DecidableEq

/-- `importStream` from `lib/cmd/import.js` lines 48-55: stdin lines are
parsed (`.map(JSON.parse)`), validated (`.map(chunks.validate)`); the
first error reaches `.stopOnError(validationError)` which logs and calls
`process.exit(1)`; every chunk before it flows through
`.map(showProgress)`, and `.toArray(showCompleted)` reports the count
only when no error occurred. -/
def importStream (parseJson : String → Except String Json)
    (validate : Json → Except String Json) : List String → StreamRunResult
  | [] => ⟨[], none, some 0⟩
  | line :: rest =>
      match (parseJson line).bind validate with
      | .error _ => ⟨[], some 1, none⟩
      | .ok c =>
          let r := importStream parseJson validate rest
          { r with progressed := c :: r.progressed, summary := r.summary.map (· + 1) }

/-- Result of a run of `importSingleUrl`: how many crawl errors were
logged by the first `.errors` handler, the validated chunks, the fatal
exit code (if any), how many write failures the second `.errors` handler
logged (with the red-dot marker), the successful put results that reached
`.toArray`, and the reported summary count. -/
structure SingleRunResult where
  fetchErrorLogs : Nat
  validated : List Json
  exitCode : Option Nat
  writeErrorLogs : Nat
  results : List Json
  summary : Option Nat
deriving DecidableEq

/-- `importSingleUrl` from `lib/cmd/import.js` lines 63-86, applied to the
slots produced by `clayInput.recursiveGet`: the first `.errors` handler
logs each crawl error and pushes it back into the stream
(`push(err)`), `.map(chunks.validate)` maps over values, and
`.stopOnError(validationError)` stops at the first error — whether a
re-pushed crawl error or a validation failure — logging and exiting the
process with code 1.  Values that pass before any error are re-keyed
(`chunks.fromChunk`) and written (`rest.put`); a write failure is logged
with a red dot by the second `.errors` handler and removed from the
stream, a write success flows to `.toArray(showCompleted)`, which prints
the pluralized count of results. -/
def importSingleUrl (validate : Json → Except String Json) (fromChunk : Json → Json)
    (put : Json → Except String Json) : List (Except String Json) → SingleRunResult
  | [] => ⟨0, [], none, 0, [], some 0⟩
  | .error _ :: _ => ⟨1, [], some 1, 0, [], none⟩
  | .ok c :: rest =>
      match validate c with
      | .error _ => ⟨0, [], some 1, 0, [], none⟩
      | .ok v =>
          let r := importSingleUrl validate fromChunk put rest
          match put (fromChunk v) with
          | .ok w =>
              { r with validated := v :: r.validated, results := w :: r.results,
                       summary := r.summary.map (· + 1) }
          | .error _ =>
              { r with validated := v :: r.validated,
                       writeErrorLogs := r.writeErrorLogs + 1 }

/-! ### Key-order normalization (JS deep equality ignores object key order) -/

/-- Order on association entries by key. -/
def keyLE (a b : String × Json) : Prop := a.1 ≤ b.1

/-- Strict order on association entries by key. -/
def keyLT (a b : String × Json) : Prop := a.1 < b.1

instance : DecidableRel keyLE := fun a b => inferInstanceAs (Decidable (a.1 ≤ b.1))

instance : IsTotal (String × Json) keyLE := ⟨fun a b => le_total a.1 b.1⟩

instance : IsTrans (String × Json) keyLE := ⟨fun _ _ _ h1 h2 => le_trans h1 h2⟩

instance : IsAntisymm (String × Json) keyLT :=
  ⟨fun _ _ h1 h2 => absurd h2 (lt_asymm h1)⟩

/-- Sort an association list by key (insertion sort). -/
def sortKVs (l : List (String × Json)) : List (String × Json) := l.insertionSort keyLE

mutual

/-- Recursively sort every object's keys; JS deep equality (`toEqual`)
holds of two documents exactly when their `sortJ` images are equal, for
objects with distinct keys. -/
def sortJ : Json → Json
  | .obj kvs => .obj (sortKVs (sortVals kvs))
  | .arr xs => .arr (sortArr xs)
  | j => j

/-- `sortJ` on every element of an array. -/
def sortArr : List Json → List Json
  | [] => []
  | x :: xs => sortJ x :: sortArr xs

/-- `sortJ` on every value of an object. -/
def sortVals : List (String × Json) → List (String × Json)
  | [] => []
  | (k, v) :: kvs => (k, sortJ v) :: sortVals kvs

end

theorem sortVals_eq_map (l : List (String × Json)) :
    sortVals l = l.map (fun p => (p.1, sortJ p.2)) := by
  induction l with
  | nil => rfl
  | cons hd tl ih => obtain ⟨k, v⟩ := hd; simp [sortVals, ih]

theorem sortArr_eq_map (l : List Json) : sortArr l = l.map sortJ := by
  induction l with
  | nil => rfl
  | cons hd tl ih => simp [sortArr, ih]

theorem sortKVs_perm (l : List (String × Json)) : (sortKVs l).Perm l :=
  List.perm_insertionSort keyLE l

theorem sortKVs_sorted (l : List (String × Json)) : List.Sorted keyLE (sortKVs l) :=
  List.sorted_insertionSort keyLE l

theorem sortKVs_eq_of_perm (l1 l2 : List (String × Json)) (hp : l1.Perm l2)
    (hn : (kvKeys l1).Nodup) : sortKVs l1 = sortKVs l2 := by
  have hperm : (sortKVs l1).Perm (sortKVs l2) :=
    ((sortKVs_perm l1).trans hp).trans (sortKVs_perm l2).symm
  have hn1 : (kvKeys (sortKVs l1)).Nodup := by
    have : (kvKeys (sortKVs l1)).Perm (kvKeys l1) := (sortKVs_perm l1).map Prod.fst
    exact this.nodup_iff.mpr hn
  have hn2 : (kvKeys (sortKVs l2)).Nodup := by
    have hk : (kvKeys (sortKVs l2)).Perm (kvKeys l2) := (sortKVs_perm l2).map Prod.fst
    have hkn : (kvKeys l2).Nodup := by
      have : (kvKeys l1).Perm (kvKeys l2) := hp.map Prod.fst
      exact this.nodup_iff.mp hn
    exact hk.nodup_iff.mpr hkn
  have hs1 : List.Sorted keyLT (sortKVs l1) := by
    have h1 := sortKVs_sorted l1
    have h2 : (sortKVs l1).Pairwise (fun a b : String × Json => a.1 ≠ b.1) :=
      List.pairwise_map.mp hn1
    exact (h1.and h2).imp (fun h => lt_of_le_of_ne h.1 h.2)
  have hs2 : List.Sorted keyLT (sortKVs l2) := by
    have h1 := sortKVs_sorted l2
    have h2 : (sortKVs l2).Pairwise (fun a b : String × Json => a.1 ≠ b.1) :=
      List.pairwise_map.mp hn2
    exact (h1.and h2).imp (fun h => lt_of_le_of_ne h.1 h.2)
  exact List.eq_of_perm_of_sorted hperm hs1 hs2

theorem getKV_some_mem {α : Type} (l : List (String × α)) (k : String) (v : α)
    (h : getKV l k = some v) : (k, v) ∈ l := by
  induction l with
  | nil => simp [getKV] at h
  | cons hd tl ih =>
      obtain ⟨k0, v0⟩ := hd
      by_cases h0 : k0 = k
      · subst h0
        simp [getKV] at h
        simp [h]
      · simp [getKV, h0] at h
        simp [ih h]

theorem removeKV_of_not_mem {α : Type} (l : List (String × α)) (k : String)
    (h : k ∉ kvKeys l) : removeKV l k = l := by
  induction l with
  | nil => rfl
  | cons hd tl ih =>
      obtain ⟨k0, v0⟩ := hd
      simp only [kvKeys, List.map_cons, List.mem_cons] at h
      push_neg at h
      simp [removeKV, Ne.symm h.1, ih (by simpa [kvKeys] using h.2)]

theorem getKV_removeKV_self {α : Type} (l : List (String × α)) (k : String) :
    getKV (removeKV l k) k = none := by
  induction l with
  | nil => rfl
  | cons hd tl ih =>
      obtain ⟨k0, v0⟩ := hd
      by_cases h0 : k0 = k <;> simp [removeKV, h0, getKV, ih]

theorem getKV_removeKV_other {α : Type} (l : List (String × α)) (k k2 : String)
    (h : k ≠ k2) : getKV (removeKV l k) k2 = getKV l k2 := by
  induction l with
  | nil => rfl
  | cons hd tl ih =>
      obtain ⟨k0, v0⟩ := hd
      by_cases h0 : k0 = k
      · subst h0
        simp [removeKV, getKV, h, ih]
      · simp only [removeKV, if_neg h0]
        by_cases h1 : k0 = k2 <;> simp [getKV, h1, ih]

theorem removeKV_sublist {α : Type} (l : List (String × α)) (k : String) :
    (removeKV l k).Sublist l := by
  induction l with
  | nil => simp [removeKV]
  | cons hd tl ih =>
      obtain ⟨k0, v0⟩ := hd
      by_cases h0 : k0 = k
      · simp only [removeKV, if_pos h0]
        exact ih.cons _
      · simp only [removeKV, if_neg h0]
        exact ih.cons₂ _

theorem kvKeys_nodup_removeKV {α : Type} (l : List (String × α)) (k : String)
    (h : (kvKeys l).Nodup) : (kvKeys (removeKV l k)).Nodup :=
  ((removeKV_sublist l k).map Prod.fst).nodup h

theorem perm_cons_removeKV {α : Type} (l : List (String × α)) (k : String) (v : α)
    (hn : (kvKeys l).Nodup) (h : getKV l k = some v) :
    l.Perm ((k, v) :: removeKV l k) := by
  induction l with
  | nil => simp [getKV] at h
  | cons hd tl ih =>
      obtain ⟨k0, v0⟩ := hd
      simp only [kvKeys, List.map_cons, List.nodup_cons] at hn
      by_cases h0 : k0 = k
      · subst h0
        have hv : v0 = v := by simpa [getKV] using h
        subst hv
        rw [removeKV, if_pos rfl, removeKV_of_not_mem tl k0 (by simpa [kvKeys] using hn.1)]
      · simp only [getKV, if_neg h0] at h
        have hp := ih (by simpa [kvKeys] using hn.2) h
        rw [removeKV, if_neg h0]
        refine (hp.cons (k0, v0)).trans ?h
        exact List.Perm.swap (k, v) (k0, v0) (removeKV tl k)

theorem perm_of_getKV_ext {α : Type} (l1 l2 : List (String × α))
    (h1 : (kvKeys l1).Nodup) (h2 : (kvKeys l2).Nodup)
    (h : ∀ k, getKV l1 k = getKV l2 k) : l1.Perm l2 := by
  induction l1 generalizing l2 with
  | nil =>
      cases l2 with
      | nil => exact List.Perm.refl _
      | cons hd tl =>
          obtain ⟨k0, v0⟩ := hd
          have := h k0
          simp [getKV] at this
  | cons hd tl ih =>
      obtain ⟨k0, v0⟩ := hd
      simp only [kvKeys, List.map_cons, List.nodup_cons] at h1
      have hv : getKV l2 k0 = some v0 := by
        have := h k0
        simpa [getKV] using this.symm
      have hperm2 : l2.Perm ((k0, v0) :: removeKV l2 k0) :=
        perm_cons_removeKV l2 k0 v0 h2 hv
      have hnr : (kvKeys (removeKV l2 k0)).Nodup := kvKeys_nodup_removeKV l2 k0 h2
      have hext : ∀ k, getKV tl k = getKV (removeKV l2 k0) k := by
        intro k
        by_cases hk : k0 = k
        · subst hk
          rw [getKV_removeKV_self]
          exact getKV_eq_none_of_not_mem tl k0 (by simpa [kvKeys] using h1.1)
        · rw [getKV_removeKV_other _ _ _ hk]
          have := h k
          simpa [getKV, hk] using this
      have hih := ih (removeKV l2 k0) (by simpa [kvKeys] using h1.2) hnr hext
      exact (hih.cons (k0, v0)).trans hperm2.symm

theorem getKV_sortVals (l : List (String × Json)) (k : String) :
    getKV (sortVals l) k = Option.map sortJ (getKV l k) := by
  induction l with
  | nil => rfl
  | cons hd tl ih =>
      obtain ⟨k0, v0⟩ := hd
      by_cases h0 : k0 = k <;> simp [sortVals, getKV, h0, ih]

theorem kvKeys_sortVals (l : List (String × Json)) : kvKeys (sortVals l) = kvKeys l := by
  rw [sortVals_eq_map]
  induction l with
  | nil => rfl
  | cons hd tl ih => simp [kvKeys]

/-- Two objects with distinct keys and `sortJ`-equal values at every key
have the same `sortJ` image: this is exactly JS deep equality of objects. -/
theorem sortJ_obj_ext (kvs1 kvs2 : List (String × Json))
    (h1 : (kvKeys kvs1).Nodup) (h2 : (kvKeys kvs2).Nodup)
    (h : ∀ k, Option.map sortJ (getKV kvs1 k) = Option.map sortJ (getKV kvs2 k)) :
    sortJ (.obj kvs1) = sortJ (.obj kvs2) := by
  rw [sortJ, sortJ]
  congr 1
  apply sortKVs_eq_of_perm
  · apply perm_of_getKV_ext
    · rw [kvKeys_sortVals]; exact h1
    · rw [kvKeys_sortVals]; exact h2
    · intro k
      rw [getKV_sortVals, getKV_sortVals]
      exact h k
  · rw [kvKeys_sortVals]; exact h1

/-! ### Claims about the import pipeline (`lib/cmd/import.js`) -/

/-- **C3.**  For every input record stream, the first record that fails
parsing or validation aborts the entire run with a fatal error and
non-zero exit: the run's output consists of exactly the valid records
before the point of failure, the process exits with code 1, and no
summary is reported — no record after the point of failure is processed,
progressed, or written (`importStream` never writes at all). -/
theorem importStream_first_invalid_aborts_run
    (parseJson : String → Except String Json) (validate : Json → Except String Json)
    (pre : List String) (bad : String) (post : List String)
    (hpre : ∀ line ∈ pre, ((parseJson line).bind validate).isOk = true)
    (hbad : ((parseJson bad).bind validate).isOk = false) :
    importStream parseJson validate (pre ++ bad :: post)
      = ⟨pre.filterMap (fun line => ((parseJson line).bind validate).toOption),
         some 1, none⟩ := by
  induction pre with
  | nil =>
      cases hv : (parseJson bad).bind validate with
      | error e => simp [importStream, hv]
      | ok c => rw [hv] at hbad; simp [Except.isOk, Except.toBool] at hbad
  | cons line rest ih =>
      have hline := hpre line (by simp)
      cases hv : (parseJson line).bind validate with
      | error e => rw [hv] at hline; simp [Except.isOk, Except.toBool] at hline
      | ok c =>
          have hrest : ∀ l ∈ rest, ((parseJson l).bind validate).isOk = true :=
            fun l hl => hpre l (by simp [hl])
          simp only [List.cons_append, importStream, hv, List.append_eq]
          rw [ih hrest]
          simp [hv, Except.toOption]

def witParse : String → Except String Json :=
  fun s => if s = "bad" then .error "malformed" else .ok (.str s)

def witValidate : Json → Except String Json := fun c => .ok c

theorem importStream_first_invalid_aborts_run_witness :
    importStream witParse witValidate ["a", "bad", "c"]
      = ⟨[Json.str "a"], some 1, none⟩ := by
  have h := importStream_first_invalid_aborts_run witParse witValidate
    ["a"] "bad" ["c"] (by decide) (by decide)
  simpa [witParse, witValidate, Except.toOption] using h

/-- **C2** (code bug).  The specification says a fetch failure for one
crawled resource is non-fatal: logged per-item, that resource simply
absent, the run continuing to validate and write the rest.  In the code,
however, the first `.errors` handler of `importSingleUrl` re-pushes the
error into the stream (`push(err)`), so it reaches
`.stopOnError(validationError)` which calls `process.exit(1)`: this
theorem evaluates the embedding at a failing input — a crawl of three
slots whose second fetch fails — and shows the run aborts with exit code
1 and no summary, never reaching the third resource. -/
theorem importSingleUrl_fetch_error_fatal :
    importSingleUrl (fun c => .ok c) id (fun c => .ok c)
      [.ok (.str "c1"), .error "ECONNREFUSED", .ok (.str "c2")]
      = ⟨1, [.str "c1"], some 1, 0, [.str "c1"], none⟩ := rfl

/-- **C6.**  In the single-resource import flow, when every crawled slot
arrives and validates, a write failure for one record is non-fatal: the
run completes without a fatal exit, the summary reports exactly the
number of successful writes, every write failure is logged (red dot)
exactly once, and every attempted write is accounted as success or
failure exactly once (`successes + failures = attempts`). -/
theorem importSingleUrl_write_failure_nonfatal
    (validate : Json → Except String Json) (fromChunk : Json → Json)
    (put : Json → Except String Json) (slots : List (Except String Json))
    (hok : ∀ s ∈ slots, (s.bind validate).isOk = true) :
    (importSingleUrl validate fromChunk put slots).exitCode = none
      ∧ (importSingleUrl validate fromChunk put slots).summary
          = some (importSingleUrl validate fromChunk put slots).results.length
      ∧ (importSingleUrl validate fromChunk put slots).results.length
          + (importSingleUrl validate fromChunk put slots).writeErrorLogs
          = slots.length := by
  induction slots with
  | nil => exact ⟨rfl, rfl, rfl⟩
  | cons s rest ih =>
      have hs := hok s (by simp)
      have hrest : ∀ t ∈ rest, (t.bind validate).isOk = true :=
        fun t ht => hok t (by simp [ht])
      obtain ⟨he, hsum, hlen⟩ := ih hrest
      cases s with
      | error e => simp [Except.isOk, Except.toBool, Except.bind] at hs
      | ok c =>
          cases hv : validate c with
          | error e =>
              rw [show (Except.ok c).bind validate = validate c from rfl, hv] at hs
              simp [Except.isOk, Except.toBool] at hs
          | ok v =>
              cases hw : put (fromChunk v) with
              | ok w =>
                  refine ⟨?e1, ?e2, ?e3⟩
                  · simpa [importSingleUrl, hv, hw] using he
                  · simp only [importSingleUrl, hv, hw]
                    rw [hsum]
                    simp
                  · simp only [importSingleUrl, hv, hw, List.length_cons]
                    omega
              | error e =>
                  refine ⟨?f1, ?f2, ?f3⟩
                  · simpa [importSingleUrl, hv, hw] using he
                  · simp only [importSingleUrl, hv, hw]
                    exact hsum
                  · simp only [importSingleUrl, hv, hw, List.length_cons]
                    omega

def witPut : Json → Except String Json :=
  fun c => if c = .str "c2" then .error "500" else .ok c

theorem importSingleUrl_write_failure_nonfatal_witness :
    (importSingleUrl (fun c => .ok c) id witPut
        [.ok (.str "c1"), .ok (.str "c2"), .ok (.str "c3")]).exitCode = none
      ∧ (importSingleUrl (fun c => .ok c) id witPut
          [.ok (.str "c1"), .ok (.str "c2"), .ok (.str "c3")]).summary = some 2
      ∧ (2 : Nat) + 1 = 3 := by
  have h := importSingleUrl_write_failure_nonfatal (fun c => .ok c) id witPut
    [.ok (.str "c1"), .ok (.str "c2"), .ok (.str "c3")] (by decide)
  refine ⟨h.1, ?s, by decide⟩
  have : (importSingleUrl (fun c => .ok c) id witPut
      [.ok (.str "c1"), .ok (.str "c2"), .ok (.str "c3")]).results.length = 2 := by decide
  rw [h.2.1, this]

/-! ### Claims about the transcoder: arbitrary collections (C9) -/

theorem runBootstrap_arb_aux (coll : String) (entries : List (String × Json))
    (acc : List (String × Json)) (hc : wfArbName coll)
    (hk : ∀ p ∈ entries, p.1 ≠ "" ∧ getKV acc p.1 = none)
    (hnd : (kvKeys entries).Nodup) :
    List.foldl bootstrapStep ⟨[], [], [], [(coll, acc)]⟩
        (entries.map (fun p => Json.obj [(arbUri coll p.1, p.2)]))
      = ⟨[], [], [], [(coll, acc ++ entries)]⟩ := by
  induction entries generalizing acc with
  | nil => simp
  | cons hd tl ih =>
      obtain ⟨k, v⟩ := hd
      obtain ⟨hk1, hk2⟩ := hk (k, v) (by simp)
      simp only [kvKeys, List.map_cons, List.nodup_cons] at hnd
      simp only [List.map_cons, List.foldl_cons]
      have hstep : bootstrapStep ⟨[], [], [], [(coll, acc)]⟩ (Json.obj [(arbUri coll k, v)])
          = ⟨[], [], [], [(coll, acc ++ [(k, v)])]⟩ := by
        simp only [bootstrapStep, parseUri_arbUri coll k hc hk1]
        simp [arbWrite, getKV, setKV, setKV_of_getKV_none acc k v hk2]
      rw [hstep]
      have hk' : ∀ p ∈ tl, p.1 ≠ "" ∧ getKV (acc ++ [(k, v)]) p.1 = none := by
        intro p hp
        obtain ⟨hp1, hp2⟩ := hk p (by simp [hp])
        refine ⟨hp1, ?g⟩
        rw [getKV_append, hp2]
        have hpk : p.1 ≠ k := by
          intro he
          exact hnd.1 (he ▸ (List.mem_map.mpr ⟨p, hp, rfl⟩))
        simp [getKV, Ne.symm hpk]
      rw [ih (acc ++ [(k, v)]) hk' (by simpa [kvKeys] using hnd.2)]
      simp

/-- **C9.**  For every arbitrary root collection, `toDispatch` emits one
record `/{collectionName}/{entryKey}` per entry, mapped to the unchanged
value; an entry key equal to the path separator itself collapses to an
empty remainder, so the URI carries no duplicated separator; and
`toBootstrap` inverts this (re-adding the leading separator when the
remainder is empty), so the pair round-trips arbitrary collections
exactly. -/
theorem arbitrary_collection_roundtrip (coll : String) (entries : List (String × Json))
    (hc : wfArbName coll) (hne : entries ≠ [])
    (hnd : (kvKeys entries).Nodup)
    (hk : ∀ p ∈ entries, p.1 ≠ "") :
    toDispatch (.obj [(coll, .obj entries)])
        = entries.map (fun p => Json.obj [(arbUri coll p.1, p.2)])
      ∧ arbUri coll "/" = "/" ++ coll ++ "/"
      ∧ toBootstrap (entries.map (fun p => Json.obj [(arbUri coll p.1, p.2)]))
        = .obj [(coll, .obj entries)] := by
  have hc' := hc
  simp only [wfArbName, Bool.and_eq_true, bne_iff_ne, ne_eq] at hc'
  refine ⟨?d, ?u, ?b⟩
  · simp [toDispatch, Json.objFields, arbitraryDispatch, hc'.1.1.2, hc'.1.2, hc'.2]
  · simp [arbUri]
  · cases entries with
    | nil => exact absurd rfl hne
    | cons hd tl =>
        obtain ⟨k, v⟩ := hd
        obtain hk1 := hk (k, v) (by simp)
        simp only [kvKeys, List.map_cons, List.nodup_cons] at hnd
        rw [toBootstrap, runBootstrap]
        simp only [List.map_cons, List.foldl_cons]
        have hstep : bootstrapStep BState.empty (Json.obj [(arbUri coll k, v)])
            = ⟨[], [], [], [(coll, [(k, v)])]⟩ := by
          simp only [bootstrapStep, BState.empty, parseUri_arbUri coll k hc hk1]
          simp [arbWrite, getKV]
        rw [hstep]
        have hk' : ∀ p ∈ tl, p.1 ≠ "" ∧ getKV [(k, v)] p.1 = none := by
          intro p hp
          refine ⟨(hk p (by simp [hp])), ?g⟩
          have hpk : p.1 ≠ k := by
            intro he
            exact hnd.1 (he ▸ (List.mem_map.mpr ⟨p, hp, rfl⟩))
          simp [getKV, Ne.symm hpk]
        rw [runBootstrap_arb_aux coll tl [(k, v)] hc hk' (by simpa [kvKeys] using hnd.2)]
        simp [finalizeBootstrap]

def witArbEntries : List (String × Json) :=
  [("/", Json.str "/_pages/index"), ("a", Json.arr [Json.num 1, Json.num 2, Json.num 3])]

theorem arbitrary_collection_roundtrip_witness :
    toDispatch (.obj [("_uris", .obj witArbEntries)])
        = [Json.obj [("/_uris/", Json.str "/_pages/index")],
           Json.obj [("/_uris/a", Json.arr [Json.num 1, Json.num 2, Json.num 3])]]
      ∧ arbUri "_uris" "/" = "/_uris/"
      ∧ toBootstrap [Json.obj [("/_uris/", Json.str "/_pages/index")],
           Json.obj [("/_uris/a", Json.arr [Json.num 1, Json.num 2, Json.num 3])]]
        = .obj [("_uris", .obj witArbEntries)] := by
  have h := arbitrary_collection_roundtrip "_uris" witArbEntries
    (by decide) (by decide) (by decide) (by decide)
  obtain ⟨h1, h2, h3⟩ := h
  refine ⟨?d, ?u, ?b⟩
  · rw [h1]; rfl
  · rw [h2]; rfl
  · have he : witArbEntries.map (fun p => Json.obj [(arbUri "_uris" p.1, p.2)])
        = [Json.obj [("/_uris/", Json.str "/_pages/index")],
           Json.obj [("/_uris/a", Json.arr [Json.num 1, Json.num 2, Json.num 3])]] := by decide
    rw [← he]
    exact h3

/-! ### Claims about the transcoder: pages (C5) -/

/-- **C5, counterexample.**  The claim says `toBootstrap` applies the
*inverse* rename, back to the legacy bootstrap name `url`.  It does not:
on a record carrying the legacy `url` field, `toBootstrap` produces the
canonical `customUrl` field (exactly as the repository's own
`toBootstrap` page test expects), not `url`. -/
theorem toBootstrap_page_rename_counterexample :
    toBootstrap [Json.obj [("/_pages/bar", Json.obj [("url", Json.str "http://google.com")])]]
        = Json.obj [("_pages", Json.obj [("bar",
            Json.obj [("customUrl", Json.str "http://google.com")])])]
      ∧ toBootstrap [Json.obj [("/_pages/bar", Json.obj [("url", Json.str "http://google.com")])]]
        ≠ Json.obj [("_pages", Json.obj [("bar",
            Json.obj [("url", Json.str "http://google.com")])])] := by
  constructor
  · rfl
  · decide

theorem renameUrl_get_customUrl (kvs : List (String × Json)) (w : Json)
    (hcu : getKV kvs "customUrl" = none) (hw : getKV kvs "url" = some w) :
    getKV (kvs.map (fun p => if p.1 = "url" then ("customUrl", p.2) else p)) "customUrl"
      = some w := by
  induction kvs with
  | nil => simp [getKV] at hw
  | cons hd tl ih =>
      obtain ⟨k0, v0⟩ := hd
      by_cases h0 : k0 = "url"
      · subst h0
        have hww : v0 = w := by simpa [getKV] using hw
        subst hww
        rw [List.map_cons,
          show (if (("url", v0) : String × Json).1 = "url"
              then ("customUrl", (("url", v0) : String × Json).2) else ("url", v0))
              = ("customUrl", v0) by simp,
          getKV, if_pos rfl]
      · by_cases h1 : k0 = "customUrl"
        · subst h1
          simp [getKV] at hcu
        · have hw2 : getKV tl "url" = some w := by simpa [getKV, h0] using hw
          have hcu2 : getKV tl "customUrl" = none := by simpa [getKV, h1] using hcu
          rw [List.map_cons,
            show (if ((k0, v0) : String × Json).1 = "url"
                then ("customUrl", ((k0, v0) : String × Json).2) else (k0, v0))
                = (k0, v0) by simp [h0],
            getKV, if_neg h1]
          exact ih hcu2 hw2

theorem renameUrl_get_url (kvs : List (String × Json)) :
    getKV (kvs.map (fun p => if p.1 = "url" then ("customUrl", p.2) else p)) "url"
      = none := by
  induction kvs with
  | nil => rfl
  | cons hd tl ih =>
      obtain ⟨k0, v0⟩ := hd
      by_cases h0 : k0 = "url"
      · subst h0
        rw [List.map_cons,
          show (if (("url", v0) : String × Json).1 = "url"
              then ("customUrl", (("url", v0) : String × Json).2) else ("url", v0))
              = ("customUrl", v0) by simp,
          getKV, if_neg (by decide)]
        exact ih
      · rw [List.map_cons,
          show (if ((k0, v0) : String × Json).1 = "url"
              then ("customUrl", ((k0, v0) : String × Json).2) else (k0, v0))
              = (k0, v0) by simp [h0],
          getKV, if_neg h0]
        exact ih

/-- **C5, amended.**  For every `_pages` entry, `toDispatch` strips a
redundant leading path separator from the page key and renames the
legacy `url` field to the canonical external field name `customUrl`,
emitting one record per page; and `toBootstrap` applies the *same*
normalization — it strips the same redundant leading separator from the
record's key and renames the same legacy `url` field to `customUrl`
(the rename is an idempotent legacy-to-canonical normalization applied
at both conversion boundaries, not inverted on the way back). -/
theorem pages_normalized_both_ways
    (pages : List (String × Json)) (k : String) (v : Json)
    (kvs : List (String × Json)) (hcu : getKV kvs "customUrl" = none) :
    toDispatch (.obj [("_pages", .obj pages)])
        = pages.map (fun p => Json.obj [(pageUri (stripLeadSlash p.1), renameUrlJ p.2)])
      ∧ stripLeadSlash ("/" ++ k) = k
      ∧ (∀ w, getKV kvs "url" = some w →
          getKV (renameUrlJ (.obj kvs)).objFields "customUrl" = some w)
      ∧ getKV (renameUrlJ (.obj kvs)).objFields "url" = none
      ∧ toBootstrap [Json.obj [(pageUri k, v)]]
        = Json.obj [("_pages", Json.obj [(stripLeadSlash k, renameUrlJ v)])] := by
  refine ⟨?d, ?strip, ?ren, ?ren2, ?b⟩
  · simp [toDispatch, Json.objFields, pagesDispatch]
  · have hd : ("/" ++ k).data = '/' :: k.data := rfl
    rw [stripLeadSlash, hd]
    simp
  · intro w hw
    exact renameUrl_get_customUrl kvs w hcu hw
  · exact renameUrl_get_url kvs
  · rw [toBootstrap, runBootstrap]
    simp only [List.foldl_cons, List.foldl_nil]
    have hstep : bootstrapStep BState.empty (Json.obj [(pageUri k, v)])
        = ⟨[], [(stripLeadSlash k, renameUrlJ v)], [], []⟩ := by
      simp [bootstrapStep, BState.empty, parseUri_pageUri k, setKV]
    rw [hstep]
    simp [finalizeBootstrap]

theorem pages_normalized_both_ways_witness :
    toDispatch (.obj [("_pages", .obj [("/bar",
          Json.obj [("layout", Json.str "l"), ("url", Json.str "http://google.com")])])])
        = [Json.obj [("/_pages/bar",
            Json.obj [("layout", Json.str "l"), ("customUrl", Json.str "http://google.com")])]]
      ∧ stripLeadSlash "/bar" = "bar"
      ∧ getKV (renameUrlJ (.obj [("layout", Json.str "l"),
            ("url", Json.str "http://google.com")])).objFields "customUrl"
          = some (Json.str "http://google.com")
      ∧ toBootstrap [Json.obj [(pageUri "bar",
            Json.obj [("url", Json.str "http://google.com")])]]
        = Json.obj [("_pages", Json.obj [("bar",
            Json.obj [("customUrl", Json.str "http://google.com")])])] := by
  have h := pages_normalized_both_ways
    [("/bar", Json.obj [("layout", Json.str "l"), ("url", Json.str "http://google.com")])]
    "bar" (Json.obj [("url", Json.str "http://google.com")])
    [("layout", Json.str "l"), ("url", Json.str "http://google.com")] (by decide)
  refine ⟨?d, h.2.1, ?ren, ?b⟩
  · rw [h.1]; rfl
  · exact h.2.2.1 (Json.str "http://google.com") (by decide)
  · rw [h.2.2.2.2]; rfl

/-! ### Claims about the transcoder: users (C4) -/

theorem runBootstrap_users_aux (vals : List Json) (acc : List Json) :
    List.foldl bootstrapStep ⟨[], [], acc, []⟩
        (vals.map (fun u => Json.obj [(userUri (userKey u), u)]))
      = ⟨[], [], acc ++ vals, []⟩ := by
  induction vals generalizing acc with
  | nil => simp
  | cons hd tl ih =>
      simp only [List.map_cons, List.foldl_cons]
      have hstep : bootstrapStep ⟨[], [], acc, []⟩ (Json.obj [(userUri (userKey hd), hd)])
          = ⟨[], [], acc ++ [hd], []⟩ := by
        simp [bootstrapStep, parseUri_userUri]
      rw [hstep, ih (acc ++ [hd])]
      simp

/-- **C4.**  For every `_users` list, `toDispatch` silently drops every
user lacking `auth` and, for each remaining user in input order, emits
exactly one record whose key is the base64 encoding of
`{username}@{provider}`; that encoding is reversible (base64 decoding
recovers `{username}@{provider}` exactly); and `toBootstrap` of those
records reproduces exactly the qualifying users, in order (the `_users`
root is absent when no user qualifies). -/
theorem users_dispatch_roundtrip (users : List Json)
    (hascii : ∀ u ∈ users,
      asciiStr (getStrD u "username" ++ "@" ++ getStrD u "provider") = true) :
    toDispatch (.obj [("_users", .arr users)])
        = (users.filter hasAuth).map (fun u => Json.obj [(userUri (userKey u), u)])
      ∧ toBootstrap ((users.filter hasAuth).map (fun u => Json.obj [(userUri (userKey u), u)]))
        = (if users.filter hasAuth = [] then Json.obj []
           else Json.obj [("_users", Json.arr (users.filter hasAuth))])
      ∧ ∀ u ∈ users, b64decodeStr (userKey u)
          = some (getStrD u "username" ++ "@" ++ getStrD u "provider") := by
  refine ⟨?d, ?b, ?rev⟩
  · simp [toDispatch, Json.objFields, Json.arrItems, usersDispatch]
  · rw [toBootstrap, runBootstrap]
    rw [show BState.empty = (⟨[], [], ([] : List Json), []⟩ : BState) from rfl]
    rw [runBootstrap_users_aux (users.filter hasAuth) []]
    cases hemp : users.filter hasAuth with
    | nil => simp [finalizeBootstrap]
    | cons hd tl => simp [finalizeBootstrap]
  · intro u hu
    exact b64decodeStr_encodeStr _ (hascii u hu)

def witUsers : List Json :=
  [Json.obj [("username", Json.str "foo"), ("provider", Json.str "google"),
             ("auth", Json.str "admin")],
   Json.obj [("username", Json.str "nobody"), ("provider", Json.str "google")]]

theorem users_dispatch_roundtrip_witness :
    toDispatch (.obj [("_users", .arr witUsers)])
        = [Json.obj [("/_users/Zm9vQGdvb2dsZQ==",
            Json.obj [("username", Json.str "foo"), ("provider", Json.str "google"),
                      ("auth", Json.str "admin")])]]
      ∧ toBootstrap [Json.obj [("/_users/Zm9vQGdvb2dsZQ==",
            Json.obj [("username", Json.str "foo"), ("provider", Json.str "google"),
                      ("auth", Json.str "admin")])]]
        = Json.obj [("_users", Json.arr
            [Json.obj [("username", Json.str "foo"), ("provider", Json.str "google"),
                       ("auth", Json.str "admin")]])]
      ∧ b64decodeStr "Zm9vQGdvb2dsZQ==" = some "foo@google" := by
  have h := users_dispatch_roundtrip witUsers (by decide)
  obtain ⟨h1, h2, h3⟩ := h
  have hfilter : witUsers.filter hasAuth
      = [Json.obj [("username", Json.str "foo"), ("provider", Json.str "google"),
                   ("auth", Json.str "admin")]] := by decide
  have hkey : userKey (Json.obj [("username", Json.str "foo"),
      ("provider", Json.str "google"), ("auth", Json.str "admin")])
      = "Zm9vQGdvb2dsZQ==" := by decide
  refine ⟨?d, ?b, ?rev⟩
  · rw [h1, hfilter]
    simp [hkey, userUri]
  · have hrecs : (witUsers.filter hasAuth).map (fun u => Json.obj [(userUri (userKey u), u)])
        = [Json.obj [("/_users/Zm9vQGdvb2dsZQ==",
            Json.obj [("username", Json.str "foo"), ("provider", Json.str "google"),
                      ("auth", Json.str "admin")])]] := by decide
    rw [← hrecs, h2, hfilter]
    rfl
  · have := h3 (Json.obj [("username", Json.str "foo"), ("provider", Json.str "google"),
      ("auth", Json.str "admin")]) (by decide)
    rw [hkey] at this
    rw [this]
    rfl

/-! ### Claims about the transcoder: component references (C10, C7) -/

theorem foldl_setKV_fresh {α : Type} (fields acc : List (String × α))
    (h : ∀ p ∈ fields, getKV acc p.1 = none) (hnd : (kvKeys fields).Nodup) :
    fields.foldl (fun a q => setKV a q.1 q.2) acc = acc ++ fields := by
  induction fields generalizing acc with
  | nil => simp
  | cons hd tl ih =>
      obtain ⟨k, v⟩ := hd
      simp only [kvKeys, List.map_cons, List.nodup_cons] at hnd
      simp only [List.foldl_cons]
      rw [setKV_of_getKV_none acc k v (h (k, v) (by simp))]
      rw [ih (acc ++ [(k, v)]) ?fresh (by simpa [kvKeys] using hnd.2)]
      · simp
      case fresh =>
        intro p hp
        rw [getKV_append, h p (by simp [hp])]
        have hpk : p.1 ≠ k := by
          intro he
          exact hnd.1 (he ▸ (List.mem_map.mpr ⟨p, hp, rfl⟩))
        simp [getKV, Ne.symm hpk]

/-- `toBootstrap` on a single component record whose only field carries a
reference with denormalized fields: the reference is reduced to `{_ref}`
and the denormalized fields become the target's own top-level
`_components` entry. -/
theorem bootstrap_single_ref_record (ty tgt f uri : String)
    (extras : List (String × Json))
    (hty : wfName ty) (hparse : parseUri uri = .comp tgt none) (hne : ty ≠ tgt)
    (hextras : extras ≠ []) (hskip : stripSkipRef extras = (extras, []))
    (hnd : (kvKeys extras).Nodup) (hf : f ≠ "_ref") :
    toBootstrap [Json.obj [(compUri ty,
        Json.obj [(f, Json.obj (("_ref", Json.str uri) :: extras))])]]
      = Json.obj [("_components", Json.obj
          [(ty, Json.obj [(f, Json.obj [("_ref", Json.str uri)])]),
           (tgt, Json.obj extras)])] := by
  rw [toBootstrap, runBootstrap]
  simp only [List.foldl_cons, List.foldl_nil]
  have hstrip : stripJ (Json.obj [(f, Json.obj (("_ref", Json.str uri) :: extras))])
      = (Json.obj [(f, Json.obj [("_ref", Json.str uri)])], [(uri, extras)]) := by
    rw [stripJ]
    rw [show getKV [(f, Json.obj (("_ref", Json.str uri) :: extras))] "_ref" = none by
      simp [getKV, hf]]
    simp only []
    rw [stripKVs, stripJ]
    rw [show getKV (("_ref", Json.str uri) :: extras) "_ref" = some (Json.str uri) by
      simp [getKV]]
    simp only []
    rw [stripSkipRef, if_pos rfl, hskip]
    have hie : extras.isEmpty = false := by
      cases extras with
      | nil => exact absurd rfl hextras
      | cons a b => rfl
    simp [hie, stripKVs]
  have hstep : bootstrapStep BState.empty (Json.obj [(compUri ty,
      Json.obj [(f, Json.obj (("_ref", Json.str uri) :: extras))])])
      = ⟨[(ty, Json.obj [(f, Json.obj [("_ref", Json.str uri)])]),
          (tgt, Json.obj extras)], [], [], []⟩ := by
    simp only [bootstrapStep, BState.empty, parseUri_compUri ty hty, hstrip]
    have hw1 : compWrite [] ty none
        (Json.obj [(f, Json.obj [("_ref", Json.str uri)])]).objFields
        = [(ty, Json.obj [(f, Json.obj [("_ref", Json.str uri)])])] := by
      simp [compWrite, Json.objFields, getKV, setKV]
    rw [hw1]
    simp only [applyInserts, List.foldl_cons, List.foldl_nil, hparse]
    rw [compWrite]
    rw [show getKV [(ty, Json.obj [(f, Json.obj [("_ref", Json.str uri)])])] tgt = none by
      simp [getKV, hne]]
    simp only [Option.getD_none]
    rw [show (Json.obj ([] : List (String × Json))).objFields = [] from rfl]
    rw [foldl_setKV_fresh extras [] (by intro p hp; rfl) hnd]
    rw [setKV_of_getKV_none _ tgt _ (by simp [getKV, hne])]
    simp
  rw [hstep]
  simp [finalizeBootstrap]

/-- **C10.**  When `toBootstrap` encounters a component reference carrying
denormalized fields, it not only strips the reference to `{_ref}` but
also inserts the denormalized fields as the referenced component's own
top-level entry in `_components`, even though no separate dispatch record
for that target appears anywhere in the input sequence (here the input is
a single record). -/
theorem toBootstrap_inserts_denormalized_target (ty tgt f uri : String)
    (extras : List (String × Json))
    (hty : wfName ty) (hparse : parseUri uri = .comp tgt none) (hne : ty ≠ tgt)
    (hextras : extras ≠ []) (hskip : stripSkipRef extras = (extras, []))
    (hnd : (kvKeys extras).Nodup) (hf : f ≠ "_ref") :
    toBootstrap [Json.obj [(compUri ty,
        Json.obj [(f, Json.obj (("_ref", Json.str uri) :: extras))])]]
      = Json.obj [("_components", Json.obj
          [(ty, Json.obj [(f, Json.obj [("_ref", Json.str uri)])]),
           (tgt, Json.obj extras)])] :=
  bootstrap_single_ref_record ty tgt f uri extras hty hparse hne hextras hskip hnd hf

theorem toBootstrap_inserts_denormalized_target_witness :
    toBootstrap [Json.obj [("/_components/a",
        Json.obj [("child", Json.obj [("_ref", Json.str "/_components/b"), ("a", Json.str "b")])])]]
      = Json.obj [("_components", Json.obj
          [("a", Json.obj [("child", Json.obj [("_ref", Json.str "/_components/b")])]),
           ("b", Json.obj [("a", Json.str "b")])])] := by
  have h := toBootstrap_inserts_denormalized_target "a" "b" "child" "/_components/b"
    [("a", Json.str "b")] (by decide)
    (by rw [show ("/_components/b" : String) = compUri "b" from rfl]
        exact parseUri_compUri "b" (by decide))
    (by decide) (by decide) (by decide) (by decide) (by decide)
  rw [show ("/_components/a" : String) = compUri "a" from rfl]
  exact h

theorem getKV_inlineKVs (comps l : List (String × Json)) (k : String) :
    getKV (inlineKVs comps l) k = Option.map (inlineJ comps) (getKV l k) := by
  induction l with
  | nil => rfl
  | cons hd tl ih =>
      obtain ⟨k0, v0⟩ := hd
      by_cases h0 : k0 = k <;> simp [inlineKVs, getKV, h0, ih]

theorem mergeKVs_singleton_ref (uri : String) (tf : List (String × Json))
    (h : getKV tf "_ref" = none) :
    mergeKVs [("_ref", Json.str uri)] tf = ("_ref", Json.str uri) :: tf := by
  rw [mergeKVs]
  have : tf.filter (fun p => (getKV [("_ref", Json.str uri)] p.1).isNone) = tf := by
    apply List.filter_eq_self.mpr
    intro p hp
    have hne : p.1 ≠ "_ref" := by
      intro he
      have hm : (getKV tf "_ref").isSome :=
        getKV_isSome_of_mem tf "_ref" (he ▸ (List.mem_map.mpr ⟨p, hp, rfl⟩))
      rw [h] at hm
      simp at hm
    simp [getKV, Ne.symm hne]
  rw [this]
  rfl

/-- **C7.**  For every component base definition one of whose fields
carries a bare reference `{_ref: URI}` to a target with current fields
`tf`, `toDispatch` emits the base record with that reference inlined one
level deep as `{_ref, ...tf}` (the record is in the emitted sequence and
the field's value is the merged object), and `toBootstrap` of a record
carrying such an inlined reference strips it back to an object holding
only `_ref`. -/
theorem component_ref_inlined_and_stripped
    (comps : List (String × Json)) (ty tgt f uri : String)
    (d tf : List (String × Json))
    (hmem : (ty, Json.obj d) ∈ comps)
    (hnoref : getKV (removeKV d "instances") "_ref" = none)
    (hfield : getKV (removeKV d "instances") f = some (Json.obj [("_ref", Json.str uri)]))
    (hres : resolveComp comps uri = some (Json.obj tf))
    (htf : getKV tf "_ref" = none)
    (hty : wfName ty) (hparse : parseUri uri = .comp tgt none) (hne : ty ≠ tgt)
    (htfne : tf ≠ []) (hskip : stripSkipRef tf = (tf, []))
    (hndtf : (kvKeys tf).Nodup) (hf : f ≠ "_ref") :
    Json.obj [(compUri ty, inlineJ comps (Json.obj (removeKV d "instances")))]
        ∈ componentsDispatch comps
      ∧ getKV (inlineJ comps (Json.obj (removeKV d "instances"))).objFields f
          = some (Json.obj (("_ref", Json.str uri) :: tf))
      ∧ (∃ cs e, getKV (toBootstrap [Json.obj [(compUri ty,
            Json.obj [(f, Json.obj (("_ref", Json.str uri) :: tf))])]]).objFields
              "_components" = some (Json.obj cs)
          ∧ getKV cs ty = some e
          ∧ getKV e.objFields f = some (Json.obj [("_ref", Json.str uri)])) := by
  refine ⟨?mem, ?inl, ?strip⟩
  · apply List.mem_flatMap.mpr
    refine ⟨(ty, Json.obj d), hmem, ?hd⟩
    simp [recordsFor, Json.objFields]
  · rw [inlineJ, hnoref]
    rw [show (Json.obj (inlineKVs comps (removeKV d "instances"))).objFields
          = inlineKVs comps (removeKV d "instances") from rfl]
    rw [getKV_inlineKVs, hfield]
    simp only [Option.map_some']
    congr 1
    rw [inlineJ]
    rw [show getKV [("_ref", Json.str uri)] "_ref" = some (Json.str uri) by simp [getKV]]
    simp only [hres]
    rw [mergeKVs_singleton_ref uri tf htf]
  · rw [bootstrap_single_ref_record ty tgt f uri tf hty hparse hne htfne hskip hndtf hf]
    refine ⟨[(ty, Json.obj [(f, Json.obj [("_ref", Json.str uri)])]), (tgt, Json.obj tf)],
      Json.obj [(f, Json.obj [("_ref", Json.str uri)])], ?g1, ?g2, ?g3⟩
    · simp [Json.objFields, getKV]
    · simp [getKV]
    · simp [Json.objFields, getKV]

def witC7Comps : List (String × Json) :=
  [("article", Json.obj [
      ("title", Json.str "Empty"),
      ("content", Json.obj [("_ref", Json.str "/_components/paragraph")])]),
   ("paragraph", Json.obj [("text", Json.str "empty")])]

theorem component_ref_inlined_and_stripped_witness :
    Json.obj [(compUri "article", inlineJ witC7Comps
        (Json.obj (removeKV (Json.obj [
          ("title", Json.str "Empty"),
          ("content", Json.obj [("_ref", Json.str "/_components/paragraph")])]).objFields
          "instances")))]
        ∈ componentsDispatch witC7Comps
      ∧ getKV (inlineJ witC7Comps (Json.obj (removeKV (Json.obj [
          ("title", Json.str "Empty"),
          ("content", Json.obj [("_ref", Json.str "/_components/paragraph")])]).objFields
          "instances"))).objFields "content"
          = some (Json.obj [("_ref", Json.str "/_components/paragraph"),
                            ("text", Json.str "empty")])
      ∧ (∃ cs e, getKV (toBootstrap [Json.obj [(compUri "article",
            Json.obj [("content", Json.obj [("_ref", Json.str "/_components/paragraph"),
              ("text", Json.str "empty")])])]]).objFields "_components"
              = some (Json.obj cs)
          ∧ getKV cs "article" = some e
          ∧ getKV e.objFields "content"
              = some (Json.obj [("_ref", Json.str "/_components/paragraph")])) := by
  have h := component_ref_inlined_and_stripped witC7Comps "article" "paragraph"
    "content" "/_components/paragraph"
    [("title", Json.str "Empty"),
     ("content", Json.obj [("_ref", Json.str "/_components/paragraph")])]
    [("text", Json.str "empty")]
    (by decide) (by decide) (by decide) (by decide) (by decide) (by decide)
    (by rw [show ("/_components/paragraph" : String) = compUri "paragraph" from rfl]
        exact parseUri_compUri "paragraph" (by decide))
    (by decide) (by decide) (by decide) (by decide) (by decide)
  exact h

/-! ### Well-formedness of bootstrap documents (C1) -/

mutual

/-- A reference-free JSON tree: no object anywhere carries a `_ref` key,
and every object's keys are distinct. -/
def refFree : Json → Bool
  | .obj kvs => (getKV kvs "_ref").isNone && decide ((kvKeys kvs).Nodup) && refFreeKVs kvs
  | .arr xs => refFreeList xs
  | _ => true

/-- `refFree` on every element of an array. -/
def refFreeList : List Json → Bool
  | [] => true
  | x :: xs => refFree x && refFreeList xs

/-- `refFree` on every value of an object. -/
def refFreeKVs : List (String × Json) → Bool
  | [] => true
  | (k, v) :: kvs => refFree v && refFreeKVs kvs

end

mutual

/-- A well-formed component field tree: objects have distinct keys, an
object carrying `_ref` carries only `_ref` (the bootstrap reference
invariant of spec 3), and the reference resolves within the document to a
reference-free object. -/
def wfTree (comps : List (String × Json)) : Json → Bool
  | .obj kvs =>
      match getKV kvs "_ref" with
      | some (.str uri) =>
          decide (kvs = [("_ref", Json.str uri)]) &&
          (match resolveComp comps uri with
           | some (.obj tf) => refFree (Json.obj tf)
           | _ => false)
      | some _ => false
      | none => decide ((kvKeys kvs).Nodup) && wfTreeKVs comps kvs
  | .arr xs => wfTreeList comps xs
  | _ => true

/-- `wfTree` on every element of an array. -/
def wfTreeList (comps : List (String × Json)) : List Json → Bool
  | [] => true
  | x :: xs => wfTree comps x && wfTreeList comps xs

/-- `wfTree` on every value of an object. -/
def wfTreeKVs (comps : List (String × Json)) : List (String × Json) → Bool
  | [] => true
  | (k, v) :: kvs => wfTree comps v && wfTreeKVs comps kvs

end

/-- The `instances` sub-mapping of a component's data, if well-formed:
absent, or a nonempty object of named instances whose data are objects
with distinct keys and well-formed field trees. -/
def wfInstances (comps : List (String × Json)) : Option Json → Bool
  | none => true
  | some (.obj insts) =>
      decide (insts ≠ []) && decide ((kvKeys insts).Nodup) &&
      insts.all (fun q => wfName q.1 &&
        (match q.2 with
         | .obj ifields =>
             decide ((kvKeys ifields).Nodup) && (getKV ifields "_ref").isNone
               && wfTreeKVs comps ifields
         | _ => false))
  | some _ => false

/-- A well-formed `_components` collection (spec 3): a nonempty mapping
from distinct well-formed type names to objects with distinct keys, no
top-level `_ref`, well-formed field trees, and well-formed instances. -/
def wfComponents (comps : List (String × Json)) : Bool :=
  decide (comps ≠ []) && decide ((kvKeys comps).Nodup) &&
  comps.all (fun p => wfName p.1 &&
    (match p.2 with
     | .obj d =>
         decide ((kvKeys d).Nodup) && (getKV d "_ref").isNone &&
         (removeKV d "instances").all (fun q => wfTree comps q.2) &&
         wfInstances comps (getKV d "instances")
     | _ => false))

/-- A well-formed `_pages` collection in canonical form: nonempty,
distinct slash-free keys, and no page carries the legacy `url` field. -/
def wfPages (pages : List (String × Json)) : Bool :=
  decide (pages ≠ []) && decide ((kvKeys pages).Nodup) &&
  pages.all (fun p => wfName p.1 &&
    (match p.2 with
     | .obj kvs => kvs.all (fun q => q.1 != "url")
     | _ => true))

/-- A well-formed `_users` list: at least one user qualifies (carries
`auth`), so that the `_users` root survives the round trip. -/
def wfUsers (users : List Json) : Bool := users.any hasAuth

/-- A well-formed arbitrary root collection: nonempty with distinct
nonempty entry keys. -/
def wfArb (entries : List (String × Json)) : Bool :=
  decide (entries ≠ []) && decide ((kvKeys entries).Nodup) &&
  entries.all (fun p => p.1 != "")

/-- A well-formed bootstrap document: an object whose distinct root keys
are the dedicated collections or arbitrary collection names, each
well-formed. -/
def wfBootstrap (doc : Json) : Bool :=
  match doc with
  | .obj roots =>
      decide ((kvKeys roots).Nodup) &&
      roots.all (fun p =>
        if p.1 = "_components" then
          (match p.2 with | .obj comps => wfComponents comps | _ => false)
        else if p.1 = "_pages" then
          (match p.2 with | .obj ps => wfPages ps | _ => false)
        else if p.1 = "_users" then
          (match p.2 with | .arr us => wfUsers us | _ => false)
        else wfArbName p.1 &&
          (match p.2 with | .obj es => wfArb es | _ => false))
  | _ => false

mutual

/-- The normalization named by the round-trip property (spec 8): every
component reference is reduced to an object carrying only `_ref`, with
all denormalized fields removed. -/
def normRefsJ : Json → Json
  | .obj kvs =>
      match getKV kvs "_ref" with
      | some (.str uri) => .obj [("_ref", .str uri)]
      | _ => .obj (normRefsKVs kvs)
  | .arr xs => .arr (normRefsList xs)
  | j => j

/-- `normRefsJ` on every element of an array. -/
def normRefsList : List Json → List Json
  | [] => []
  | x :: xs => normRefsJ x :: normRefsList xs

/-- `normRefsJ` on every value of an object. -/
def normRefsKVs : List (String × Json) → List (String × Json)
  | [] => []
  | (k, v) :: kvs => (k, normRefsJ v) :: normRefsKVs kvs

end

/-- The expected right-hand side of the round trip, taken from the words
of the claim: `B` with every component reference reduced to `{_ref}` only
and with every user lacking `auth` removed. -/
def normalizeBootstrap (doc : Json) : Json :=
  match doc with
  | .obj roots =>
      .obj (roots.map (fun p =>
        if p.1 = "_components" then (p.1, normRefsJ p.2)
        else if p.1 = "_users" then (p.1, .arr (p.2.arrItems.filter hasAuth))
        else p))
  | j => j

theorem getKV_of_mem_nodup {α : Type} (l : List (String × α)) (k : String) (v : α)
    (hnd : (kvKeys l).Nodup) (hm : (k, v) ∈ l) : getKV l k = some v := by
  induction l with
  | nil => simp at hm
  | cons hd tl ih =>
      obtain ⟨k0, v0⟩ := hd
      simp only [kvKeys, List.map_cons, List.nodup_cons] at hnd
      rcases List.mem_cons.mp hm with he | hm2
      · obtain ⟨he1, he2⟩ := Prod.mk.injEq k v k0 v0 ▸ he
        rw [← he1, ← he2]
        simp [getKV]
      · have hk : k0 ≠ k := by
          intro he2
          exact hnd.1 (he2 ▸ (List.mem_map.mpr ⟨(k, v), hm2, rfl⟩))
        simp only [getKV, if_neg hk]
        exact ih (by simpa [kvKeys] using hnd.2) hm2

theorem getKV_eq_of_perm {α : Type} (l1 l2 : List (String × α)) (hp : l1.Perm l2)
    (hnd : (kvKeys l1).Nodup) (k : String) : getKV l1 k = getKV l2 k := by
  have hnd2 : (kvKeys l2).Nodup := (hp.map Prod.fst).nodup_iff.mp hnd
  cases hv : getKV l1 k with
  | some v =>
      exact (getKV_of_mem_nodup l2 k v hnd2 (hp.mem_iff.mp (getKV_some_mem l1 k v hv))).symm
  | none =>
      have : k ∉ kvKeys l2 := by
        intro hm
        have := getKV_isSome_of_mem l1 k ((hp.map Prod.fst).mem_iff.mpr hm)
        rw [hv] at this
        simp at this
      exact (getKV_eq_none_of_not_mem l2 k this).symm

theorem removeKV_perm {α : Type} (k : String) {l1 l2 : List (String × α)}
    (hp : l1.Perm l2) : (removeKV l1 k).Perm (removeKV l2 k) := by
  induction hp with
  | nil => exact .refl _
  | cons x hp ih =>
      obtain ⟨kx, vx⟩ := x
      by_cases h : kx = k
      · simpa [removeKV, h] using ih
      · simp only [removeKV, if_neg h]
        exact ih.cons (kx, vx)
  | swap x y l =>
      obtain ⟨kx, vx⟩ := x
      obtain ⟨ky, vy⟩ := y
      by_cases hx : kx = k <;> by_cases hy : ky = k <;>
        simp [removeKV, hx, hy]
      exact List.Perm.swap _ _ _
  | trans h1 h2 ih1 ih2 => exact ih1.trans ih2

theorem setKV_perm_update {α : Type} (l : List (String × α)) (k : String) (v w : α)
    (hnd : (kvKeys l).Nodup) (hget : getKV l k = some w) :
    (setKV l k v).Perm ((k, v) :: removeKV l k) := by
  induction l with
  | nil => simp [getKV] at hget
  | cons hd tl ih =>
      obtain ⟨k0, v0⟩ := hd
      simp only [kvKeys, List.map_cons, List.nodup_cons] at hnd
      by_cases h0 : k0 = k
      · subst h0
        rw [setKV, if_pos rfl, removeKV, if_pos rfl,
          removeKV_of_not_mem tl k0 (by simpa [kvKeys] using hnd.1)]
      · simp only [getKV, if_neg h0] at hget
        rw [setKV, if_neg h0, removeKV, if_neg h0]
        refine ((ih (by simpa [kvKeys] using hnd.2) hget).cons (k0, v0)).trans ?g
        exact List.Perm.swap (k, v) (k0, v0) (removeKV tl k)

theorem foldl_setKV_noop {α : Type} (fields acc : List (String × α))
    (h : ∀ p ∈ fields, getKV acc p.1 = some p.2) :
    fields.foldl (fun a q => setKV a q.1 q.2) acc = acc := by
  induction fields with
  | nil => rfl
  | cons hd tl ih =>
      simp only [List.foldl_cons]
      rw [setKV_of_getKV_eq acc hd.1 hd.2 (h hd (by simp))]
      exact ih (fun p hp => h p (by simp [hp]))

theorem getKV_append_left {α : Type} (l1 l2 : List (String × α)) (k : String) (v : α)
    (h : getKV l1 k = some v) : getKV (l1 ++ l2) k = some v := by
  rw [getKV_append, h]

theorem getKV_append_right {α : Type} (l1 l2 : List (String × α)) (k : String)
    (h : getKV l1 k = none) : getKV (l1 ++ l2) k = getKV l2 k := by
  rw [getKV_append, h]

theorem eq_nil_of_getKV_none {α : Type} (l : List (String × α))
    (h : ∀ k, getKV l k = none) : l = [] := by
  cases l with
  | nil => rfl
  | cons hd tl =>
      have := h hd.1
      simp [getKV] at this

theorem instances_not_mem_removeKV {α : Type} (d : List (String × α)) :
    "instances" ∉ kvKeys (removeKV d "instances") := by
  intro hm
  have := getKV_isSome_of_mem _ _ hm
  rw [getKV_removeKV_self] at this
  simp at this

mutual

theorem stripJ_refFree : ∀ j, refFree j = true → stripJ j = (j, [])
  | .null, _ => rfl
  | .str s, _ => rfl
  | .num n, _ => rfl
  | .bool b, _ => rfl
  | .arr xs, h => by
      rw [stripJ, stripList_refFree xs (by simpa [refFree] using h)]
  | .obj kvs, h => by
      simp only [refFree, Bool.and_eq_true, Option.isNone_iff_eq_none,
        decide_eq_true_eq] at h
      rw [stripJ, h.1.1]
      rw [stripKVs_refFree kvs h.2]

theorem stripList_refFree : ∀ xs, refFreeList xs = true → stripList xs = (xs, [])
  | [], _ => rfl
  | x :: xs, h => by
      simp only [refFreeList, Bool.and_eq_true] at h
      rw [stripList, stripJ_refFree x h.1, stripList_refFree xs h.2]
      rfl

theorem stripKVs_refFree : ∀ kvs, refFreeKVs kvs = true → stripKVs kvs = (kvs, [])
  | [], _ => rfl
  | (k, v) :: kvs, h => by
      simp only [refFreeKVs, Bool.and_eq_true] at h
      rw [stripKVs, stripJ_refFree v h.1, stripKVs_refFree kvs h.2]
      rfl

end

theorem stripSkipRef_refFree (kvs : List (String × Json))
    (h : refFreeKVs kvs = true) (hk : ∀ p ∈ kvs, p.1 ≠ "_ref") :
    stripSkipRef kvs = (kvs, []) := by
  induction kvs with
  | nil => rfl
  | cons hd tl ih =>
      obtain ⟨k, v⟩ := hd
      simp only [refFreeKVs, Bool.and_eq_true] at h
      rw [stripSkipRef, if_neg (hk (k, v) (by simp)), stripJ_refFree v h.1,
        ih h.2 (fun p hp => hk p (by simp [hp]))]
      rfl

theorem not_ref_key_of_refFree (kvs : List (String × Json))
    (h : getKV kvs "_ref" = none) : ∀ p ∈ kvs, p.1 ≠ "_ref" := by
  intro p hp he
  have := getKV_isSome_of_mem kvs "_ref" (he ▸ (List.mem_map.mpr ⟨p, hp, rfl⟩))
  rw [h] at this
  simp at this

/-- An insertion collected by stripping a dispatch record is *good*: its
URI parses as a component identity, resolves within the well-formed
document to exactly the carried fields, and those fields are
reference-free. -/
def GoodIns (comps : List (String × Json)) (q : String × List (String × Json)) : Prop :=
  ∃ ty oi, parseUri q.1 = .comp ty oi
    ∧ resolveComp comps q.1 = some (Json.obj q.2)
    ∧ refFree (Json.obj q.2) = true

theorem resolveComp_parse (comps : List (String × Json)) (uri : String) (j : Json)
    (h : resolveComp comps uri = some j) : ∃ ty oi, parseUri uri = .comp ty oi := by
  rw [resolveComp] at h
  cases hp : parseUri uri with
  | comp ty oi => exact ⟨ty, oi, rfl⟩
  | page k => rw [hp] at h; simp at h
  | user k => rw [hp] at h; simp at h
  | arb c k => rw [hp] at h; simp at h
  | bad => rw [hp] at h; simp at h

mutual

theorem stripJ_inlineJ (comps : List (String × Json)) :
    ∀ j, wfTree comps j = true →
      (stripJ (inlineJ comps j)).1 = j
        ∧ ∀ q ∈ (stripJ (inlineJ comps j)).2, GoodIns comps q
  | .null, _ => ⟨rfl, by simp [inlineJ, stripJ]⟩
  | .str s, _ => ⟨rfl, by simp [inlineJ, stripJ]⟩
  | .num n, _ => ⟨rfl, by simp [inlineJ, stripJ]⟩
  | .bool b, _ => ⟨rfl, by simp [inlineJ, stripJ]⟩
  | .arr xs, h => by
      have hx := stripList_inlineList comps xs (by simpa [wfTree] using h)
      have hinl : inlineJ comps (Json.arr xs) = Json.arr (inlineList comps xs) := by
        rw [inlineJ]
      have hstr : stripJ (Json.arr (inlineList comps xs))
          = (Json.arr (stripList (inlineList comps xs)).1,
             (stripList (inlineList comps xs)).2) := by
        rw [stripJ]
      rw [hinl, hstr]
      exact ⟨by rw [hx.1], by simpa using hx.2⟩
  | .obj kvs, h => by
      rw [wfTree] at h
      cases href : getKV kvs "_ref" with
      | some rv =>
          cases rv with
          | str uri =>
              cases hres : resolveComp comps uri with
              | some tgt =>
                  cases tgt with
                  | obj tf =>
                      simp only [href, hres, Bool.and_eq_true, decide_eq_true_eq] at h
                      obtain ⟨hkvs, hrf⟩ := h
                      subst hkvs
                      have hrf2 := hrf
                      simp only [refFree, Bool.and_eq_true, Option.isNone_iff_eq_none,
                        decide_eq_true_eq] at hrf2
                      have hinl : inlineJ comps (Json.obj [("_ref", Json.str uri)])
                          = Json.obj (("_ref", Json.str uri) :: tf) := by
                        rw [inlineJ]
                        rw [show getKV [("_ref", Json.str uri)] "_ref"
                              = some (Json.str uri) by simp [getKV]]
                        simp only [hres]
                        rw [mergeKVs_singleton_ref uri tf hrf2.1.1]
                      have hstr : stripJ (Json.obj (("_ref", Json.str uri) :: tf))
                          = (Json.obj [("_ref", Json.str uri)],
                             if tf.isEmpty then [] else [(uri, tf)]) := by
                        rw [stripJ]
                        rw [show getKV (("_ref", Json.str uri) :: tf) "_ref"
                              = some (Json.str uri) by simp [getKV]]
                        simp only []
                        rw [stripSkipRef, if_pos rfl,
                          stripSkipRef_refFree tf hrf2.2
                            (not_ref_key_of_refFree tf hrf2.1.1)]
                      rw [hinl, hstr]
                      refine ⟨rfl, ?ins⟩
                      intro q hq
                      by_cases htf : tf.isEmpty = true
                      · rw [if_pos htf] at hq
                        simp at hq
                      · rw [if_neg htf] at hq
                        rw [List.mem_singleton] at hq
                        subst hq
                        obtain ⟨ty, oi, hp⟩ := resolveComp_parse comps uri _ hres
                        exact ⟨ty, oi, hp, hres, hrf⟩
                  | null => simp [href, hres] at h
                  | str s2 => simp [href, hres] at h
                  | num n2 => simp [href, hres] at h
                  | bool b2 => simp [href, hres] at h
                  | arr xs2 => simp [href, hres] at h
              | none => simp [href, hres] at h
          | null => simp [href] at h
          | num n2 => simp [href] at h
          | bool b2 => simp [href] at h
          | arr xs2 => simp [href] at h
          | obj kvs2 => simp [href] at h
      | none =>
          simp only [href, Bool.and_eq_true, decide_eq_true_eq] at h
          have hkv := stripKVs_inlineKVs comps kvs h.2
          have hinl : inlineJ comps (Json.obj kvs) = Json.obj (inlineKVs comps kvs) := by
            rw [inlineJ, href]
          have hstr : stripJ (Json.obj (inlineKVs comps kvs))
              = (Json.obj (stripKVs (inlineKVs comps kvs)).1,
                 (stripKVs (inlineKVs comps kvs)).2) := by
            rw [stripJ]
            rw [show getKV (inlineKVs comps kvs) "_ref" = none by
              rw [getKV_inlineKVs, href]; rfl]
          rw [hinl, hstr]
          exact ⟨by rw [hkv.1], by simpa using hkv.2⟩

theorem stripList_inlineList (comps : List (String × Json)) :
    ∀ xs, wfTreeList comps xs = true →
      (stripList (inlineList comps xs)).1 = xs
        ∧ ∀ q ∈ (stripList (inlineList comps xs)).2, GoodIns comps q
  | [], _ => ⟨rfl, by simp [inlineList, stripList]⟩
  | x :: xs, h => by
      simp only [wfTreeList, Bool.and_eq_true] at h
      have h1 := stripJ_inlineJ comps x h.1
      have h2 := stripList_inlineList comps xs h.2
      rw [inlineList, stripList]
      constructor
      · simp only []
        rw [h1.1, h2.1]
      · simp only []
        intro q hq
        rcases List.mem_append.mp hq with hq1 | hq2
        · exact h1.2 q hq1
        · exact h2.2 q hq2

theorem stripKVs_inlineKVs (comps : List (String × Json)) :
    ∀ kvs, wfTreeKVs comps kvs = true →
      (stripKVs (inlineKVs comps kvs)).1 = kvs
        ∧ ∀ q ∈ (stripKVs (inlineKVs comps kvs)).2, GoodIns comps q
  | [], _ => ⟨rfl, by simp [inlineKVs, stripKVs]⟩
  | (k, v) :: kvs, h => by
      simp only [wfTreeKVs, Bool.and_eq_true] at h
      have h1 := stripJ_inlineJ comps v h.1
      have h2 := stripKVs_inlineKVs comps kvs h.2
      rw [inlineKVs, stripKVs]
      constructor
      · simp only []
        rw [h1.1, h2.1]
      · simp only []
        intro q hq
        rcases List.mem_append.mp hq with hq1 | hq2
        · exact h1.2 q hq1
        · exact h2.2 q hq2

end

/-! ### The accumulator invariant of the components fold (C1) -/

/-- The data of instance `i` of a component whose data is `d`. -/
def instDataJ (d : Json) (i : String) : Option Json :=
  (getKV d.objFields "instances").bind fun iv => getKV iv.objFields i

/-- A legitimate write into the `_components` accumulator: base writes
carry exactly the type's fields without `instances`, instance writes
carry exactly the instance's fields; in both cases the written keys are
distinct and the identity exists in the source document. -/
def Vwrite (comps : List (String × Json)) (ty : String) (oi : Option String)
    (fields : List (String × Json)) : Prop :=
  match oi with
  | none => ∃ d, getKV comps ty = some d
      ∧ fields = removeKV d.objFields "instances" ∧ (kvKeys fields).Nodup
  | some i => ∃ d, getKV comps ty = some d
      ∧ instDataJ d i = some (Json.obj fields) ∧ (kvKeys fields).Nodup

/-- What one entry of the accumulator looks like after the writes `W`:
its base fields are present exactly when a base write happened, its
`instances` sub-mapping holds exactly the written instances, and the
entry is, up to key order, those two groups. -/
def EntryInv (comps : List (String × Json)) (W : List (String × Option String))
    (ty : String) (e : Json) : Prop :=
  ∃ d ekvs il,
    getKV comps ty = some d ∧ e = Json.obj ekvs ∧
    (kvKeys ekvs).Nodup ∧ (kvKeys il).Nodup ∧
    (∀ i, getKV il i = if (ty, some i) ∈ W then instDataJ d i else none) ∧
    ekvs.Perm ((if (ty, none) ∈ W then removeKV d.objFields "instances" else [])
      ++ (if il.isEmpty then [] else [("instances", Json.obj il)]))

/-- The `_components` accumulator after the writes `W`. -/
def CompsInv (comps : List (String × Json)) (W : List (String × Option String))
    (C : List (String × Json)) : Prop :=
  (kvKeys C).Nodup ∧
  (∀ ty2, ty2 ∈ kvKeys C ↔ ∃ oi, (ty2, oi) ∈ W) ∧
  (∀ ty2 e, getKV C ty2 = some e → EntryInv comps W ty2 e)

theorem EntryInv_extend (comps : List (String × Json)) (W : List (String × Option String))
    (ty ty2 : String) (oi : Option String) (e : Json) (hne : ty2 ≠ ty)
    (h : EntryInv comps W ty2 e) : EntryInv comps (W ++ [(ty, oi)]) ty2 e := by
  obtain ⟨d, ekvs, il, h1, h2, h3, h4, h5, h6⟩ := h
  refine ⟨d, ekvs, il, h1, h2, h3, h4, ?il, ?perm⟩
  · intro i
    have hiff : ((ty2, some i) ∈ W ++ [(ty, oi)]) ↔ ((ty2, some i) ∈ W) := by
      simp [Prod.ext_iff, hne]
    rw [if_congr hiff rfl rfl]
    exact h5 i
  · have hiff : ((ty2, none) ∈ W ++ [(ty, oi)]) ↔ ((ty2, none) ∈ W) := by
      simp [Prod.ext_iff, hne]
    rw [if_congr hiff rfl rfl]
    exact h6

theorem removeKV_append {α : Type} (l1 l2 : List (String × α)) (k : String) :
    removeKV (l1 ++ l2) k = removeKV l1 k ++ removeKV l2 k := by
  induction l1 with
  | nil => rfl
  | cons hd tl ih =>
      obtain ⟨k0, v0⟩ := hd
      by_cases h0 : k0 = k <;> simp [removeKV, h0, ih]

theorem setKV_ne_nil {α : Type} (l : List (String × α)) (k : String) (v : α) :
    setKV l k v ≠ [] := by
  cases l with
  | nil => simp [setKV]
  | cons hd tl =>
      obtain ⟨k0, v0⟩ := hd
      by_cases h0 : k0 = k <;> simp [setKV, h0]

theorem getKV_append_single_ne {α : Type} (C : List (String × α)) (ty ty2 : String)
    (x : α) (hne : ty2 ≠ ty) : getKV (C ++ [(ty, x)]) ty2 = getKV C ty2 := by
  cases hc : getKV C ty2 with
  | some v => exact getKV_append_left _ _ _ _ hc
  | none =>
      rw [getKV_append_right _ _ _ hc]
      simp [getKV, Ne.symm hne]

theorem compWrite_inv_base (comps : List (String × Json))
    (W : List (String × Option String)) (C : List (String × Json))
    (ty : String) (fields : List (String × Json))
    (hInv : CompsInv comps W C) (hV : Vwrite comps ty none fields) :
    CompsInv comps (W ++ [(ty, none)]) (compWrite C ty none fields) := by
  obtain ⟨hnd, hkeys, hent⟩ := hInv
  obtain ⟨d, hd, hfields, hfnd⟩ := hV
  cases hty : getKV C ty with
  | none =>
      have hmem : ty ∉ kvKeys C := by
        rw [mem_keys_iff_getKV, hty]
        simp
      have hnoW : ¬∃ oi, (ty, oi) ∈ W := fun hw => hmem ((hkeys ty).mpr hw)
      have hnew : compWrite C ty none fields = C ++ [(ty, Json.obj fields)] := by
        simp only [compWrite, hty, Option.getD_none]
        rw [show (Json.obj ([] : List (String × Json))).objFields
              = ([] : List (String × Json)) from rfl]
        rw [foldl_setKV_fresh fields [] (fun p hp => rfl) hfnd]
        rw [setKV_of_getKV_none C ty _ hty]
        rfl
      rw [hnew]
      refine ⟨?_, ?_, ?_⟩
      · rw [show kvKeys (C ++ [(ty, Json.obj fields)]) = kvKeys C ++ [ty] by
          simp [kvKeys]]
        exact List.nodup_append.mpr ⟨hnd, by simp, by
          intro a ha hb
          rw [List.mem_singleton] at hb
          exact hmem (hb ▸ ha)⟩
      · intro ty2
        constructor
        · intro hm
          rw [show kvKeys (C ++ [(ty, Json.obj fields)]) = kvKeys C ++ [ty] by
            simp [kvKeys]] at hm
          rcases List.mem_append.mp hm with hm1 | hm2
          · obtain ⟨oi, hoi⟩ := (hkeys ty2).mp hm1
            exact ⟨oi, by simp [hoi]⟩
          · rw [List.mem_singleton] at hm2
            exact ⟨none, by simp [hm2]⟩
        · rintro ⟨oi, hoi⟩
          rw [show kvKeys (C ++ [(ty, Json.obj fields)]) = kvKeys C ++ [ty] by
            simp [kvKeys]]
          rcases List.mem_append.mp hoi with hm1 | hm2
          · exact List.mem_append.mpr (Or.inl ((hkeys ty2).mpr ⟨oi, hm1⟩))
          · rw [List.mem_singleton] at hm2
            have : ty2 = ty := congrArg Prod.fst hm2
            simp [this]
      · intro ty2 e hge
        by_cases hty2 : ty2 = ty
        · subst hty2
          rw [getKV_append_right _ _ _ hty] at hge
          rw [show getKV [(ty2, Json.obj fields)] ty2 = some (Json.obj fields) by
            simp [getKV]] at hge
          obtain rfl : Json.obj fields = e := by injection hge
          refine ⟨d, fields, [], hd, rfl, hfnd, by simp [kvKeys], ?_, ?_⟩
          · intro i
            have hng : ((ty2, some i) ∈ W ++ [(ty2, none)]) → False := by
              intro hm
              rcases List.mem_append.mp hm with hm1 | hm2
              · exact hnoW ⟨some i, hm1⟩
              · simp at hm2
            rw [if_neg hng]
            rfl
          · rw [if_pos (by simp : (ty2, (none : Option String)) ∈ W ++ [(ty2, none)])]
            rw [← hfields]
            simp
        · rw [getKV_append_single_ne C ty ty2 _ hty2] at hge
          exact EntryInv_extend comps W ty ty2 none e hty2 (hent ty2 e hge)
  | some e0 =>
      have hEnt := hent ty e0 hty
      obtain ⟨d0, ekvs0, il, hd0, he0, hend, hilnd, hil, hperm⟩ := hEnt
      obtain rfl : d = d0 := by
        rw [hd0] at hd
        injection hd with h2
        exact h2.symm
      subst he0
      have htymem : ty ∈ kvKeys C := by
        rw [mem_keys_iff_getKV, hty]
        rfl
      have hkeysC' : ∀ x, kvKeys (setKV C ty x) = kvKeys C := by
        intro x
        rw [kvKeys_setKV, if_pos htymem]
      have hkeys' : ∀ ty2, ty2 ∈ kvKeys C ↔ ∃ oi, (ty2, oi) ∈ W ++ [(ty, none)] := by
        intro ty2
        constructor
        · intro hm
          obtain ⟨oi, hoi⟩ := (hkeys ty2).mp hm
          exact ⟨oi, by simp [hoi]⟩
        · rintro ⟨oi, hoi⟩
          rcases List.mem_append.mp hoi with hm1 | hm2
          · exact (hkeys ty2).mpr ⟨oi, hm1⟩
          · rw [List.mem_singleton] at hm2
            have : ty2 = ty := congrArg Prod.fst hm2
            exact this ▸ htymem
      by_cases hbW : (ty, none) ∈ W
      · have hbase : ∀ p ∈ fields, getKV ekvs0 p.1 = some p.2 := by
          intro p hp
          rw [getKV_eq_of_perm _ _ hperm hend p.1]
          rw [if_pos hbW]
          rw [← hfields]
          exact getKV_append_left _ _ _ _ (getKV_of_mem_nodup fields p.1 p.2 hfnd hp)
        have hnoop : compWrite C ty none fields = C := by
          simp only [compWrite, hty, Option.getD_some]
          rw [show (Json.obj ekvs0).objFields = ekvs0 from rfl]
          rw [foldl_setKV_noop fields ekvs0 hbase]
          exact setKV_of_getKV_eq C ty _ hty
        rw [hnoop]
        refine ⟨hnd, hkeys', ?_⟩
        intro ty2 e hge
        by_cases hty2 : ty2 = ty
        · subst hty2
          rw [hty] at hge
          obtain rfl : Json.obj ekvs0 = e := by injection hge
          refine ⟨d, ekvs0, il, hd, rfl, hend, hilnd, ?_, ?_⟩
          · intro i
            have hiff : ((ty2, some i) ∈ W ++ [(ty2, none)]) ↔ ((ty2, some i) ∈ W) := by
              simp
            rw [if_congr hiff rfl rfl]
            exact hil i
          · rw [if_pos (by simp : (ty2, (none : Option String)) ∈ W ++ [(ty2, none)])]
            rw [if_pos hbW] at hperm
            exact hperm
        · exact EntryInv_extend comps W ty ty2 none e hty2 (hent ty2 e hge)
      · by_cases hile : il.isEmpty = true
        · obtain rfl : il = [] := List.isEmpty_iff.mp hile
          have hekvs0 : ekvs0 = [] := by
            rw [if_neg hbW] at hperm
            simpa using hperm
          subst hekvs0
          have hnew : compWrite C ty none fields = setKV C ty (Json.obj fields) := by
            simp only [compWrite, hty, Option.getD_some]
            rw [show (Json.obj ([] : List (String × Json))).objFields
                  = ([] : List (String × Json)) from rfl]
            rw [foldl_setKV_fresh fields [] (fun p hp => rfl) hfnd]
            rfl
          rw [hnew]
          refine ⟨by rw [hkeysC']; exact hnd, ?_, ?_⟩
          · intro ty2
            rw [kvKeys_setKV, if_pos htymem]
            exact hkeys' ty2
          · intro ty2 e hge
            by_cases hty2 : ty2 = ty
            · subst hty2
              rw [getKV_setKV_self] at hge
              obtain rfl : Json.obj fields = e := by injection hge
              refine ⟨d, fields, [], hd, rfl, hfnd, by simp [kvKeys], ?_, ?_⟩
              · intro i
                by_cases hiw : (ty2, some i) ∈ W ++ [(ty2, none)]
                · rw [if_pos hiw]
                  have hiw2 : (ty2, some i) ∈ W := by
                    rcases List.mem_append.mp hiw with h1 | h2
                    · exact h1
                    · simp at h2
                  have hold := hil i
                  rw [if_pos hiw2] at hold
                  rw [← hold]
                · rw [if_neg hiw]
                  rfl
              · rw [if_pos (by simp : (ty2, (none : Option String)) ∈ W ++ [(ty2, none)])]
                rw [← hfields]
                simp
            · rw [getKV_setKV_other C ty ty2 _ (Ne.symm hty2)] at hge
              exact EntryInv_extend comps W ty ty2 none e hty2 (hent ty2 e hge)
        · have hekvs0 : ekvs0 = [("instances", Json.obj il)] := by
            rw [if_neg hbW, if_neg hile] at hperm
            simpa using List.perm_singleton.mp (by simpa using hperm)
          subst hekvs0
          have hfresh : ∀ p ∈ fields, getKV [("instances", Json.obj il)] p.1 = none := by
            intro p hp
            have hpne : p.1 ≠ "instances" := by
              intro he
              rw [hfields] at hp
              have hmm : p.1 ∈ kvKeys (removeKV d.objFields "instances") :=
                List.mem_map.mpr ⟨p, hp, rfl⟩
              rw [he] at hmm
              exact instances_not_mem_removeKV d.objFields hmm
            simp [getKV, Ne.symm hpne]
          have hnew : compWrite C ty none fields
              = setKV C ty (Json.obj ([("instances", Json.obj il)] ++ fields)) := by
            simp only [compWrite, hty, Option.getD_some]
            rw [show (Json.obj [("instances", Json.obj il)]).objFields
                  = [("instances", Json.obj il)] from rfl]
            rw [foldl_setKV_fresh fields [("instances", Json.obj il)] hfresh hfnd]
          rw [hnew]
          refine ⟨by rw [hkeysC']; exact hnd, ?_, ?_⟩
          · intro ty2
            rw [kvKeys_setKV, if_pos htymem]
            exact hkeys' ty2
          · intro ty2 e hge
            by_cases hty2 : ty2 = ty
            · subst hty2
              rw [getKV_setKV_self] at hge
              obtain rfl : Json.obj ([("instances", Json.obj il)] ++ fields) = e := by
                injection hge
              refine ⟨d, [("instances", Json.obj il)] ++ fields, il, hd, rfl, ?_,
                hilnd, ?_, ?_⟩
              · rw [show kvKeys ([("instances", Json.obj il)] ++ fields)
                      = "instances" :: kvKeys fields by simp [kvKeys]]
                rw [List.nodup_cons]
                refine ⟨?_, hfnd⟩
                intro hm
                rw [hfields] at hm
                exact instances_not_mem_removeKV d.objFields hm
              · intro i
                have hiff : ((ty2, some i) ∈ W ++ [(ty2, none)]) ↔ ((ty2, some i) ∈ W) := by
                  simp
                rw [if_congr hiff rfl rfl]
                exact hil i
              · rw [if_pos (by simp : (ty2, (none : Option String)) ∈ W ++ [(ty2, none)])]
                rw [if_neg hile, ← hfields]
                exact List.perm_append_comm
            · rw [getKV_setKV_other C ty ty2 _ (Ne.symm hty2)] at hge
              exact EntryInv_extend comps W ty ty2 none e hty2 (hent ty2 e hge)

theorem kvKeys_nodup_setKV {α : Type} (l : List (String × α)) (k : String) (v : α)
    (h : (kvKeys l).Nodup) : (kvKeys (setKV l k v)).Nodup := by
  rw [kvKeys_setKV]
  by_cases hm : k ∈ kvKeys l
  · rw [if_pos hm]
    exact h
  · rw [if_neg hm]
    exact List.nodup_append.mpr ⟨h, by simp, by
      intro a ha hb
      rw [List.mem_singleton] at hb
      exact hm (hb ▸ ha)⟩

theorem compWrite_inv_inst (comps : List (String × Json))
    (W : List (String × Option String)) (C : List (String × Json))
    (ty i : String) (fields : List (String × Json))
    (hInv : CompsInv comps W C) (hV : Vwrite comps ty (some i) fields) :
    CompsInv comps (W ++ [(ty, some i)]) (compWrite C ty (some i) fields) := by
  obtain ⟨hnd, hkeys, hent⟩ := hInv
  obtain ⟨d, hd, hinst, hfnd⟩ := hV
  cases hty : getKV C ty with
  | none =>
      have hmem : ty ∉ kvKeys C := by
        rw [mem_keys_iff_getKV, hty]
        simp
      have hnoW : ¬∃ oi, (ty, oi) ∈ W := fun hw => hmem ((hkeys ty).mpr hw)
      have hnew : compWrite C ty (some i) fields
          = C ++ [(ty, Json.obj [("instances", Json.obj [(i, Json.obj fields)])])] := by
        simp only [compWrite, hty, Option.getD_none]
        rw [setKV_of_getKV_none C ty _ hty]
        rfl
      rw [hnew]
      refine ⟨?_, ?_, ?_⟩
      · rw [show kvKeys (C ++ [(ty, Json.obj [("instances",
            Json.obj [(i, Json.obj fields)])])]) = kvKeys C ++ [ty] by simp [kvKeys]]
        exact List.nodup_append.mpr ⟨hnd, by simp, by
          intro a ha hb
          rw [List.mem_singleton] at hb
          exact hmem (hb ▸ ha)⟩
      · intro ty2
        constructor
        · intro hm
          rw [show kvKeys (C ++ [(ty, Json.obj [("instances",
              Json.obj [(i, Json.obj fields)])])]) = kvKeys C ++ [ty] by simp [kvKeys]] at hm
          rcases List.mem_append.mp hm with hm1 | hm2
          · obtain ⟨oi, hoi⟩ := (hkeys ty2).mp hm1
            exact ⟨oi, by simp [hoi]⟩
          · rw [List.mem_singleton] at hm2
            exact ⟨some i, by simp [hm2]⟩
        · rintro ⟨oi, hoi⟩
          rw [show kvKeys (C ++ [(ty, Json.obj [("instances",
              Json.obj [(i, Json.obj fields)])])]) = kvKeys C ++ [ty] by simp [kvKeys]]
          rcases List.mem_append.mp hoi with hm1 | hm2
          · exact List.mem_append.mpr (Or.inl ((hkeys ty2).mpr ⟨oi, hm1⟩))
          · rw [List.mem_singleton] at hm2
            have : ty2 = ty := congrArg Prod.fst hm2
            simp [this]
      · intro ty2 e hge
        by_cases hty2 : ty2 = ty
        · subst hty2
          rw [getKV_append_right _ _ _ hty] at hge
          rw [show getKV [(ty2, Json.obj [("instances", Json.obj [(i, Json.obj fields)])])] ty2
                = some (Json.obj [("instances", Json.obj [(i, Json.obj fields)])]) by
            simp [getKV]] at hge
          obtain rfl : Json.obj [("instances", Json.obj [(i, Json.obj fields)])] = e := by
            injection hge
          refine ⟨d, [("instances", Json.obj [(i, Json.obj fields)])], [(i, Json.obj fields)],
            hd, rfl, by simp [kvKeys], by simp [kvKeys], ?_, ?_⟩
          · intro i2
            by_cases hi2 : i2 = i
            · subst hi2
              rw [if_pos (by simp : (ty2, some i2) ∈ W ++ [(ty2, some i2)])]
              rw [hinst]
              simp [getKV]
            · rw [if_neg ?g2]
              · simp [getKV, Ne.symm hi2]
              case g2 =>
                intro hm
                rcases List.mem_append.mp hm with hm1 | hm2
                · exact hnoW ⟨some i2, hm1⟩
                · rw [List.mem_singleton] at hm2
                  exact hi2 (Option.some.inj (congrArg Prod.snd hm2))
          · rw [if_neg ?g3]
            · simp
            case g3 =>
              intro hm
              rcases List.mem_append.mp hm with hm1 | hm2
              · exact hnoW ⟨none, hm1⟩
              · simp at hm2
        · rw [getKV_append_single_ne C ty ty2 _ hty2] at hge
          exact EntryInv_extend comps W ty ty2 (some i) e hty2 (hent ty2 e hge)
  | some e0 =>
      have hEnt := hent ty e0 hty
      obtain ⟨d0, ekvs0, il, hd0, he0, hend, hilnd, hil, hperm⟩ := hEnt
      obtain rfl : d = d0 := by
        rw [hd0] at hd
        injection hd with h2
        exact h2.symm
      subst he0
      have htymem : ty ∈ kvKeys C := by
        rw [mem_keys_iff_getKV, hty]
        rfl
      have hkeysC2 : ∀ x, kvKeys (setKV C ty x) = kvKeys C := by
        intro x
        rw [kvKeys_setKV, if_pos htymem]
      have hkeys2 : ∀ ty2, ty2 ∈ kvKeys C ↔ ∃ oi, (ty2, oi) ∈ W ++ [(ty, some i)] := by
        intro ty2
        constructor
        · intro hm
          obtain ⟨oi, hoi⟩ := (hkeys ty2).mp hm
          exact ⟨oi, by simp [hoi]⟩
        · rintro ⟨oi, hoi⟩
          rcases List.mem_append.mp hoi with hm1 | hm2
          · exact (hkeys ty2).mpr ⟨oi, hm1⟩
          · rw [List.mem_singleton] at hm2
            have : ty2 = ty := congrArg Prod.fst hm2
            exact this ▸ htymem
      have hbaseNoInst : getKV (if (ty, none) ∈ W
          then removeKV d.objFields "instances" else []) "instances" = none := by
        by_cases hbW : (ty, none) ∈ W
        · rw [if_pos hbW]
          exact getKV_eq_none_of_not_mem _ _ (instances_not_mem_removeKV _)
        · rw [if_neg hbW]
          rfl
      by_cases hile : il.isEmpty = true
      · obtain rfl : il = [] := List.isEmpty_iff.mp hile
        have hgi : getKV ekvs0 "instances" = none := by
          rw [getKV_eq_of_perm _ _ hperm hend]
          rw [getKV_append_right _ _ _ hbaseNoInst]
          rfl
        have hperm2 : ekvs0.Perm (if (ty, none) ∈ W
            then removeKV d.objFields "instances" else []) := by
          simpa using hperm
        have hnew : compWrite C ty (some i) fields
            = setKV C ty (Json.obj (ekvs0
                ++ [("instances", Json.obj [(i, Json.obj fields)])])) := by
          simp only [compWrite, hty, Option.getD_some]
          rw [show (Json.obj ekvs0).objFields = ekvs0 from rfl]
          rw [hgi]
          rw [setKV_of_getKV_none ekvs0 "instances" _ hgi]
          rfl
        rw [hnew]
        refine ⟨by rw [hkeysC2]; exact hnd, ?_, ?_⟩
        · intro ty2
          rw [kvKeys_setKV, if_pos htymem]
          exact hkeys2 ty2
        · intro ty2 e hge
          by_cases hty2 : ty2 = ty
          · subst hty2
            rw [getKV_setKV_self] at hge
            obtain rfl : Json.obj (ekvs0
                ++ [("instances", Json.obj [(i, Json.obj fields)])]) = e := by
              injection hge
            refine ⟨d, _, [(i, Json.obj fields)], hd, rfl, ?_, by simp [kvKeys], ?_, ?_⟩
            · rw [show kvKeys (ekvs0 ++ [("instances", Json.obj [(i, Json.obj fields)])])
                    = kvKeys ekvs0 ++ ["instances"] by simp [kvKeys]]
              refine List.nodup_append.mpr ⟨hend, by simp, ?_⟩
              intro a ha hb
              rw [List.mem_singleton] at hb
              subst hb
              have := getKV_isSome_of_mem ekvs0 "instances" ha
              rw [hgi] at this
              simp at this
            · intro i2
              by_cases hi2 : i2 = i
              · subst hi2
                rw [if_pos (by simp : (ty2, some i2) ∈ W ++ [(ty2, some i2)])]
                rw [hinst]
                simp [getKV]
              · rw [show getKV [(i, Json.obj fields)] i2 = none by
                  simp [getKV, Ne.symm hi2]]
                by_cases hiw : (ty2, some i2) ∈ W ++ [(ty2, some i)]
                · rw [if_pos hiw]
                  have hiw2 : (ty2, some i2) ∈ W := by
                    rcases List.mem_append.mp hiw with h1 | h2
                    · exact h1
                    · rw [List.mem_singleton] at h2
                      exact absurd (Option.some.inj (congrArg Prod.snd h2)) hi2
                  have hold := hil i2
                  rw [if_pos hiw2] at hold
                  rw [← hold]
                  rfl
                · rw [if_neg hiw]
            · have hiff : ((ty2, none) ∈ W ++ [(ty2, some i)]) ↔ ((ty2, none) ∈ W) := by
                simp
              rw [if_congr hiff rfl rfl]
              rw [show (([(i, Json.obj fields)] : List (String × Json)).isEmpty) = false
                from rfl]
              simp only [Bool.false_eq_true, if_false]
              exact hperm2.append_right _
          · rw [getKV_setKV_other C ty ty2 _ (Ne.symm hty2)] at hge
            exact EntryInv_extend comps W ty ty2 (some i) e hty2 (hent ty2 e hge)
      · have hgi : getKV ekvs0 "instances" = some (Json.obj il) := by
          rw [getKV_eq_of_perm _ _ hperm hend]
          rw [getKV_append_right _ _ _ hbaseNoInst]
          rw [if_neg hile]
          simp [getKV]
        have hnew : compWrite C ty (some i) fields
            = setKV C ty (Json.obj (setKV ekvs0 "instances"
                (Json.obj (setKV il i (Json.obj fields))))) := by
          simp only [compWrite, hty, Option.getD_some]
          rw [show (Json.obj ekvs0).objFields = ekvs0 from rfl]
          rw [hgi]
          rfl
        rw [hnew]
        refine ⟨by rw [hkeysC2]; exact hnd, ?_, ?_⟩
        · intro ty2
          rw [kvKeys_setKV, if_pos htymem]
          exact hkeys2 ty2
        · intro ty2 e hge
          by_cases hty2 : ty2 = ty
          · subst hty2
            rw [getKV_setKV_self] at hge
            obtain rfl : Json.obj (setKV ekvs0 "instances"
                (Json.obj (setKV il i (Json.obj fields)))) = e := by
              injection hge
            refine ⟨d, _, setKV il i (Json.obj fields), hd, rfl,
              ?_, kvKeys_nodup_setKV il i _ hilnd, ?_, ?_⟩
            · exact kvKeys_nodup_setKV ekvs0 "instances"
                (Json.obj (setKV il i (Json.obj fields))) hend
            · intro i2
              by_cases hi2 : i2 = i
              · subst hi2
                rw [getKV_setKV_self]
                rw [if_pos (by simp : (ty2, some i2) ∈ W ++ [(ty2, some i2)])]
                exact hinst.symm
              · rw [getKV_setKV_other il i i2 _ (Ne.symm hi2)]
                have hiff : ((ty2, some i2) ∈ W ++ [(ty2, some i)])
                    ↔ ((ty2, some i2) ∈ W) := by
                  simp [Prod.ext_iff, hi2]
                rw [if_congr hiff rfl rfl]
                exact hil i2
            · have hup := setKV_perm_update ekvs0 "instances"
                (Json.obj (setKV il i (Json.obj fields))) (Json.obj il) hend hgi
              refine hup.trans ?_
              have hrm : (removeKV ekvs0 "instances").Perm
                  (if (ty2, none) ∈ W then removeKV d.objFields "instances" else []) := by
                refine (removeKV_perm "instances" hperm).trans ?_
                rw [removeKV_append]
                rw [removeKV_of_not_mem _ "instances" (by
                  by_cases hbW : (ty2, none) ∈ W
                  · rw [if_pos hbW]
                    exact instances_not_mem_removeKV _
                  · rw [if_neg hbW]
                    simp [kvKeys])]
                rw [if_neg hile]
                rw [show removeKV [("instances", Json.obj il)] "instances"
                      = ([] : List (String × Json)) by simp [removeKV]]
                simp
              have hiff : ((ty2, none) ∈ W ++ [(ty2, some i)]) ↔ ((ty2, none) ∈ W) := by
                simp
              rw [if_congr hiff rfl rfl]
              have hne2 : (setKV il i (Json.obj fields)).isEmpty = false := by
                cases hsi : setKV il i (Json.obj fields) with
                | nil => exact absurd hsi (setKV_ne_nil il i _)
                | cons a b => rfl
              rw [hne2]
              simp only [Bool.false_eq_true, if_false]
              refine ((hrm.cons _).trans ?_)
              exact (List.perm_append_singleton _ _).symm
          · rw [getKV_setKV_other C ty ty2 _ (Ne.symm hty2)] at hge
            exact EntryInv_extend comps W ty ty2 (some i) e hty2 (hent ty2 e hge)

theorem compWrite_inv (comps : List (String × Json))
    (W : List (String × Option String)) (C : List (String × Json))
    (ty : String) (oi : Option String) (fields : List (String × Json))
    (hInv : CompsInv comps W C) (hV : Vwrite comps ty oi fields) :
    CompsInv comps (W ++ [(ty, oi)]) (compWrite C ty oi fields) := by
  cases oi with
  | none => exact compWrite_inv_base comps W C ty fields hInv hV
  | some i => exact compWrite_inv_inst comps W C ty i fields hInv hV

theorem GoodIns_Vwrite (comps : List (String × Json)) (q : String × List (String × Json))
    (hq : GoodIns comps q) :
    ∃ ty oi, parseUri q.1 = .comp ty oi ∧ Vwrite comps ty oi q.2 := by
  obtain ⟨ty, oi, hparse, hres, hrf⟩ := hq
  have hnd : (kvKeys q.2).Nodup := by
    simp only [refFree, Bool.and_eq_true, decide_eq_true_eq] at hrf
    exact hrf.1.2
  refine ⟨ty, oi, hparse, ?_⟩
  rw [resolveComp] at hres
  cases oi with
  | none =>
      simp only [hparse] at hres
      cases hg : getKV comps ty with
      | none => rw [hg] at hres; simp at hres
      | some d =>
          rw [hg] at hres
          simp only [Option.map_some'] at hres
          refine ⟨d, hg, ?_, hnd⟩
          injection hres with h2
          injection h2.symm
  | some i =>
      simp only [hparse] at hres
      cases hg : getKV comps ty with
      | none => rw [hg] at hres; simp at hres
      | some d =>
          rw [hg] at hres
          simp only [Option.some_bind] at hres
          exact ⟨d, hg, hres, hnd⟩

theorem applyInserts_inv (comps : List (String × Json))
    (ins : List (String × List (String × Json)))
    (W : List (String × Option String)) (C : List (String × Json))
    (hInv : CompsInv comps W C) (hins : ∀ q ∈ ins, GoodIns comps q) :
    ∃ W2, CompsInv comps (W ++ W2) (applyInserts C ins) := by
  induction ins generalizing W C with
  | nil =>
      exact ⟨[], by simpa [applyInserts] using hInv⟩
  | cons q rest ih =>
      obtain ⟨ty, oi, hparse, hV⟩ := GoodIns_Vwrite comps q (hins q (by simp))
      have hstep : applyInserts C (q :: rest)
          = applyInserts (compWrite C ty oi q.2) rest := by
        simp only [applyInserts, List.foldl_cons, hparse]
      rw [hstep]
      have h1 := compWrite_inv comps W C ty oi q.2 hInv hV
      obtain ⟨W2, h2⟩ := ih (W ++ [(ty, oi)]) (compWrite C ty oi q.2) h1
        (fun r hr => hins r (by simp [hr]))
      exact ⟨(ty, oi) :: W2, by
        rw [show W ++ (ty, oi) :: W2 = (W ++ [(ty, oi)]) ++ W2 by simp]
        exact h2⟩

theorem step_comp_record (st : BState) (uri : String) (value : Json)
    (ty : String) (oi : Option String) (hparse : parseUri uri = .comp ty oi) :
    bootstrapStep st (Json.obj [(uri, value)])
      = { st with
          comps := applyInserts (compWrite st.comps ty oi (stripJ value).1.objFields) (stripJ value).2 } := by
  simp only [bootstrapStep, hparse]

theorem wfTreeKVs_eq_all (comps : List (String × Json)) (l : List (String × Json)) :
    wfTreeKVs comps l = l.all (fun q => wfTree comps q.2) := by
  induction l with
  | nil => rfl
  | cons hd tl ih =>
      obtain ⟨k, v⟩ := hd
      simp [wfTreeKVs, ih]

theorem wfComponents_entry (comps : List (String × Json))
    (hwf : wfComponents comps = true) (ty : String) (dJ : Json)
    (h : getKV comps ty = some dJ) :
    wfName ty = true ∧ ∃ dkvs, dJ = Json.obj dkvs ∧ (kvKeys dkvs).Nodup
      ∧ getKV dkvs "_ref" = none
      ∧ (∀ q ∈ removeKV dkvs "instances", wfTree comps q.2 = true)
      ∧ wfInstances comps (getKV dkvs "instances") = true := by
  simp only [wfComponents, Bool.and_eq_true, decide_eq_true_eq, List.all_eq_true] at hwf
  have hmem := getKV_some_mem comps ty dJ h
  have := hwf.2 (ty, dJ) hmem
  simp only [Bool.and_eq_true] at this
  obtain ⟨hn, hrest⟩ := this
  cases dJ with
  | obj dkvs =>
      simp only [Bool.and_eq_true, decide_eq_true_eq, List.all_eq_true,
        Option.isNone_iff_eq_none] at hrest
      exact ⟨hn, dkvs, rfl, hrest.1.1.1, hrest.1.1.2, hrest.1.2, hrest.2⟩
  | null => simp at hrest
  | str s => simp at hrest
  | num n => simp at hrest
  | bool b => simp at hrest
  | arr xs => simp at hrest

theorem wfInstances_some (comps : List (String × Json)) (iv : Json)
    (h : wfInstances comps (some iv) = true) :
    ∃ ivkvs, iv = Json.obj ivkvs ∧ ivkvs ≠ [] ∧ (kvKeys ivkvs).Nodup
      ∧ ∀ q ∈ ivkvs, wfName q.1 = true ∧ ∃ ifkvs, q.2 = Json.obj ifkvs
          ∧ (kvKeys ifkvs).Nodup ∧ getKV ifkvs "_ref" = none
          ∧ wfTreeKVs comps ifkvs = true := by
  cases iv with
  | obj ivkvs =>
      simp only [wfInstances, Bool.and_eq_true, decide_eq_true_eq,
        List.all_eq_true] at h
      refine ⟨ivkvs, rfl, h.1.1, h.1.2, ?_⟩
      intro q hq
      have := h.2 q hq
      simp only [Bool.and_eq_true] at this
      obtain ⟨hn, hrest⟩ := this
      cases hqv : q.2 with
      | obj ifkvs =>
          rw [hqv] at hrest
          simp only [Bool.and_eq_true, decide_eq_true_eq,
            Option.isNone_iff_eq_none] at hrest
          exact ⟨hn, ifkvs, rfl, hrest.1.1, hrest.1.2, hrest.2⟩
      | null => rw [hqv] at hrest; simp at hrest
      | str s => rw [hqv] at hrest; simp at hrest
      | num n => rw [hqv] at hrest; simp at hrest
      | bool b => rw [hqv] at hrest; simp at hrest
      | arr xs => rw [hqv] at hrest; simp at hrest
  | null => simp [wfInstances] at h
  | str s => simp [wfInstances] at h
  | num n => simp [wfInstances] at h
  | bool b => simp [wfInstances] at h
  | arr xs => simp [wfInstances] at h

/-! ### The per-root folds of `toBootstrap` over a dispatch (C1) -/

theorem stripLeadSlash_wfName (s : String) (h : wfName s = true) :
    stripLeadSlash s = s := by
  simp only [wfName, Bool.and_eq_true, Bool.not_eq_true'] at h
  rw [stripLeadSlash]
  cases hd : s.data with
  | nil => simp
  | cons a b =>
      have ha : a ≠ '/' := by
        have h2 := h.2
        rw [noSlash, hd] at h2
        simp only [List.all_cons, Bool.and_eq_true, decide_eq_true_eq] at h2
        exact h2.1
      simp [hd, ha]

theorem renameUrl_map_id (kvs : List (String × Json)) (h : ∀ q ∈ kvs, ¬q.1 = "url") :
    kvs.map (fun p => if p.1 = "url" then ("customUrl", p.2) else p) = kvs := by
  induction kvs with
  | nil => rfl
  | cons hd tl ih =>
      rw [List.map_cons, if_neg (h hd (by simp)), ih (fun q hq => h q (by simp [hq]))]

theorem wfPages_entry (pages : List (String × Json)) (hwf : wfPages pages = true) :
    pages ≠ [] ∧ (kvKeys pages).Nodup ∧
      ∀ p ∈ pages, wfName p.1 = true ∧ renameUrlJ p.2 = p.2 := by
  simp only [wfPages, Bool.and_eq_true, decide_eq_true_eq, List.all_eq_true] at hwf
  refine ⟨hwf.1.1, hwf.1.2, ?_⟩
  intro p hp
  have hq := hwf.2 p hp
  simp only [Bool.and_eq_true] at hq
  refine ⟨hq.1, ?_⟩
  cases hv : p.2 with
  | obj kvs =>
      rw [renameUrlJ]
      have h2 := hq.2
      rw [hv] at h2
      simp only [List.all_eq_true, bne_iff_ne, ne_eq] at h2
      rw [renameUrl_map_id kvs h2]
  | null => rfl
  | str s => rfl
  | num n => rfl
  | bool b => rfl
  | arr xs => rfl

theorem fold_pages (ps : List (String × Json)) (st : BState)
    (hwf : ∀ p ∈ ps, wfName p.1 = true ∧ renameUrlJ p.2 = p.2)
    (hnd : (kvKeys ps).Nodup)
    (hfresh : ∀ p ∈ ps, getKV st.pages p.1 = none) :
    List.foldl bootstrapStep st (pagesDispatch ps)
      = { st with pages := st.pages ++ ps } := by
  obtain ⟨sc, sp, su, sa⟩ := st
  induction ps generalizing sp with
  | nil => simp [pagesDispatch]
  | cons hd tl ih =>
      obtain ⟨k, v⟩ := hd
      obtain ⟨hk, hv⟩ := hwf (k, v) (by simp)
      have hslk : stripLeadSlash k = k := stripLeadSlash_wfName k hk
      simp only [pagesDispatch, List.map_cons, List.foldl_cons]
      have hstep : bootstrapStep ⟨sc, sp, su, sa⟩
            (Json.obj [(pageUri (stripLeadSlash k), renameUrlJ v)])
          = ⟨sc, sp ++ [(k, v)], su, sa⟩ := by
        rw [hslk, hv]
        simp only [bootstrapStep, parseUri_pageUri, hslk, hv]
        rw [setKV_of_getKV_none sp k v (hfresh (k, v) (by simp))]
      rw [hstep]
      simp only [kvKeys, List.map_cons, List.nodup_cons] at hnd
      have hfresh2 : ∀ p ∈ tl, getKV (sp ++ [(k, v)]) p.1 = none := by
        intro p hp
        have hpk : p.1 ≠ k := by
          intro he
          exact hnd.1 (he ▸ (List.mem_map.mpr ⟨p, hp, rfl⟩))
        rw [getKV_append_single_ne sp k p.1 v hpk]
        exact hfresh p (by simp [hp])
      have := ih (fun p hp => hwf p (by simp [hp])) (by simpa [kvKeys] using hnd.2)
        (sp ++ [(k, v)]) hfresh2
      simpa [pagesDispatch] using this

theorem fold_users_vals (vs : List Json) (st : BState) :
    List.foldl bootstrapStep st (vs.map (fun u => Json.obj [(userUri (userKey u), u)]))
      = { st with users := st.users ++ vs } := by
  obtain ⟨sc, sp, su, sa⟩ := st
  induction vs generalizing su with
  | nil => simp
  | cons hd tl ih =>
      simp only [List.map_cons, List.foldl_cons]
      have hstep : bootstrapStep ⟨sc, sp, su, sa⟩ (Json.obj [(userUri (userKey hd), hd)])
          = ⟨sc, sp, su ++ [hd], sa⟩ := by
        simp [bootstrapStep, parseUri_userUri]
      rw [hstep, ih (su ++ [hd])]
      simp

theorem fold_users (us : List Json) (st : BState) :
    List.foldl bootstrapStep st (usersDispatch us)
      = { st with users := st.users ++ us.filter hasAuth } := by
  rw [usersDispatch]
  exact fold_users_vals (us.filter hasAuth) st

theorem setKV_append_last {α : Type} (l : List (String × α)) (k : String) (x y : α)
    (h : getKV l k = none) : setKV (l ++ [(k, x)]) k y = l ++ [(k, y)] := by
  induction l with
  | nil => simp [setKV]
  | cons hd tl ih =>
      obtain ⟨k0, v0⟩ := hd
      rw [getKV] at h
      by_cases h0 : k0 = k
      · rw [if_pos h0] at h; simp at h
      · rw [if_neg h0] at h
        simp only [List.cons_append, setKV, if_neg h0, List.append_eq, ih h]

theorem fold_arb (coll : String) (es : List (String × Json)) (st : BState)
    (hc : wfArbName coll = true)
    (hk : ∀ p ∈ es, p.1 ≠ "") (hnd : (kvKeys es).Nodup)
    (hfresh : getKV st.arbs coll = none) (hne : es ≠ []) :
    List.foldl bootstrapStep st (arbitraryDispatch coll es)
      = { st with arbs := st.arbs ++ [(coll, es)] } := by
  obtain ⟨sc, sp, su, sa⟩ := st
  have hfresh2 : getKV sa coll = none := hfresh
  have aux : ∀ (tl : List (String × Json)) (acc : List (String × Json)),
      (∀ p ∈ tl, p.1 ≠ "" ∧ getKV acc p.1 = none) → (kvKeys tl).Nodup →
      List.foldl bootstrapStep ⟨sc, sp, su, sa ++ [(coll, acc)]⟩ (arbitraryDispatch coll tl)
        = ⟨sc, sp, su, sa ++ [(coll, acc ++ tl)]⟩ := by
    intro tl
    induction tl with
    | nil => intro acc _ _; simp [arbitraryDispatch]
    | cons hd tl2 ih =>
        intro acc hk2 hnd2
        obtain ⟨k, v⟩ := hd
        obtain ⟨hk1, hkacc⟩ := hk2 (k, v) (by simp)
        simp only [arbitraryDispatch, List.map_cons, List.foldl_cons]
        have hgc : getKV (sa ++ [(coll, acc)]) coll = some acc := by
          rw [getKV_append_right sa _ coll hfresh2]
          simp [getKV]
        have hstep : bootstrapStep ⟨sc, sp, su, sa ++ [(coll, acc)]⟩
              (Json.obj [(arbUri coll k, v)])
            = ⟨sc, sp, su, sa ++ [(coll, acc ++ [(k, v)])]⟩ := by
          simp only [bootstrapStep, parseUri_arbUri coll k hc hk1]
          simp only [arbWrite, hgc]
          rw [setKV_of_getKV_none acc k v hkacc, setKV_append_last sa coll _ _ hfresh2]
        rw [hstep]
        simp only [kvKeys, List.map_cons, List.nodup_cons] at hnd2
        have hk3 : ∀ p ∈ tl2, p.1 ≠ "" ∧ getKV (acc ++ [(k, v)]) p.1 = none := by
          intro p hp
          obtain ⟨hp1, hp2⟩ := hk2 p (by simp [hp])
          refine ⟨hp1, ?_⟩
          have hpk : p.1 ≠ k := by
            intro he
            exact hnd2.1 (he ▸ (List.mem_map.mpr ⟨p, hp, rfl⟩))
          rw [getKV_append_single_ne acc k p.1 v hpk]
          exact hp2
        have := ih (acc ++ [(k, v)]) hk3 (by simpa [kvKeys] using hnd2.2)
        simpa [arbitraryDispatch] using this
  cases es with
  | nil => exact absurd rfl hne
  | cons hd tl =>
      obtain ⟨k, v⟩ := hd
      have hk1 : k ≠ "" := (hk (k, v) (by simp))
      simp only [arbitraryDispatch, List.map_cons, List.foldl_cons]
      have hstep : bootstrapStep ⟨sc, sp, su, sa⟩ (Json.obj [(arbUri coll k, v)])
          = ⟨sc, sp, su, sa ++ [(coll, [(k, v)])]⟩ := by
        simp only [bootstrapStep, parseUri_arbUri coll k hc hk1]
        simp only [arbWrite, hfresh2]
      rw [hstep]
      simp only [kvKeys, List.map_cons, List.nodup_cons] at hnd
      have hk2 : ∀ p ∈ tl, p.1 ≠ "" ∧ getKV [(k, v)] p.1 = none := by
        intro p hp
        refine ⟨(hk p (by simp [hp])), ?_⟩
        have hpk : p.1 ≠ k := by
          intro he
          exact hnd.1 (he ▸ (List.mem_map.mpr ⟨p, hp, rfl⟩))
        simp [getKV, Ne.symm hpk]
      have := aux tl [(k, v)] hk2 (by simpa [kvKeys] using hnd.2)
      simpa [arbitraryDispatch] using this

theorem CompsInv_empty (comps : List (String × Json)) : CompsInv comps [] [] := by
  refine ⟨List.nodup_nil, ?_, ?_⟩
  · intro ty2
    simp [kvKeys]
  · intro ty2 e h
    simp [getKV] at h

theorem wfTree_obj_of (comps : List (String × Json)) (kvs : List (String × Json))
    (href : getKV kvs "_ref" = none) (hnd : (kvKeys kvs).Nodup)
    (hall : ∀ q ∈ kvs, wfTree comps q.2 = true) :
    wfTree comps (Json.obj kvs) = true := by
  rw [wfTree]
  simp only [href]
  rw [Bool.and_eq_true, decide_eq_true_eq, wfTreeKVs_eq_all, List.all_eq_true]
  exact ⟨hnd, fun q hq => hall q hq⟩

theorem fold_insts (comps : List (String × Json)) (ty : String) (dJ : Json)
    (hty : wfName ty = true) (hd : getKV comps ty = some dJ)
    (insts : List (String × Json))
    (hin : ∀ q ∈ insts, wfName q.1 = true ∧ instDataJ dJ q.1 = some q.2
      ∧ wfTree comps q.2 = true
      ∧ ∃ ifkvs, q.2 = Json.obj ifkvs ∧ (kvKeys ifkvs).Nodup) :
    ∀ (st : BState) (W : List (String × Option String)),
      CompsInv comps W st.comps →
      ∃ W2 C, List.foldl bootstrapStep st
          (insts.map (fun q => Json.obj [(instUri ty q.1, inlineJ comps q.2)]))
        = { st with comps := C }
        ∧ CompsInv comps (W ++ W2) C
        ∧ ∀ q ∈ insts, (ty, some q.1) ∈ W2 := by
  induction insts with
  | nil =>
      intro st W hInv
      refine ⟨[], st.comps, by simp, by simpa using hInv, by simp⟩
  | cons q rest ih =>
      intro st W hInv
      obtain ⟨sc, sp, su, sa⟩ := st
      obtain ⟨hqn, hqd, hqt, ifkvs, hqo, hqnd⟩ := hin q (by simp)
      have hstrip := stripJ_inlineJ comps q.2 hqt
      have hstep := step_comp_record ⟨sc, sp, su, sa⟩ (instUri ty q.1) (inlineJ comps q.2)
        ty (some q.1) (parseUri_instUri ty q.1 hty hqn)
      rw [hstrip.1] at hstep
      have hof : q.2.objFields = ifkvs := by rw [hqo]; rfl
      rw [hof] at hstep
      have hV : Vwrite comps ty (some q.1) ifkvs := by
        refine ⟨dJ, hd, ?_, hqnd⟩
        rw [← hqo]
        exact hqd
      have h1 := compWrite_inv comps W sc ty (some q.1) ifkvs hInv hV
      obtain ⟨W2a, h2⟩ := applyInserts_inv comps (stripJ (inlineJ comps q.2)).2
        (W ++ [(ty, some q.1)]) (compWrite sc ty (some q.1) ifkvs) h1 hstrip.2
      obtain ⟨W2b, C2, heq, hInv2, hmem⟩ := ih
        (fun r hr => hin r (by simp [hr]))
        ⟨applyInserts (compWrite sc ty (some q.1) ifkvs) (stripJ (inlineJ comps q.2)).2,
          sp, su, sa⟩
        ((W ++ [(ty, some q.1)]) ++ W2a) h2
      refine ⟨([(ty, some q.1)] ++ W2a) ++ W2b, C2, ?_, ?_, ?_⟩
      · simp only [List.map_cons, List.foldl_cons, hstep]
        exact heq
      · rw [show W ++ (([(ty, some q.1)] ++ W2a) ++ W2b)
            = ((W ++ [(ty, some q.1)]) ++ W2a) ++ W2b by simp]
        exact hInv2
      · intro r hr
        rcases List.mem_cons.mp hr with he | hr2
        · rw [he]
          simp
        · simp only [List.append_assoc, List.mem_append]
          exact Or.inr (Or.inr (hmem r hr2))

theorem fold_entry (comps : List (String × Json)) (p : String × Json)
    (hmem : p ∈ comps) (hwf : wfComponents comps = true) :
    ∀ (st : BState) (W : List (String × Option String)),
      CompsInv comps W st.comps →
      ∃ W2 C, List.foldl bootstrapStep st (recordsFor comps p)
        = { st with comps := C }
        ∧ CompsInv comps (W ++ W2) C
        ∧ (p.1, (none : Option String)) ∈ W2
        ∧ ∀ i iv, getKV p.2.objFields "instances" = some iv →
            i ∈ kvKeys iv.objFields → (p.1, some i) ∈ W2 := by
  intro st W hInv
  obtain ⟨sc, sp, su, sa⟩ := st
  have hndc : (kvKeys comps).Nodup := by
    simp only [wfComponents, Bool.and_eq_true, decide_eq_true_eq] at hwf
    exact hwf.1.2
  have hget : getKV comps p.1 = some p.2 := getKV_of_mem_nodup comps p.1 p.2 hndc hmem
  obtain ⟨hpn, dkvs, hpd, hdnd, hdref, hdtrees, hdinsts⟩ :=
    wfComponents_entry comps hwf p.1 p.2 hget
  have hfields : p.2.objFields = dkvs := by rw [hpd]; rfl
  have htreeB : wfTree comps (Json.obj (removeKV dkvs "instances")) = true := by
    refine wfTree_obj_of comps _ ?_ (kvKeys_nodup_removeKV dkvs "instances" hdnd) hdtrees
    rw [getKV_removeKV_other dkvs "instances" "_ref" (by decide)]
    exact hdref
  have hstrip := stripJ_inlineJ comps (Json.obj (removeKV dkvs "instances")) htreeB
  have hstep := step_comp_record ⟨sc, sp, su, sa⟩ (compUri p.1)
    (inlineJ comps (Json.obj (removeKV dkvs "instances"))) p.1 none (parseUri_compUri p.1 hpn)
  rw [hstrip.1] at hstep
  have hV : Vwrite comps p.1 none (removeKV dkvs "instances") := by
    refine ⟨p.2, hget, ?_, kvKeys_nodup_removeKV dkvs "instances" hdnd⟩
    rw [hfields]
  have h1 := compWrite_inv comps W sc p.1 none (removeKV dkvs "instances") hInv hV
  obtain ⟨W2a, h2⟩ := applyInserts_inv comps
    (stripJ (inlineJ comps (Json.obj (removeKV dkvs "instances")))).2
    (W ++ [(p.1, none)])
    (compWrite sc p.1 none (removeKV dkvs "instances")) h1 hstrip.2
  set C1 := applyInserts (compWrite sc p.1 none (removeKV dkvs "instances"))
    (stripJ (inlineJ comps (Json.obj (removeKV dkvs "instances")))).2 with hC1
  cases hgi : getKV dkvs "instances" with
  | none =>
      have hrecs : recordsFor comps p
          = [Json.obj [(compUri p.1,
              inlineJ comps (Json.obj (removeKV p.2.objFields "instances")))]] := by
        rw [recordsFor, hfields, hgi]
      refine ⟨[(p.1, none)] ++ W2a, C1, ?_, ?_, by simp, ?_⟩
      · rw [hrecs, hfields]
        simp only [List.foldl_cons, List.foldl_nil, hstep]
        rw [show (Json.obj (removeKV dkvs "instances")).objFields
              = removeKV dkvs "instances" from rfl]
      · rw [show W ++ ([(p.1, none)] ++ W2a) = (W ++ [(p.1, none)]) ++ W2a by simp]
        exact h2
      · intro i iv hiv
        rw [hfields, hgi] at hiv
        simp at hiv
  | some iv =>
      rw [hgi] at hdinsts
      obtain ⟨insts, hivo, hine, hinnd, hinq⟩ := wfInstances_some comps iv hdinsts
      have hin : ∀ q ∈ insts, wfName q.1 = true ∧ instDataJ p.2 q.1 = some q.2
          ∧ wfTree comps q.2 = true
          ∧ ∃ ifkvs, q.2 = Json.obj ifkvs ∧ (kvKeys ifkvs).Nodup := by
        intro q hq
        obtain ⟨hqn, ifkvs, hqo, hqnd, hqref, hqtrees⟩ := hinq q hq
        refine ⟨hqn, ?_, ?_, ifkvs, hqo, hqnd⟩
        · rw [instDataJ, hfields, hgi, hivo]
          simp only [Option.some_bind]
          rw [show (Json.obj insts).objFields = insts from rfl]
          exact getKV_of_mem_nodup insts q.1 q.2 hinnd hq
        · rw [hqo]
          refine wfTree_obj_of comps ifkvs hqref hqnd ?_
          rw [wfTreeKVs_eq_all] at hqtrees
          simp only [List.all_eq_true] at hqtrees
          exact hqtrees
      obtain ⟨W2b, C2, heq, hInv2, hmemb⟩ := fold_insts comps p.1 p.2 hpn hget insts hin
        ⟨C1, sp, su, sa⟩ ((W ++ [(p.1, none)]) ++ W2a) h2
      have hrecs : recordsFor comps p
          = Json.obj [(compUri p.1,
              inlineJ comps (Json.obj (removeKV p.2.objFields "instances")))]
            :: insts.map (fun q => Json.obj [(instUri p.1 q.1, inlineJ comps q.2)]) := by
        rw [recordsFor, hfields, hgi, hivo]
      refine ⟨([(p.1, none)] ++ W2a) ++ W2b, C2, ?_, ?_, by simp, ?_⟩
      · rw [hrecs, hfields]
        simp only [List.foldl_cons, hstep]
        rw [show (Json.obj (removeKV dkvs "instances")).objFields
              = removeKV dkvs "instances" from rfl]
        exact heq
      · rw [show W ++ (([((p.1 : String), (none : Option String))] ++ W2a) ++ W2b)
            = ((W ++ [(p.1, none)]) ++ W2a) ++ W2b by simp]
        exact hInv2
      · intro i iv2 hiv2 hik
        rw [hfields, hgi] at hiv2
        have hivv : iv2 = iv := by
          injection hiv2 with h3
          exact h3.symm
        rw [hivv, hivo] at hik
        rw [show (Json.obj insts).objFields = insts from rfl] at hik
        obtain ⟨q, hq, hq1⟩ := List.mem_map.mp hik
        have := hmemb q hq
        rw [hq1] at this
        simp only [List.append_assoc, List.mem_append]
        exact Or.inr (Or.inr this)

theorem fold_comps (comps : List (String × Json)) (hwf : wfComponents comps = true) :
    ∀ (l : List (String × Json)), (∀ p ∈ l, p ∈ comps) →
    ∀ (st : BState) (W : List (String × Option String)),
      CompsInv comps W st.comps →
      ∃ W2 C, List.foldl bootstrapStep st (l.flatMap (recordsFor comps))
        = { st with comps := C }
        ∧ CompsInv comps (W ++ W2) C
        ∧ ∀ p ∈ l, ((p.1 : String), (none : Option String)) ∈ W2
            ∧ ∀ i iv, getKV p.2.objFields "instances" = some iv →
                i ∈ kvKeys iv.objFields → (p.1, some i) ∈ W2 := by
  intro l
  induction l with
  | nil =>
      intro _ st W hInv
      refine ⟨[], st.comps, by simp, by simpa using hInv, by simp⟩
  | cons p rest ih =>
      intro hl st W hInv
      obtain ⟨sc, sp, su, sa⟩ := st
      obtain ⟨W2a, C1, heq1, hInv1, hbase, hinsts⟩ :=
        fold_entry comps p (hl p (by simp)) hwf ⟨sc, sp, su, sa⟩ W hInv
      obtain ⟨W2b, C2, heq2, hInv2, hcov⟩ := ih (fun r hr => hl r (by simp [hr]))
        ⟨C1, sp, su, sa⟩ (W ++ W2a) hInv1
      refine ⟨W2a ++ W2b, C2, ?_, ?_, ?_⟩
      · rw [List.flatMap_cons, List.foldl_append, heq1]
        exact heq2
      · rw [show W ++ (W2a ++ W2b) = (W ++ W2a) ++ W2b by simp]
        exact hInv2
      · intro r hr
        rcases List.mem_cons.mp hr with he | hr2
        · subst he
          exact ⟨List.mem_append.mpr (Or.inl hbase),
            fun i iv h1 h2 => List.mem_append.mpr (Or.inl (hinsts i iv h1 h2))⟩
        · obtain ⟨h1, h2⟩ := hcov r hr2
          exact ⟨List.mem_append.mpr (Or.inr h1),
            fun i iv ha hb => List.mem_append.mpr (Or.inr (h2 i iv ha hb))⟩

/-- The outcome of the components fold: up to key order (at both the entry
level and the instances level), the accumulated `_components` mapping is
the source's `_components` collection. -/
theorem CompsInv_final (comps : List (String × Json))
    (W : List (String × Option String)) (C : List (String × Json))
    (hwf : wfComponents comps = true) (hInv : CompsInv comps W C)
    (hcov : ∀ p ∈ comps, ((p.1 : String), (none : Option String)) ∈ W
      ∧ ∀ i iv, getKV p.2.objFields "instances" = some iv →
          i ∈ kvKeys iv.objFields → (p.1, some i) ∈ W) :
    (kvKeys C).Nodup ∧ C ≠ []
      ∧ ∀ ty, Option.map sortJ (getKV C ty) = Option.map sortJ (getKV comps ty) := by
  obtain ⟨hnd, hkeys, hent⟩ := hInv
  have hcne : comps ≠ [] := by
    simp only [wfComponents, Bool.and_eq_true, decide_eq_true_eq] at hwf
    exact hwf.1.1
  obtain ⟨p0, hp0⟩ := List.exists_mem_of_ne_nil comps hcne
  have hCne : C ≠ [] := by
    intro hCnil
    have h1 : p0.1 ∈ kvKeys C := (hkeys p0.1).mpr ⟨none, (hcov p0 hp0).1⟩
    rw [hCnil] at h1
    simp [kvKeys] at h1
  refine ⟨hnd, hCne, ?_⟩
  intro ty
  cases hc : getKV comps ty with
  | none =>
      cases hcty : getKV C ty with
      | none => rfl
      | some e =>
          obtain ⟨d, _, _, hd, _⟩ := hent ty e hcty
          rw [hc] at hd
          exact absurd hd (by simp)
  | some dJ =>
      have hmem := getKV_some_mem comps ty dJ hc
      obtain ⟨hbase, hinstcov⟩ := hcov (ty, dJ) hmem
      obtain ⟨htyn, dkvs, hdo, hdnd, hdref, hdtrees, hdinsts⟩ :=
        wfComponents_entry comps hwf ty dJ hc
      have htyC : ty ∈ kvKeys C := (hkeys ty).mpr ⟨none, hbase⟩
      have hsome := (mem_keys_iff_getKV C ty).mp htyC
      cases hcty : getKV C ty with
      | none => rw [hcty] at hsome; simp at hsome
      | some e =>
          obtain ⟨d, ekvs, il, hd, he, hend, hilnd, hil, hperm⟩ := hent ty e hcty
          rw [hc] at hd
          have h2 : dJ = d := Option.some.inj hd
          subst h2
          have hdf : dJ.objFields = dkvs := by rw [hdo]; rfl
          rw [if_pos hbase, hdf] at hperm
          rw [he, hdo]
          simp only [Option.map_some']
          congr 1
          cases hgi : getKV dkvs "instances" with
          | none =>
              have hilnil : il = [] := by
                refine eq_nil_of_getKV_none il ?_
                intro i
                rw [hil i]
                have hidn : instDataJ dJ i = none := by
                  rw [instDataJ, hdf, hgi]
                  rfl
                rw [hidn]
                exact ite_self none
              have hrm : removeKV dkvs "instances" = dkvs := by
                refine removeKV_of_not_mem dkvs "instances" ?_
                intro hm
                have hs := getKV_isSome_of_mem dkvs "instances" hm
                rw [hgi] at hs
                simp at hs
              rw [hilnil, hrm] at hperm
              have hperm2 : ekvs.Perm dkvs := by simpa using hperm
              refine sortJ_obj_ext ekvs dkvs hend hdnd ?_
              intro k
              rw [getKV_eq_of_perm ekvs dkvs hperm2 hend k]
          | some iv =>
              rw [hgi] at hdinsts
              obtain ⟨insts, hivo, hine, hinnd, _⟩ := wfInstances_some comps iv hdinsts
              have hilins : ∀ i, getKV il i = getKV insts i := by
                intro i
                by_cases hik : i ∈ kvKeys insts
                · have hm : (ty, some i) ∈ W := by
                    refine hinstcov i iv ?_ ?_
                    · rw [hdf]; exact hgi
                    · rw [hivo]; exact hik
                  rw [hil i, if_pos hm, instDataJ, hdf, hgi, hivo]
                  simp only [Option.some_bind]
                  rfl
                · rw [hil i]
                  have hnone : getKV insts i = none := getKV_eq_none_of_not_mem insts i hik
                  have hidn : instDataJ dJ i = none := by
                    rw [instDataJ, hdf, hgi, hivo]
                    simp only [Option.some_bind]
                    rw [show (Json.obj insts).objFields = insts from rfl, hnone]
                  rw [hidn, hnone]
                  exact ite_self none
              have hilperm : il.Perm insts :=
                perm_of_getKV_ext il insts hilnd hinnd hilins
              have hilne : il ≠ [] := by
                intro hnil
                rw [hnil] at hilperm
                exact hine (hilperm.symm.eq_nil)
              have hilemp : il.isEmpty = false := by
                cases il with
                | nil => exact absurd rfl hilne
                | cons a b => rfl
              rw [hilemp] at hperm
              have hperm2 : ekvs.Perm (removeKV dkvs "instances" ++ [("instances", Json.obj il)]) := by
                simpa using hperm
              have hdperm : dkvs.Perm (("instances", Json.obj insts) :: removeKV dkvs "instances") := by
                refine perm_cons_removeKV dkvs "instances" (Json.obj insts) hdnd ?_
                rw [hgi, hivo]
              refine sortJ_obj_ext ekvs dkvs hend hdnd ?_
              intro k
              rw [getKV_eq_of_perm ekvs _ hperm2 hend k]
              rw [getKV_eq_of_perm dkvs _ hdperm hdnd k]
              by_cases hki : k = "instances"
              · subst hki
                rw [getKV_append_right _ _ _ (getKV_removeKV_self dkvs "instances")]
                have h1 : getKV [("instances", Json.obj il)] "instances"
                    = some (Json.obj il) := by simp [getKV]
                have h3 : getKV (("instances", Json.obj insts) :: removeKV dkvs "instances")
                    "instances" = some (Json.obj insts) := by simp [getKV]
                rw [h1, h3]
                simp only [Option.map_some']
                congr 1
                refine sortJ_obj_ext il insts hilnd hinnd ?_
                intro i
                rw [hilins i]
              · have hrk : getKV (removeKV dkvs "instances") k = getKV dkvs k :=
                  getKV_removeKV_other dkvs "instances" k (Ne.symm hki)
                have h3 : getKV (("instances", Json.obj insts) :: removeKV dkvs "instances") k
                    = getKV dkvs k := by
                  rw [getKV, if_neg (fun h => hki h.symm)]
                  exact hrk
                rw [h3]
                cases hgk : getKV dkvs k with
                | some w =>
                    rw [getKV_append_left _ _ _ w (hrk.trans hgk)]
                | none =>
                    rw [getKV_append_right _ _ _ (hrk.trans hgk)]
                    rw [getKV, if_neg (fun h => hki h.symm)]
                    rfl

/-! ### `normRefsJ` is the identity on well-formed documents (C1) -/

theorem mem_removeKV {α : Type} (l : List (String × α)) (k : String) (q : String × α)
    (hq : q ∈ l) (hne : q.1 ≠ k) : q ∈ removeKV l k := by
  induction l with
  | nil => simp at hq
  | cons hd tl ih =>
      obtain ⟨k0, v0⟩ := hd
      rw [removeKV]
      by_cases h0 : k0 = k
      · rw [if_pos h0]
        rcases List.mem_cons.mp hq with he | hm
        · have hq1 : q.1 = k := by rw [he, h0]
          exact absurd hq1 hne
        · exact ih hm
      · rw [if_neg h0]
        rcases List.mem_cons.mp hq with he | hm
        · exact List.mem_cons.mpr (Or.inl he)
        · exact List.mem_cons.mpr (Or.inr (ih hm))

theorem normRefsKVs_id (l : List (String × Json)) (h : ∀ q ∈ l, normRefsJ q.2 = q.2) :
    normRefsKVs l = l := by
  induction l with
  | nil => rfl
  | cons hd tl ih =>
      obtain ⟨k, v⟩ := hd
      rw [normRefsKVs, h (k, v) (by simp), ih (fun q hq => h q (by simp [hq]))]

mutual

theorem normRefsJ_wfTree (comps : List (String × Json)) :
    ∀ j, wfTree comps j = true → normRefsJ j = j
  | .null, _ => rfl
  | .str s, _ => rfl
  | .num n, _ => rfl
  | .bool b, _ => rfl
  | .arr xs, h => by
      rw [wfTree] at h
      rw [normRefsJ, normRefsList_wfTree comps xs h]
  | .obj kvs, h => by
      rw [wfTree] at h
      rw [normRefsJ]
      cases href : getKV kvs "_ref" with
      | some v =>
          cases v with
          | str uri =>
              simp only [href, Bool.and_eq_true, decide_eq_true_eq] at h
              rw [h.1]
          | null => simp [href] at h
          | num n => simp [href] at h
          | bool b => simp [href] at h
          | arr xs => simp [href] at h
          | obj kvs2 => simp [href] at h
      | none =>
          simp only [href, Bool.and_eq_true, decide_eq_true_eq] at h
          rw [normRefsKVs_wfTree comps kvs h.2]

theorem normRefsList_wfTree (comps : List (String × Json)) :
    ∀ xs, wfTreeList comps xs = true → normRefsList xs = xs
  | [], _ => rfl
  | x :: xs, h => by
      rw [wfTreeList] at h
      simp only [Bool.and_eq_true] at h
      rw [normRefsList, normRefsJ_wfTree comps x h.1, normRefsList_wfTree comps xs h.2]

theorem normRefsKVs_wfTree (comps : List (String × Json)) :
    ∀ kvs, wfTreeKVs comps kvs = true → normRefsKVs kvs = kvs
  | [], _ => rfl
  | (k, v) :: kvs, h => by
      rw [wfTreeKVs] at h
      simp only [Bool.and_eq_true] at h
      rw [normRefsKVs, normRefsJ_wfTree comps v h.1, normRefsKVs_wfTree comps kvs h.2]

end

theorem normRefsJ_instances (comps : List (String × Json)) (iv : Json)
    (h : wfInstances comps (some iv) = true) : normRefsJ iv = iv := by
  obtain ⟨insts, hivo, _, hinnd, hinq⟩ := wfInstances_some comps iv h
  subst hivo
  have hvals : ∀ q ∈ insts, normRefsJ q.2 = q.2 := by
    intro q hq
    obtain ⟨_, ifkvs, hqo, hqnd, hqref, hqtrees⟩ := hinq q hq
    rw [hqo]
    refine normRefsJ_wfTree comps _ ?_
    refine wfTree_obj_of comps ifkvs hqref hqnd ?_
    rw [wfTreeKVs_eq_all] at hqtrees
    simp only [List.all_eq_true] at hqtrees
    exact hqtrees
  rw [normRefsJ]
  cases href : getKV insts "_ref" with
  | some v =>
      have hvm := getKV_some_mem insts "_ref" v href
      obtain ⟨_, ifkvs, hqo, _, _, _⟩ := hinq ("_ref", v) hvm
      cases v with
      | obj kvs2 => rw [normRefsKVs_id insts hvals]
      | null => simp at hqo
      | str s => simp at hqo
      | num n => simp at hqo
      | bool b => simp at hqo
      | arr xs => simp at hqo
  | none => rw [normRefsKVs_id insts hvals]

theorem normRefsJ_entry (comps : List (String × Json)) (ty : String) (dJ : Json)
    (hwf : wfComponents comps = true) (hget : getKV comps ty = some dJ) :
    normRefsJ dJ = dJ := by
  obtain ⟨_, dkvs, hdo, hdnd, hdref, hdtrees, hdinsts⟩ :=
    wfComponents_entry comps hwf ty dJ hget
  subst hdo
  rw [normRefsJ]
  cases href : getKV dkvs "_ref" with
  | some v => rw [href] at hdref; simp at hdref
  | none =>
      have hvals : ∀ q ∈ dkvs, normRefsJ q.2 = q.2 := by
        intro q hq
        by_cases hqi : q.1 = "instances"
        · have hgq : getKV dkvs "instances" = some q.2 := by
            rw [← hqi]
            exact getKV_of_mem_nodup dkvs q.1 q.2 hdnd hq
          rw [hgq] at hdinsts
          exact normRefsJ_instances comps q.2 hdinsts
        · have hqm : q ∈ removeKV dkvs "instances" := mem_removeKV dkvs "instances" q hq hqi
          exact normRefsJ_wfTree comps q.2 (hdtrees q hqm)
      rw [normRefsKVs_id dkvs hvals]

theorem normRefsJ_components (comps : List (String × Json))
    (hwf : wfComponents comps = true) :
    normRefsJ (Json.obj comps) = Json.obj comps := by
  have hndc : (kvKeys comps).Nodup := by
    simp only [wfComponents, Bool.and_eq_true, decide_eq_true_eq] at hwf
    exact hwf.1.2
  have hvals : ∀ q ∈ comps, normRefsJ q.2 = q.2 := by
    intro q hq
    exact normRefsJ_entry comps q.1 q.2 hwf (getKV_of_mem_nodup comps q.1 q.2 hndc hq)
  rw [normRefsJ]
  cases href : getKV comps "_ref" with
  | some v =>
      have hvm := getKV_some_mem comps "_ref" v href
      obtain ⟨_, dkvs, hdo, _, _, _, _⟩ := wfComponents_entry comps hwf "_ref" v href
      cases v with
      | obj kvs2 => rw [normRefsKVs_id comps hvals]
      | null => simp at hdo
      | str s => simp at hdo
      | num n => simp at hdo
      | bool b => simp at hdo
      | arr xs => simp at hdo
  | none => rw [normRefsKVs_id comps hvals]

/-! ### Assembling the whole round trip (C1) -/

/-- The three root collections with dedicated transcoding rules. -/
def isSpecialRoot (k : String) : Bool :=
  k == "_components" || k == "_pages" || k == "_users"

/-- The page entries contributed by the `_pages` roots of a root list. -/
def pagesOf : List (String × Json) → List (String × Json)
  | [] => []
  | p :: rs => (if p.1 = "_pages" then p.2.objFields else []) ++ pagesOf rs

/-- The qualifying users contributed by the `_users` roots of a root list. -/
def usersOf : List (String × Json) → List Json
  | [] => []
  | p :: rs => (if p.1 = "_users" then p.2.arrItems.filter hasAuth else []) ++ usersOf rs

/-- The arbitrary collections of a root list, in declaration order. -/
def arbsOf : List (String × Json) → List (String × List (String × Json))
  | [] => []
  | p :: rs => (if isSpecialRoot p.1 then [] else [(p.1, p.2.objFields)]) ++ arbsOf rs

/-- The dispatch records of a single root collection (the body of
`toDispatch`). -/
def rootRecords (p : String × Json) : List Json :=
  if p.1 = "_components" then componentsDispatch p.2.objFields
  else if p.1 = "_pages" then pagesDispatch p.2.objFields
  else if p.1 = "_users" then usersDispatch p.2.arrItems
  else arbitraryDispatch p.1 p.2.objFields

theorem toDispatch_eq_flatMap (roots : List (String × Json)) :
    toDispatch (Json.obj roots) = roots.flatMap rootRecords := rfl

theorem isSpecialRoot_eq_false (k : String) (h : wfArbName k = true) :
    isSpecialRoot k = false := by
  simp only [wfArbName, Bool.and_eq_true, bne_iff_ne, ne_eq] at h
  simp [isSpecialRoot, h.1.1.2, h.1.2, h.2]

theorem pagesOf_of_not_mem (roots : List (String × Json))
    (h : "_pages" ∉ kvKeys roots) : pagesOf roots = [] := by
  induction roots with
  | nil => rfl
  | cons p rs ih =>
      simp only [kvKeys, List.map_cons, List.mem_cons, not_or] at h
      rw [pagesOf, if_neg (fun he => h.1 he.symm), ih (by simpa [kvKeys] using h.2)]
      rfl

theorem usersOf_of_not_mem (roots : List (String × Json))
    (h : "_users" ∉ kvKeys roots) : usersOf roots = [] := by
  induction roots with
  | nil => rfl
  | cons p rs ih =>
      simp only [kvKeys, List.map_cons, List.mem_cons, not_or] at h
      rw [usersOf, if_neg (fun he => h.1 he.symm), ih (by simpa [kvKeys] using h.2)]
      rfl

theorem pagesOf_of_mem (roots : List (String × Json)) (v : Json)
    (hnd : (kvKeys roots).Nodup) (hm : ("_pages", v) ∈ roots) :
    pagesOf roots = v.objFields := by
  induction roots with
  | nil => simp at hm
  | cons p rs ih =>
      simp only [kvKeys, List.map_cons, List.nodup_cons] at hnd
      rcases List.mem_cons.mp hm with he | hm2
      · rw [pagesOf, ← he]
        simp only [if_pos rfl]
        rw [pagesOf_of_not_mem rs (by
          intro hmem
          rw [← he] at hnd
          exact hnd.1 hmem)]
        simp
      · have hne : p.1 ≠ "_pages" := by
          intro he2
          exact hnd.1 (he2 ▸ (List.mem_map.mpr ⟨("_pages", v), hm2, rfl⟩))
        rw [pagesOf, if_neg hne, ih hnd.2 hm2]
        rfl

theorem usersOf_of_mem (roots : List (String × Json)) (v : Json)
    (hnd : (kvKeys roots).Nodup) (hm : ("_users", v) ∈ roots) :
    usersOf roots = v.arrItems.filter hasAuth := by
  induction roots with
  | nil => simp at hm
  | cons p rs ih =>
      simp only [kvKeys, List.map_cons, List.nodup_cons] at hnd
      rcases List.mem_cons.mp hm with he | hm2
      · rw [usersOf, ← he]
        simp only [if_pos rfl]
        rw [usersOf_of_not_mem rs (by
          intro hmem
          rw [← he] at hnd
          exact hnd.1 hmem)]
        simp
      · have hne : p.1 ≠ "_users" := by
          intro he2
          exact hnd.1 (he2 ▸ (List.mem_map.mpr ⟨("_users", v), hm2, rfl⟩))
        rw [usersOf, if_neg hne, ih hnd.2 hm2]
        rfl

theorem arbsOf_keys (roots : List (String × Json)) :
    ∀ k ∈ kvKeys (arbsOf roots), k ∈ kvKeys roots ∧ isSpecialRoot k = false := by
  induction roots with
  | nil => simp [arbsOf, kvKeys]
  | cons p rs ih =>
      intro k hk
      rw [arbsOf] at hk
      by_cases hs : isSpecialRoot p.1
      · rw [if_pos hs] at hk
        simp only [List.append_eq, List.nil_append] at hk
        obtain ⟨h1, h2⟩ := ih k hk
        exact ⟨List.mem_cons_of_mem p.1 h1, h2⟩
      · rw [if_neg hs] at hk
        simp only [kvKeys, List.append_eq, List.map_append, List.map_cons, List.map_nil,
          List.mem_append, List.mem_cons] at hk
        rcases hk with (he | hf) | hk2
        · refine ⟨?_, ?_⟩
          · rw [he]
            exact List.mem_cons_self p.1 (kvKeys rs)
          · rw [he]
            cases hb : isSpecialRoot p.1 with
            | false => rfl
            | true => exact absurd hb hs
        · simp at hf
        · obtain ⟨h1, h2⟩ := ih k (by simpa [kvKeys] using hk2)
          exact ⟨List.mem_cons_of_mem p.1 h1, h2⟩

theorem arbsOf_keys_nodup (roots : List (String × Json))
    (hnd : (kvKeys roots).Nodup) : (kvKeys (arbsOf roots)).Nodup := by
  induction roots with
  | nil => simp [arbsOf, kvKeys]
  | cons p rs ih =>
      simp only [kvKeys, List.map_cons, List.nodup_cons] at hnd
      rw [arbsOf]
      by_cases hs : isSpecialRoot p.1
      · rw [if_pos hs]
        simpa [List.append_eq] using ih hnd.2
      · rw [if_neg hs]
        simp only [kvKeys, List.append_eq, List.map_append, List.map_cons, List.map_nil,
          List.nil_append, List.cons_append, List.nodup_cons]
        refine ⟨?_, by simpa [kvKeys] using ih hnd.2⟩
        intro hm
        obtain ⟨h1, _⟩ := arbsOf_keys rs p.1 (by simpa [kvKeys] using hm)
        exact hnd.1 h1

theorem arbsOf_of_not_mem (roots : List (String × Json)) (k : String)
    (h : k ∉ kvKeys roots) : getKV (arbsOf roots) k = none := by
  refine getKV_eq_none_of_not_mem _ k ?_
  intro hm
  exact h (arbsOf_keys roots k hm).1

theorem arbsOf_getKV (roots : List (String × Json)) (k : String)
    (hnd : (kvKeys roots).Nodup) (hs : isSpecialRoot k = false) :
    getKV (arbsOf roots) k = Option.map Json.objFields (getKV roots k) := by
  induction roots with
  | nil => rfl
  | cons p rs ih =>
      obtain ⟨k0, v0⟩ := p
      simp only [kvKeys, List.map_cons, List.nodup_cons] at hnd
      rw [arbsOf]
      by_cases h0 : k0 = k
      · subst h0
        rw [if_neg (by rw [hs]; exact Bool.false_ne_true)]
        simp only [List.cons_append, List.nil_append, getKV, if_pos rfl]
        rfl
      · have hr : getKV ((k0, v0) :: rs) k = getKV rs k := by
          rw [getKV, if_neg h0]
        by_cases hsp : isSpecialRoot k0
        · rw [if_pos hsp]
          simp only [List.append_eq, List.nil_append]
          rw [ih hnd.2, hr]
        · rw [if_neg hsp]
          simp only [List.append_eq, List.cons_append, List.nil_append]
          rw [getKV, if_neg h0, ih hnd.2, hr]

theorem fold_roots (roots : List (String × Json)) :
    ∀ (st : BState),
      (kvKeys roots).Nodup →
      (∀ p ∈ roots,
        (if p.1 = "_components" then
          (match p.2 with | Json.obj comps => wfComponents comps | _ => false)
        else if p.1 = "_pages" then
          (match p.2 with | Json.obj ps => wfPages ps | _ => false)
        else if p.1 = "_users" then
          (match p.2 with | Json.arr us => wfUsers us | _ => false)
        else wfArbName p.1 &&
          (match p.2 with | Json.obj es => wfArb es | _ => false)) = true) →
      ("_components" ∈ kvKeys roots → st.comps = []) →
      ("_pages" ∈ kvKeys roots → st.pages = []) →
      (∀ k2 ∈ kvKeys roots, isSpecialRoot k2 = false → getKV st.arbs k2 = none) →
      ∃ C,
        List.foldl bootstrapStep st (roots.flatMap rootRecords)
          = ⟨C, st.pages ++ pagesOf roots, st.users ++ usersOf roots,
              st.arbs ++ arbsOf roots⟩
        ∧ ("_components" ∉ kvKeys roots → C = st.comps)
        ∧ ∀ w, ("_components", w) ∈ roots →
            (kvKeys C).Nodup ∧ C ≠ []
              ∧ ∀ ty, Option.map sortJ (getKV C ty)
                  = Option.map sortJ (getKV w.objFields ty) := by
  induction roots with
  | nil =>
      intro st _ _ _ _ _
      refine ⟨st.comps, by simp [pagesOf, usersOf, arbsOf], fun _ => rfl, by simp⟩
  | cons p rs ih =>
      intro st hnd hall hC hP hA
      obtain ⟨k, v⟩ := p
      obtain ⟨sc, sp, su, sa⟩ := st
      have hndk : k ∉ kvKeys rs := by
        simp only [kvKeys, List.map_cons, List.nodup_cons] at hnd
        exact hnd.1
      have hndr : (kvKeys rs).Nodup := by
        simp only [kvKeys, List.map_cons, List.nodup_cons] at hnd
        exact hnd.2
      have hwfp := hall (k, v) (by simp)
      rw [List.flatMap_cons, List.foldl_append]
      by_cases hk1 : k = "_components"
      · subst hk1
        rw [if_pos rfl] at hwfp
        cases v with
        | obj comps =>
            have hwfc : wfComponents comps = true := by simpa using hwfp
            have hsc : sc = [] := hC (by exact List.mem_cons_self _ _)
            subst hsc
            obtain ⟨W2, C1, heq, hInv1, hcov⟩ := fold_comps comps hwfc comps
              (fun r hr => hr) ⟨[], sp, su, sa⟩ [] (CompsInv_empty comps)
            have hfin := CompsInv_final comps W2 C1 hwfc hInv1 hcov
            have hrr : rootRecords ("_components", Json.obj comps)
                = comps.flatMap (recordsFor comps) := rfl
            rw [hrr, heq]
            obtain ⟨C2, heq2, hnc2, hcc2⟩ := ih ⟨C1, sp, su, sa⟩ hndr
              (fun r hr => hall r (by simp [hr]))
              (fun hm => absurd hm hndk)
              (fun hm => hP (List.mem_cons_of_mem _ hm))
              (fun k2 hk2 hs2 => hA k2 (List.mem_cons_of_mem _ hk2) hs2)
            have hc21 : C2 = C1 := hnc2 hndk
            refine ⟨C2, ?_, ?_, ?_⟩
            · rw [heq2]
              simp [pagesOf, usersOf, arbsOf, isSpecialRoot]
            · intro hm
              exact absurd (List.mem_cons_self _ _) hm
            · intro w hw
              rcases List.mem_cons.mp hw with he | hm2
              · have hwv : w = Json.obj comps := by
                  have := congrArg Prod.snd he
                  simpa using this
                rw [hc21, hwv]
                exact hfin
              · exact absurd (List.mem_map.mpr ⟨("_components", w), hm2, rfl⟩) hndk
        | null => simp at hwfp
        | str s => simp at hwfp
        | num n => simp at hwfp
        | bool b => simp at hwfp
        | arr xs => simp at hwfp
      · by_cases hk2 : k = "_pages"
        · subst hk2
          rw [if_neg hk1, if_pos rfl] at hwfp
          cases v with
          | obj ps =>
              have hwfps : wfPages ps = true := by simpa using hwfp
              obtain ⟨hpne, hpnd, hpprops⟩ := wfPages_entry ps hwfps
              have hsp : sp = [] := hP (List.mem_cons_self _ _)
              subst hsp
              have hrr : rootRecords ("_pages", Json.obj ps) = pagesDispatch ps := rfl
              have heqp := fold_pages ps ⟨sc, [], su, sa⟩ hpprops hpnd
                (fun q hq => rfl)
              rw [hrr, heqp]
              obtain ⟨C2, heq2, hnc2, hcc2⟩ := ih ⟨sc, [] ++ ps, su, sa⟩ hndr
                (fun r hr => hall r (by simp [hr]))
                (fun hm => hC (List.mem_cons_of_mem _ hm))
                (fun hm => absurd hm hndk)
                (fun k2 hk2 hs2 => hA k2 (List.mem_cons_of_mem _ hk2) hs2)
              refine ⟨C2, ?_, ?_, ?_⟩
              · rw [heq2]
                simp [pagesOf, usersOf, arbsOf, isSpecialRoot, Json.objFields]
              · intro hm
                exact hnc2 (fun hm2 => hm (List.mem_cons_of_mem _ hm2))
              · intro w hw
                rcases List.mem_cons.mp hw with he | hm2
                · have := congrArg Prod.fst he
                  simp at this
                · exact hcc2 w hm2
          | null => simp at hwfp
          | str s => simp at hwfp
          | num n => simp at hwfp
          | bool b => simp at hwfp
          | arr xs => simp at hwfp
        · by_cases hk3 : k = "_users"
          · subst hk3
            rw [if_neg hk1, if_neg hk2, if_pos rfl] at hwfp
            cases v with
            | arr us =>
                have hrr : rootRecords ("_users", Json.arr us)
                    = usersDispatch us := rfl
                have hequ := fold_users us ⟨sc, sp, su, sa⟩
                rw [hrr, hequ]
                obtain ⟨C2, heq2, hnc2, hcc2⟩ := ih
                  ⟨sc, sp, su ++ us.filter hasAuth, sa⟩ hndr
                  (fun r hr => hall r (by simp [hr]))
                  (fun hm => hC (List.mem_cons_of_mem _ hm))
                  (fun hm => hP (List.mem_cons_of_mem _ hm))
                  (fun k2 hk2 hs2 => hA k2 (List.mem_cons_of_mem _ hk2) hs2)
                refine ⟨C2, ?_, ?_, ?_⟩
                · rw [heq2]
                  simp [pagesOf, usersOf, arbsOf, isSpecialRoot, Json.arrItems]
                · intro hm
                  exact hnc2 (fun hm2 => hm (List.mem_cons_of_mem _ hm2))
                · intro w hw
                  rcases List.mem_cons.mp hw with he | hm2
                  · have := congrArg Prod.fst he
                    simp at this
                  · exact hcc2 w hm2
            | null => simp at hwfp
            | str s => simp at hwfp
            | num n => simp at hwfp
            | bool b => simp at hwfp
            | obj kvs => simp at hwfp
          · rw [if_neg hk1, if_neg hk2, if_neg hk3] at hwfp
            simp only [Bool.and_eq_true] at hwfp
            obtain ⟨hwfa, hwfv⟩ := hwfp
            have hsf : isSpecialRoot k = false := isSpecialRoot_eq_false k hwfa
            cases v with
            | obj es =>
                have hwfe : wfArb es = true := by simpa using hwfv
                simp only [wfArb, Bool.and_eq_true, decide_eq_true_eq,
                  List.all_eq_true] at hwfe
                have hrr : rootRecords (k, Json.obj es)
                    = arbitraryDispatch k es := by
                  simp [rootRecords, hk1, hk2, hk3, Json.objFields]
                have heqa := fold_arb k es ⟨sc, sp, su, sa⟩ hwfa
                  (fun q hq => by simpa using hwfe.2 q hq) hwfe.1.2
                  (hA k (List.mem_cons_self _ _) hsf) hwfe.1.1
                rw [hrr, heqa]
                obtain ⟨C2, heq2, hnc2, hcc2⟩ := ih
                  ⟨sc, sp, su, sa ++ [(k, es)]⟩ hndr
                  (fun r hr => hall r (by simp [hr]))
                  (fun hm => hC (List.mem_cons_of_mem _ hm))
                  (fun hm => hP (List.mem_cons_of_mem _ hm))
                  (fun k2 hk2 hs2 => by
                    have hne : k2 ≠ k := by
                      intro he
                      exact hndk (he ▸ hk2)
                    rw [show (⟨sc, sp, su, sa ++ [(k, es)]⟩ : BState).arbs
                          = sa ++ [(k, es)] from rfl]
                    rw [getKV_append_single_ne sa k k2 es hne]
                    exact hA k2 (List.mem_cons_of_mem _ hk2) hs2)
                refine ⟨C2, ?_, ?_, ?_⟩
                · rw [heq2]
                  simp [pagesOf, usersOf, arbsOf, hsf, hk1, hk2, hk3, Json.objFields]
                · intro hm
                  exact hnc2 (fun hm2 => hm (List.mem_cons_of_mem _ hm2))
                · intro w hw
                  rcases List.mem_cons.mp hw with he | hm2
                  · have := congrArg Prod.fst he
                    simp only at this
                    exact absurd this.symm hk1
                  · exact hcc2 w hm2
            | null => simp at hwfv
            | str s => simp at hwfv
            | num n => simp at hwfv
            | bool b => simp at hwfv
            | arr xs => simp at hwfv

/-- The per-root normalization of the claim side, as a key-indexed value
transformer. -/
def normRootVal (k : String) (v : Json) : Json :=
  if k = "_components" then normRefsJ v
  else if k = "_users" then Json.arr (v.arrItems.filter hasAuth)
  else v

theorem normalizeBootstrap_obj (roots : List (String × Json)) :
    normalizeBootstrap (Json.obj roots)
      = Json.obj (roots.map (fun p => (p.1, normRootVal p.1 p.2))) := by
  rw [normalizeBootstrap]
  congr 1
  refine List.map_congr_left ?_
  intro p _
  by_cases h1 : p.1 = "_components"
  · simp [normRootVal, h1]
  · by_cases h2 : p.1 = "_users"
    · simp [normRootVal, h1, h2]
    · simp [normRootVal, h1, h2]

theorem getKV_map_keyfun {α β : Type} (l : List (String × α)) (g : String → α → β)
    (k : String) :
    getKV (l.map (fun p => (p.1, g p.1 p.2))) k = Option.map (g k) (getKV l k) := by
  induction l with
  | nil => rfl
  | cons hd tl ih =>
      obtain ⟨k0, v0⟩ := hd
      by_cases h0 : k0 = k
      · subst h0
        simp [getKV]
      · simp [getKV, h0, ih]

theorem getKV_map_objval (l : List (String × List (String × Json))) (k : String) :
    getKV (l.map (fun p => (p.1, Json.obj p.2))) k
      = Option.map Json.obj (getKV l k) := by
  induction l with
  | nil => rfl
  | cons hd tl ih =>
      obtain ⟨k0, v0⟩ := hd
      by_cases h0 : k0 = k
      · subst h0
        simp [getKV]
      · simp [getKV, h0, ih]

theorem kvKeys_map_objval (l : List (String × List (String × Json))) :
    kvKeys (l.map (fun p => (p.1, Json.obj p.2))) = kvKeys l := by
  induction l with
  | nil => rfl
  | cons hd tl ih => simpa [kvKeys] using ih

theorem kvKeys_map_keyfun {α β : Type} (l : List (String × α)) (g : String → α → β) :
    kvKeys (l.map (fun p => (p.1, g p.1 p.2))) = kvKeys l := by
  induction l with
  | nil => rfl
  | cons hd tl ih => simpa [kvKeys] using ih

theorem getKV_single_ne {α : Type} (k key : String) (v : α) (h : ¬k = key) :
    getKV [(k, v)] key = none := by
  simp [getKV, h]

theorem finalize_keys_nodup (C P : List (String × Json)) (U : List Json)
    (A : List (String × List (String × Json)))
    (hA : (kvKeys A).Nodup) (hAs : ∀ x ∈ kvKeys A, isSpecialRoot x = false) :
    (kvKeys ((if C.isEmpty then [] else [("_components", Json.obj C)])
      ++ ((if P.isEmpty then [] else [("_pages", Json.obj P)])
      ++ ((if U.isEmpty then [] else [("_users", Json.arr U)])
      ++ A.map (fun p => (p.1, Json.obj p.2)))))).Nodup := by
  have hnc : "_components" ∉ kvKeys A := by
    intro hm
    have hx := hAs _ hm
    simp [isSpecialRoot] at hx
  have hnp : "_pages" ∉ kvKeys A := by
    intro hm
    have hx := hAs _ hm
    simp [isSpecialRoot] at hx
  have hnu : "_users" ∉ kvKeys A := by
    intro hm
    have hx := hAs _ hm
    simp [isSpecialRoot] at hx
  have hAk := kvKeys_map_objval A
  simp only [kvKeys, List.map_append] at hAk ⊢
  rw [hAk]
  simp only [kvKeys] at hA hnc hnp hnu
  cases C.isEmpty <;> cases P.isEmpty <;> cases U.isEmpty <;>
    simp_all [List.nodup_cons, List.nodup_append]

theorem getKV_opt_single_ne {α : Type} (b : Bool) (k key : String) (v : α)
    (h : ¬k = key) :
    getKV (if b then [] else [(k, v)]) key = none := by
  cases b <;> simp [getKV, h]

theorem getKV_finalize_parts (C P : List (String × Json)) (U : List Json)
    (A : List (String × List (String × Json))) (key : String)
    (hAs : ∀ x ∈ kvKeys A, isSpecialRoot x = false) :
    getKV ((if C.isEmpty then [] else [("_components", Json.obj C)])
      ++ ((if P.isEmpty then [] else [("_pages", Json.obj P)])
      ++ ((if U.isEmpty then [] else [("_users", Json.arr U)])
      ++ A.map (fun p => (p.1, Json.obj p.2))))) key
    = (if key = "_components" then (if C.isEmpty then none else some (Json.obj C))
      else if key = "_pages" then (if P.isEmpty then none else some (Json.obj P))
      else if key = "_users" then (if U.isEmpty then none else some (Json.arr U))
      else Option.map Json.obj (getKV A key)) := by
  have hAspec : ∀ s, isSpecialRoot s = true →
      getKV (A.map (fun p => (p.1, Json.obj p.2))) s = none := by
    intro s hs
    rw [getKV_map_objval, getKV_eq_none_of_not_mem A s ?_]
    · rfl
    · intro hm
      rw [hAs s hm] at hs
      exact Bool.false_ne_true hs
  by_cases hk1 : key = "_components"
  · subst hk1
    rw [if_pos rfl]
    by_cases hce : C.isEmpty = true
    · rw [if_pos hce, if_pos hce, List.nil_append]
      rw [getKV_append_right _ _ _ (getKV_opt_single_ne P.isEmpty _ _ _ (by decide))]
      rw [getKV_append_right _ _ _ (getKV_opt_single_ne U.isEmpty _ _ _ (by decide))]
      exact hAspec "_components" (by decide)
    · rw [if_neg hce, if_neg hce]
      exact getKV_append_left _ _ _ _ (by simp [getKV])
  · rw [if_neg hk1]
    rw [getKV_append_right _ _ _ (getKV_opt_single_ne C.isEmpty _ _ _ (fun h => hk1 h.symm))]
    by_cases hk2 : key = "_pages"
    · subst hk2
      rw [if_pos rfl]
      by_cases hpe : P.isEmpty = true
      · rw [if_pos hpe, if_pos hpe, List.nil_append]
        rw [getKV_append_right _ _ _ (getKV_opt_single_ne U.isEmpty _ _ _ (by decide))]
        exact hAspec "_pages" (by decide)
      · rw [if_neg hpe, if_neg hpe]
        exact getKV_append_left _ _ _ _ (by simp [getKV])
    · rw [if_neg hk2]
      rw [getKV_append_right _ _ _ (getKV_opt_single_ne P.isEmpty _ _ _ (fun h => hk2 h.symm))]
      by_cases hk3 : key = "_users"
      · subst hk3
        rw [if_pos rfl]
        by_cases hue : U.isEmpty = true
        · rw [if_pos hue, if_pos hue, List.nil_append]
          exact hAspec "_users" (by decide)
        · rw [if_neg hue, if_neg hue]
          exact getKV_append_left _ _ _ _ (by simp [getKV])
      · rw [if_neg hk3]
        rw [getKV_append_right _ _ _ (getKV_opt_single_ne U.isEmpty _ _ _ (fun h => hk3 h.symm))]
        exact getKV_map_objval A key

theorem finalize_vs_norm (roots : List (String × Json)) (C : List (String × Json))
    (hnd : (kvKeys roots).Nodup)
    (hall : ∀ p ∈ roots,
      (if p.1 = "_components" then
        (match p.2 with | Json.obj comps => wfComponents comps | _ => false)
      else if p.1 = "_pages" then
        (match p.2 with | Json.obj ps => wfPages ps | _ => false)
      else if p.1 = "_users" then
        (match p.2 with | Json.arr us => wfUsers us | _ => false)
      else wfArbName p.1 &&
        (match p.2 with | Json.obj es => wfArb es | _ => false)) = true)
    (hnotc : "_components" ∉ kvKeys roots → C = [])
    (hcomp : ∀ w, ("_components", w) ∈ roots →
        (kvKeys C).Nodup ∧ C ≠ []
          ∧ ∀ ty, Option.map sortJ (getKV C ty)
              = Option.map sortJ (getKV w.objFields ty)) :
    sortJ (finalizeBootstrap ⟨C, pagesOf roots, usersOf roots, arbsOf roots⟩)
      = sortJ (normalizeBootstrap (Json.obj roots)) := by
  have hArbKeys : ∀ x ∈ kvKeys (arbsOf roots), isSpecialRoot x = false :=
    fun x hm => (arbsOf_keys roots x hm).2
  have hrfl : finalizeBootstrap ⟨C, pagesOf roots, usersOf roots, arbsOf roots⟩
      = Json.obj ((if C.isEmpty then [] else [("_components", Json.obj C)])
          ++ ((if (pagesOf roots).isEmpty then []
                else [("_pages", Json.obj (pagesOf roots))])
          ++ ((if (usersOf roots).isEmpty then []
                else [("_users", Json.arr (usersOf roots))])
          ++ (arbsOf roots).map (fun p => (p.1, Json.obj p.2))))) := by
    rw [finalizeBootstrap]
    simp [List.append_assoc]
  rw [hrfl, normalizeBootstrap_obj]
  refine sortJ_obj_ext _ _ ?_ ?_ ?_
  · exact finalize_keys_nodup C (pagesOf roots) (usersOf roots) (arbsOf roots)
      (arbsOf_keys_nodup roots hnd) hArbKeys
  · rw [kvKeys_map_keyfun]
    exact hnd
  · intro key
    rw [getKV_map_keyfun,
      getKV_finalize_parts C (pagesOf roots) (usersOf roots) (arbsOf roots) key hArbKeys]
    by_cases hk1 : key = "_components"
    · subst hk1
      rw [if_pos rfl]
      cases hg : getKV roots "_components" with
      | none =>
          have hnm : "_components" ∉ kvKeys roots := by
            rw [mem_keys_iff_getKV, hg]
            simp
          have hC0 : C = [] := hnotc hnm
          subst hC0
          simp
      | some w =>
          have hmem := getKV_some_mem roots "_components" w hg
          obtain ⟨hCnd, hCne, hCext⟩ := hcomp w hmem
          have hCnem : ¬C.isEmpty = true := by
            cases C with
            | nil => exact absurd rfl hCne
            | cons a b => simp
          rw [if_neg hCnem]
          cases w with
          | obj comps =>
              have hwfc : wfComponents comps = true := by
                simpa using hall ("_components", Json.obj comps) hmem
              have hcnodup : (kvKeys comps).Nodup := by
                have h2 := hwfc
                simp only [wfComponents, Bool.and_eq_true, decide_eq_true_eq] at h2
                exact h2.1.2
              simp only [Option.map_some', normRootVal, if_pos rfl]
              rw [normRefsJ_components comps hwfc]
              congr 1
              refine sortJ_obj_ext C comps hCnd hcnodup ?_
              intro ty
              exact hCext ty
          | null => have hfx := hall ("_components", Json.null) hmem; simp at hfx
          | str s => have hfx := hall ("_components", Json.str s) hmem; simp at hfx
          | num n => have hfx := hall ("_components", Json.num n) hmem; simp at hfx
          | bool b => have hfx := hall ("_components", Json.bool b) hmem; simp at hfx
          | arr xs => have hfx := hall ("_components", Json.arr xs) hmem; simp at hfx
    · rw [if_neg hk1]
      by_cases hk2 : key = "_pages"
      · subst hk2
        rw [if_pos rfl]
        cases hg : getKV roots "_pages" with
        | none =>
            have hnm : "_pages" ∉ kvKeys roots := by
              rw [mem_keys_iff_getKV, hg]
              simp
            rw [pagesOf_of_not_mem roots hnm]
            simp
        | some w =>
            have hmem := getKV_some_mem roots "_pages" w hg
            cases w with
            | obj ps =>
                have hwfps : wfPages ps = true := by
                  simpa using hall ("_pages", Json.obj ps) hmem
                have hpsne : ps ≠ [] := (wfPages_entry ps hwfps).1
                rw [pagesOf_of_mem roots (Json.obj ps) hnd hmem]
                rw [show (Json.obj ps).objFields = ps from rfl]
                have hpe : ¬ps.isEmpty = true := by
                  cases hps : ps with
                  | nil => exact absurd hps hpsne
                  | cons a b => simp
                rw [if_neg hpe]
                simp [normRootVal]
            | null => have hfx := hall ("_pages", Json.null) hmem; simp at hfx
            | str s => have hfx := hall ("_pages", Json.str s) hmem; simp at hfx
            | num n => have hfx := hall ("_pages", Json.num n) hmem; simp at hfx
            | bool b => have hfx := hall ("_pages", Json.bool b) hmem; simp at hfx
            | arr xs => have hfx := hall ("_pages", Json.arr xs) hmem; simp at hfx
      · rw [if_neg hk2]
        by_cases hk3 : key = "_users"
        · subst hk3
          rw [if_pos rfl]
          cases hg : getKV roots "_users" with
          | none =>
              have hnm : "_users" ∉ kvKeys roots := by
                rw [mem_keys_iff_getKV, hg]
                simp
              rw [usersOf_of_not_mem roots hnm]
              simp
          | some w =>
              have hmem := getKV_some_mem roots "_users" w hg
              cases w with
              | arr us =>
                  have hwfu : wfUsers us = true := by
                    simpa using hall ("_users", Json.arr us) hmem
                  have hfne : us.filter hasAuth ≠ [] := by
                    intro hnil
                    rw [wfUsers] at hwfu
                    obtain ⟨x, hx, hpx⟩ := List.any_eq_true.mp hwfu
                    have hxm : x ∈ us.filter hasAuth := List.mem_filter.mpr ⟨hx, hpx⟩
                    rw [hnil] at hxm
                    simp at hxm
                  rw [usersOf_of_mem roots (Json.arr us) hnd hmem]
                  rw [show (Json.arr us).arrItems = us from rfl]
                  have hue : ¬(us.filter hasAuth).isEmpty = true := by
                    cases hus : us.filter hasAuth with
                    | nil => exact absurd hus hfne
                    | cons a b => simp
                  rw [if_neg hue]
                  simp [normRootVal, Json.arrItems]
              | null => have hfx := hall ("_users", Json.null) hmem; simp at hfx
              | str s => have hfx := hall ("_users", Json.str s) hmem; simp at hfx
              | num n => have hfx := hall ("_users", Json.num n) hmem; simp at hfx
              | bool b => have hfx := hall ("_users", Json.bool b) hmem; simp at hfx
              | obj kvs => have hfx := hall ("_users", Json.obj kvs) hmem; simp at hfx
        · rw [if_neg hk3]
          have hks : isSpecialRoot key = false := by
            simp [isSpecialRoot, hk1, hk2, hk3]
          rw [arbsOf_getKV roots key hnd hks]
          cases hg : getKV roots key with
          | none => simp
          | some w =>
              have hmem := getKV_some_mem roots key w hg
              cases w with
              | obj es => simp [normRootVal, hk1, hk3, Json.objFields]
              | null =>
                  have hfx := hall (key, Json.null) hmem
                  simp [hk1, hk2, hk3] at hfx
              | str s =>
                  have hfx := hall (key, Json.str s) hmem
                  simp [hk1, hk2, hk3] at hfx
              | num n =>
                  have hfx := hall (key, Json.num n) hmem
                  simp [hk1, hk2, hk3] at hfx
              | bool b =>
                  have hfx := hall (key, Json.bool b) hmem
                  simp [hk1, hk2, hk3] at hfx
              | arr xs =>
                  have hfx := hall (key, Json.arr xs) hmem
                  simp [hk1, hk2, hk3] at hfx

/-- C1: For every bootstrap document `B` with well-formed components,
pages, users and arbitrary collections (`wfBootstrap`),
`toBootstrap (toDispatch B)` equals — up to JSON object key order, the
equality used by the repository's deep-equality tests — `B` with every
component reference reduced to an object carrying only `_ref` (all
denormalized fields removed) and with every user lacking `auth` removed
(`normalizeBootstrap`). -/
theorem dispatch_bootstrap_roundtrip (B : Json) (hwf : wfBootstrap B = true) :
    sortJ (toBootstrap (toDispatch B)) = sortJ (normalizeBootstrap B) := by
  cases B with
  | obj roots =>
      rw [wfBootstrap] at hwf
      simp only [Bool.and_eq_true, decide_eq_true_eq, List.all_eq_true] at hwf
      obtain ⟨hnd, hall⟩ := hwf
      obtain ⟨C, heq, hnotc, hcomp⟩ := fold_roots roots BState.empty hnd hall
        (fun _ => rfl) (fun _ => rfl) (fun k hk hs => rfl)
      simp only [BState.empty, List.nil_append] at heq
      rw [toBootstrap, runBootstrap, toDispatch_eq_flatMap]
      simp only [BState.empty]
      rw [heq]
      exact finalize_vs_norm roots C hnd hall hnotc hcomp
  | null => simp [wfBootstrap] at hwf
  | str s => simp [wfBootstrap] at hwf
  | num n => simp [wfBootstrap] at hwf
  | bool b => simp [wfBootstrap] at hwf
  | arr xs => simp [wfBootstrap] at hwf

/-- A concrete bootstrap document exercising all four root kinds: two
component types with a cross reference (both in a base field and inside
an instance), a page, an authorized and an unauthorized user, and an
arbitrary `lists` collection. -/
def c1WitnessDoc : Json :=
  Json.obj [
    ("_components", Json.obj [
      ("a", Json.obj [
        ("title", Json.str "A"),
        ("child", Json.obj [("_ref", Json.str "/_components/b")]),
        ("instances", Json.obj [
          ("i1", Json.obj [
            ("kids", Json.arr [Json.obj [("_ref", Json.str "/_components/b")]])])])]),
      ("b", Json.obj [("height", Json.num 1)])]),
    ("_pages", Json.obj [("p1", Json.obj [("main", Json.str "x")])]),
    ("_users", Json.arr [
      Json.obj [("username", Json.str "foo"), ("provider", Json.str "g"),
        ("auth", Json.str "admin")],
      Json.obj [("username", Json.str "bar")]]),
    ("lists", Json.obj [("tags", Json.arr [Json.str "t"])])]

theorem dispatch_bootstrap_roundtrip_witness :
    wfBootstrap c1WitnessDoc = true
      ∧ sortJ (toBootstrap (toDispatch c1WitnessDoc))
          = sortJ (normalizeBootstrap c1WitnessDoc) :=
  ⟨by decide, dispatch_bootstrap_roundtrip c1WitnessDoc (by decide)⟩

/-! ### Order independence and chunked consumption of `toBootstrap` (C8) -/

/-- The `_components` part of one `toBootstrap` step. -/
def compsStep (c : List (String × Json)) (r : Json) : List (String × Json) :=
  match r with
  | .obj ((uri, value) :: _) =>
      match parseUri uri with
      | .comp ty oi =>
          applyInserts (compWrite c ty oi (stripJ value).1.objFields) (stripJ value).2
      | _ => c
  | _ => c

/-- The `_pages` part of one `toBootstrap` step. -/
def pagesStep (p : List (String × Json)) (r : Json) : List (String × Json) :=
  match r with
  | .obj ((uri, value) :: _) =>
      match parseUri uri with
      | .page k => setKV p k (renameUrlJ value)
      | _ => p
  | _ => p

/-- The `_users` part of one `toBootstrap` step. -/
def usersStep (u : List Json) (r : Json) : List Json :=
  match r with
  | .obj ((uri, value) :: _) =>
      match parseUri uri with
      | .user _ => u ++ [value]
      | _ => u
  | _ => u

/-- The arbitrary-collections part of one `toBootstrap` step. -/
def arbsStep (a : List (String × List (String × Json))) (r : Json) :
    List (String × List (String × Json)) :=
  match r with
  | .obj ((uri, value) :: _) =>
      match parseUri uri with
      | .arb coll k => arbWrite a coll k value
      | _ => a
  | _ => a

theorem bootstrapStep_parts (st : BState) (r : Json) :
    bootstrapStep st r
      = ⟨compsStep st.comps r, pagesStep st.pages r,
          usersStep st.users r, arbsStep st.arbs r⟩ := by
  obtain ⟨sc, sp, su, sa⟩ := st
  cases r with
  | obj kvs =>
      cases kvs with
      | nil => rfl
      | cons hd tl =>
          obtain ⟨uri, value⟩ := hd
          cases hp : parseUri uri with
          | comp ty oi =>
              simp only [bootstrapStep, compsStep, pagesStep, usersStep, arbsStep, hp]
          | page k =>
              simp only [bootstrapStep, compsStep, pagesStep, usersStep, arbsStep, hp]
          | user k =>
              simp only [bootstrapStep, compsStep, pagesStep, usersStep, arbsStep, hp]
          | arb coll k =>
              simp only [bootstrapStep, compsStep, pagesStep, usersStep, arbsStep, hp]
          | bad =>
              simp only [bootstrapStep, compsStep, pagesStep, usersStep, arbsStep, hp]
  | null => rfl
  | str s => rfl
  | num n => rfl
  | bool b => rfl
  | arr xs => rfl

theorem foldl_bootstrapStep_parts (l : List Json) :
    ∀ (st : BState),
      List.foldl bootstrapStep st l
        = ⟨List.foldl compsStep st.comps l, List.foldl pagesStep st.pages l,
            List.foldl usersStep st.users l, List.foldl arbsStep st.arbs l⟩ := by
  induction l with
  | nil => intro st; rfl
  | cons r rest ih =>
      intro st
      rw [List.foldl_cons, bootstrapStep_parts st r, ih]
      rfl

/-- The value stored at a component type by one write, as a function of
the type's previous entry. -/
def compWriteVal (oe : Option Json) (oi : Option String)
    (fields : List (String × Json)) : Json :=
  let ekvs := (oe.getD (Json.obj [])).objFields
  match oi with
  | none => Json.obj (fields.foldl (fun acc q => setKV acc q.1 q.2) ekvs)
  | some i =>
      let il := ((getKV ekvs "instances").getD (Json.obj [])).objFields
      Json.obj (setKV ekvs "instances" (Json.obj (setKV il i (Json.obj fields))))

theorem compWrite_eq_setKV (c : List (String × Json)) (ty : String)
    (oi : Option String) (fields : List (String × Json)) :
    compWrite c ty oi fields = setKV c ty (compWriteVal (getKV c ty) oi fields) := by
  cases oi with
  | none => rfl
  | some i => rfl

theorem compWrite_getKV (c : List (String × Json)) (ty : String)
    (oi : Option String) (fields : List (String × Json)) (t : String) :
    getKV (compWrite c ty oi fields) t
      = if ty = t then some (compWriteVal (getKV c ty) oi fields) else getKV c t := by
  rw [compWrite_eq_setKV]
  by_cases h : ty = t
  · subst h
    rw [if_pos rfl, getKV_setKV_self]
  · rw [if_neg h, getKV_setKV_other _ _ _ _ h]

theorem arbWrite_getKV (a : List (String × List (String × Json))) (coll k : String)
    (v : Json) (x : String) :
    getKV (arbWrite a coll k v) x
      = if coll = x then some (setKV ((getKV a coll).getD []) k v) else getKV a x := by
  rw [arbWrite]
  cases hg : getKV a coll with
  | some es =>
      simp only [Option.getD_some]
      by_cases h : coll = x
      · subst h
        rw [if_pos rfl, getKV_setKV_self]
      · rw [if_neg h, getKV_setKV_other _ _ _ _ h]
  | none =>
      simp only [Option.getD_none]
      by_cases h : coll = x
      · subst h
        rw [if_pos rfl, getKV_append_right _ _ _ hg]
        simp [getKV, setKV]
      · rw [if_neg h, getKV_append_single_ne _ _ _ _ (fun he => h he.symm)]

theorem mem_setKV {α : Type} (l : List (String × α)) (k : String) (v : α)
    (q : String × α) (hq : q ∈ setKV l k v) : q = (k, v) ∨ q ∈ l := by
  induction l with
  | nil =>
      simp [setKV] at hq
      exact Or.inl hq
  | cons hd tl ih =>
      obtain ⟨k0, v0⟩ := hd
      rw [setKV] at hq
      by_cases h0 : k0 = k
      · rw [if_pos h0] at hq
        rcases List.mem_cons.mp hq with he | hm
        · exact Or.inl (by rw [he, h0])
        · exact Or.inr (List.mem_cons_of_mem _ hm)
      · rw [if_neg h0] at hq
        rcases List.mem_cons.mp hq with he | hm
        · exact Or.inr (List.mem_cons.mpr (Or.inl he))
        · rcases ih hm with h1 | h2
          · exact Or.inl h1
          · exact Or.inr (List.mem_cons_of_mem _ h2)

theorem parseCompRem_ne_arb (rem : List Char) (coll k : String) :
    parseCompRem rem ≠ .arb coll k := by
  intro h
  rw [parseCompRem] at h
  split at h
  · split at h <;> simp at h
  · split at h <;> simp at h
  · simp at h

theorem parseUri_arb_not_special (uri coll k : String)
    (h : parseUri uri = .arb coll k) : isSpecialRoot coll = false := by
  rw [parseUri] at h
  cases hd : uri.data with
  | nil => rw [hd] at h; simp [parseUriData] at h
  | cons c rest =>
      rw [hd, parseUriData] at h
      by_cases hc : c = '/'
      · rw [if_pos hc] at h
        cases hbs : (breakSlash rest).2 with
        | none => rw [hbs] at h; simp [parseSegs] at h
        | some rem =>
            rw [hbs, parseSegs] at h
            by_cases h1 : String.mk (breakSlash rest).1 = "_components"
            · rw [if_pos h1] at h
              exact absurd h (parseCompRem_ne_arb rem coll k)
            · rw [if_neg h1] at h
              by_cases h2 : String.mk (breakSlash rest).1 = "_pages"
              · rw [if_pos h2] at h
                simp at h
              · rw [if_neg h2] at h
                by_cases h3 : String.mk (breakSlash rest).1 = "_users"
                · rw [if_pos h3] at h
                  simp at h
                · rw [if_neg h3] at h
                  have hcoll : coll = String.mk (breakSlash rest).1 := by
                    injection h with ha hb
                    exact ha.symm
                  subst hcoll
                  simp [isSpecialRoot, h1, h2, h3]
      · rw [if_neg hc] at h
        simp at h

/-- A component write: type, optional instance, fields. -/
def foldCW (c : List (String × Json))
    (ws : List (String × Option String × List (String × Json))) :
    List (String × Json) :=
  ws.foldl (fun acc w => compWrite acc w.1 w.2.1 w.2.2) c

/-- The component writes performed by one dispatch record: the main write
followed by one write per denormalized insertion whose URI names a
component. -/
def compWritesOf (r : Json) : List (String × Option String × List (String × Json)) :=
  match r with
  | .obj ((uri, value) :: _) =>
      match parseUri uri with
      | .comp ty oi =>
          (ty, oi, (stripJ value).1.objFields)
            :: (stripJ value).2.filterMap (fun q =>
                match parseUri q.1 with
                | .comp ty2 oi2 => some (ty2, oi2, q.2)
                | _ => none)
      | _ => []
  | _ => []

theorem applyInserts_eq_foldCW (ins : List (String × List (String × Json))) :
    ∀ c, applyInserts c ins
      = foldCW c (ins.filterMap (fun q =>
          match parseUri q.1 with
          | .comp ty2 oi2 => some (ty2, oi2, q.2)
          | _ => none)) := by
  induction ins with
  | nil => intro c; rfl
  | cons q rest ih =>
      intro c
      rw [applyInserts, List.foldl_cons]
      cases hp : parseUri q.1 with
      | comp ty oi =>
          rw [List.filterMap_cons]
          simp only [hp]
          exact ih (compWrite c ty oi q.2)
      | page k =>
          rw [List.filterMap_cons]
          simp only [hp]
          exact ih c
      | user k =>
          rw [List.filterMap_cons]
          simp only [hp]
          exact ih c
      | arb coll k =>
          rw [List.filterMap_cons]
          simp only [hp]
          exact ih c
      | bad =>
          rw [List.filterMap_cons]
          simp only [hp]
          exact ih c

theorem compsStep_eq_foldCW (c : List (String × Json)) (r : Json) :
    compsStep c r = foldCW c (compWritesOf r) := by
  cases r with
  | obj kvs =>
      cases kvs with
      | nil => rfl
      | cons hd tl =>
          obtain ⟨uri, value⟩ := hd
          cases hp : parseUri uri with
          | comp ty oi =>
              simp only [compsStep, compWritesOf, hp]
              rw [applyInserts_eq_foldCW]
              rfl
          | page k => simp only [compsStep, compWritesOf, hp]; rfl
          | user k => simp only [compsStep, compWritesOf, hp]; rfl
          | arb coll k => simp only [compsStep, compWritesOf, hp]; rfl
          | bad => simp only [compsStep, compWritesOf, hp]; rfl
  | null => rfl
  | str s => rfl
  | num n => rfl
  | bool b => rfl
  | arr xs => rfl

theorem foldCW_getKV (ws : List (String × Option String × List (String × Json))) :
    ∀ c t, getKV (foldCW c ws) t
      = (ws.filter (fun w => w.1 == t)).foldl
          (fun ov w => some (compWriteVal ov w.2.1 w.2.2)) (getKV c t) := by
  induction ws with
  | nil => intro c t; rfl
  | cons w rest ih =>
      intro c t
      rw [show foldCW c (w :: rest) = foldCW (compWrite c w.1 w.2.1 w.2.2) rest from rfl]
      rw [ih, List.filter_cons]
      by_cases h : w.1 = t
      · rw [if_pos (by simp [h]), List.foldl_cons]
        rw [compWrite_getKV, if_pos h, h]
      · rw [if_neg (by simp [h])]
        rw [compWrite_getKV, if_neg h]

theorem foldCW_getKV_not_mem (ws : List (String × Option String × List (String × Json)))
    (c : List (String × Json)) (t : String) (h : ∀ w ∈ ws, ¬w.1 = t) :
    getKV (foldCW c ws) t = getKV c t := by
  rw [foldCW_getKV]
  rw [List.filter_eq_nil_iff.mpr (fun w hw => by simp [h w hw])]
  rfl

theorem foldCW_nodup (ws : List (String × Option String × List (String × Json))) :
    ∀ c, (kvKeys c).Nodup → (kvKeys (foldCW c ws)).Nodup := by
  induction ws with
  | nil => intro c h; exact h
  | cons w rest ih =>
      intro c h
      rw [show foldCW c (w :: rest) = foldCW (compWrite c w.1 w.2.1 w.2.2) rest from rfl]
      refine ih _ ?_
      rw [compWrite_eq_setKV]
      exact kvKeys_nodup_setKV c w.1 _ h

theorem foldCW_comm (wsA wsB : List (String × Option String × List (String × Json)))
    (c : List (String × Json))
    (hdisj : ∀ t, (∃ w ∈ wsA, w.1 = t) → ¬∃ w ∈ wsB, w.1 = t) :
    ∀ t, getKV (foldCW (foldCW c wsA) wsB) t = getKV (foldCW (foldCW c wsB) wsA) t := by
  intro t
  rw [foldCW_getKV, foldCW_getKV, foldCW_getKV, foldCW_getKV]
  by_cases hA : ∃ w ∈ wsA, w.1 = t
  · have hB : wsB.filter (fun w => w.1 == t) = [] :=
      List.filter_eq_nil_iff.mpr (fun w hw => by
        simp only [beq_iff_eq]
        intro he
        exact hdisj t hA ⟨w, hw, he⟩)
    rw [hB]
    simp
  · have hAf : wsA.filter (fun w => w.1 == t) = [] :=
      List.filter_eq_nil_iff.mpr (fun w hw => by
        simp only [beq_iff_eq]
        intro he
        exact hA ⟨w, hw, he⟩)
    rw [hAf]
    simp

/-- The page write performed by one dispatch record, if any. -/
def pageWriteOf (r : Json) : Option (String × Json) :=
  match r with
  | .obj ((uri, value) :: _) =>
      match parseUri uri with
      | .page k => some (k, renameUrlJ value)
      | _ => none
  | _ => none

/-- The user append performed by one dispatch record, if any. -/
def userPushOf (r : Json) : Option Json :=
  match r with
  | .obj ((uri, value) :: _) =>
      match parseUri uri with
      | .user _ => some value
      | _ => none
  | _ => none

/-- The arbitrary-collection write performed by one dispatch record. -/
def arbWriteOf (r : Json) : Option (String × String × Json) :=
  match r with
  | .obj ((uri, value) :: _) =>
      match parseUri uri with
      | .arb coll k => some (coll, k, value)
      | _ => none
  | _ => none

theorem pagesStep_eq (p : List (String × Json)) (r : Json) :
    pagesStep p r = match pageWriteOf r with
      | some w => setKV p w.1 w.2
      | none => p := by
  cases r with
  | obj kvs =>
      cases kvs with
      | nil => rfl
      | cons hd tl =>
          obtain ⟨uri, value⟩ := hd
          cases hp : parseUri uri <;> simp only [pagesStep, pageWriteOf, hp]
  | null => rfl
  | str s => rfl
  | num n => rfl
  | bool b => rfl
  | arr xs => rfl

theorem usersStep_eq (u : List Json) (r : Json) :
    usersStep u r = match userPushOf r with
      | some v => u ++ [v]
      | none => u := by
  cases r with
  | obj kvs =>
      cases kvs with
      | nil => rfl
      | cons hd tl =>
          obtain ⟨uri, value⟩ := hd
          cases hp : parseUri uri <;> simp only [usersStep, userPushOf, hp]
  | null => rfl
  | str s => rfl
  | num n => rfl
  | bool b => rfl
  | arr xs => rfl

theorem arbsStep_eq (a : List (String × List (String × Json))) (r : Json) :
    arbsStep a r = match arbWriteOf r with
      | some w => arbWrite a w.1 w.2.1 w.2.2
      | none => a := by
  cases r with
  | obj kvs =>
      cases kvs with
      | nil => rfl
      | cons hd tl =>
          obtain ⟨uri, value⟩ := hd
          cases hp : parseUri uri <;> simp only [arbsStep, arbWriteOf, hp]
  | null => rfl
  | str s => rfl
  | num n => rfl
  | bool b => rfl
  | arr xs => rfl

/-- The write identities one dispatch record touches; two records with
disjoint identity sets are independent (non-conflicting). -/
def recTouches (r : Json) : List String :=
  ((compWritesOf r).map (fun w => "c:" ++ w.1))
    ++ ((pageWriteOf r).toList.map (fun w => "p:" ++ w.1))
    ++ ((userPushOf r).toList.map (fun _ => "u"))
    ++ ((arbWriteOf r).toList.map (fun w => "a:" ++ w.1 ++ "/" ++ w.2.1))

/-- Independence (non-conflict) of two dispatch records: the identities
they write are disjoint. -/
def Indep (r1 r2 : Json) : Prop :=
  ∀ t ∈ recTouches r1, t ∉ recTouches r2

theorem string_append_left_inj (p a b : String) (h : p ++ a = p ++ b) : a = b := by
  have hd : (p ++ a).data = (p ++ b).data := congrArg String.data h
  rw [data_append_eq, data_append_eq] at hd
  have h2 := List.append_cancel_left hd
  cases a with
  | mk da =>
      cases b with
      | mk db =>
          rw [show (String.mk da).data = da from rfl,
            show (String.mk db).data = db from rfl] at h2
          rw [h2]

/-- Pointwise equality of association lists with distinct keys: equal
documents up to key order. -/
def PWRel (l1 l2 : List (String × Json)) : Prop :=
  (kvKeys l1).Nodup ∧ (kvKeys l2).Nodup ∧ ∀ t, getKV l1 t = getKV l2 t

/-- Well-keyed arbitrary collections: distinct non-special collection
names and distinct entry keys. -/
def AWk (a : List (String × List (String × Json))) : Prop :=
  (kvKeys a).Nodup ∧ (∀ x ∈ kvKeys a, isSpecialRoot x = false)
    ∧ ∀ e ∈ a, (kvKeys e.2).Nodup

/-- Equality of arbitrary-collection accumulators up to collection order
and entry order. -/
def ARel (a1 a2 : List (String × List (String × Json))) : Prop :=
  AWk a1 ∧ AWk a2
  ∧ ∀ x, (getKV a1 x = none ∧ getKV a2 x = none)
      ∨ (∃ es1 es2, getKV a1 x = some es1 ∧ getKV a2 x = some es2
          ∧ ∀ y, getKV es1 y = getKV es2 y)

/-- Equality of `toBootstrap` accumulators up to object key order. -/
def SRel (S T : BState) : Prop :=
  PWRel S.comps T.comps ∧ PWRel S.pages T.pages ∧ S.users = T.users
    ∧ ARel S.arbs T.arbs

theorem PWRel_left {l1 l2 : List (String × Json)} (h : PWRel l1 l2) : PWRel l1 l1 :=
  ⟨h.1, h.1, fun _ => rfl⟩

theorem PWRel_trans {l1 l2 l3 : List (String × Json)}
    (h1 : PWRel l1 l2) (h2 : PWRel l2 l3) : PWRel l1 l3 :=
  ⟨h1.1, h2.2.1, fun t => (h1.2.2 t).trans (h2.2.2 t)⟩

theorem ARel_left {a1 a2 : List (String × List (String × Json))}
    (h : ARel a1 a2) : ARel a1 a1 := by
  refine ⟨h.1, h.1, ?_⟩
  intro x
  cases hg : getKV a1 x with
  | none => exact Or.inl ⟨rfl, rfl⟩
  | some es => exact Or.inr ⟨es, es, rfl, rfl, fun _ => rfl⟩

theorem ARel_trans {a1 a2 a3 : List (String × List (String × Json))}
    (h1 : ARel a1 a2) (h2 : ARel a2 a3) : ARel a1 a3 := by
  refine ⟨h1.1, h2.2.1, ?_⟩
  intro x
  rcases h1.2.2 x with ⟨hn1, hn2⟩ | ⟨es1, es2, hs1, hs2, hes⟩
  · rcases h2.2.2 x with ⟨_, hn3⟩ | ⟨es2, es3, hs2, _, _⟩
    · exact Or.inl ⟨hn1, hn3⟩
    · rw [hn2] at hs2
      simp at hs2
  · rcases h2.2.2 x with ⟨hn2, _⟩ | ⟨es2b, es3, hs2b, hs3, hes2⟩
    · rw [hn2] at hs2
      simp at hs2
    · rw [hs2] at hs2b
      have heq : es2 = es2b := Option.some.inj hs2b
      subst heq
      exact Or.inr ⟨es1, es3, hs1, hs3, fun y => (hes y).trans (hes2 y)⟩

theorem SRel_left {S T : BState} (h : SRel S T) : SRel S S :=
  ⟨PWRel_left h.1, PWRel_left h.2.1, rfl, ARel_left h.2.2.2⟩

theorem SRel_trans {S T U : BState} (h1 : SRel S T) (h2 : SRel T U) : SRel S U :=
  ⟨PWRel_trans h1.1 h2.1, PWRel_trans h1.2.1 h2.2.1, h1.2.2.1.trans h2.2.2.1,
    ARel_trans h1.2.2.2 h2.2.2.2⟩

theorem compsStep_congr (c1 c2 : List (String × Json)) (r : Json)
    (h : ∀ t, getKV c1 t = getKV c2 t) :
    ∀ t, getKV (compsStep c1 r) t = getKV (compsStep c2 r) t := by
  intro t
  rw [compsStep_eq_foldCW, compsStep_eq_foldCW, foldCW_getKV, foldCW_getKV, h t]

theorem compsStep_nodup (c : List (String × Json)) (r : Json)
    (h : (kvKeys c).Nodup) : (kvKeys (compsStep c r)).Nodup := by
  rw [compsStep_eq_foldCW]
  exact foldCW_nodup _ c h

theorem pagesStep_congr (p1 p2 : List (String × Json)) (r : Json)
    (h : ∀ t, getKV p1 t = getKV p2 t) :
    ∀ t, getKV (pagesStep p1 r) t = getKV (pagesStep p2 r) t := by
  intro t
  rw [pagesStep_eq, pagesStep_eq]
  cases pageWriteOf r with
  | none => exact h t
  | some w =>
      by_cases hw : w.1 = t
      · subst hw
        rw [getKV_setKV_self, getKV_setKV_self]
      · rw [getKV_setKV_other _ _ _ _ hw, getKV_setKV_other _ _ _ _ hw]
        exact h t

theorem pagesStep_nodup (p : List (String × Json)) (r : Json)
    (h : (kvKeys p).Nodup) : (kvKeys (pagesStep p r)).Nodup := by
  rw [pagesStep_eq]
  cases pageWriteOf r with
  | none => exact h
  | some w => exact kvKeys_nodup_setKV p w.1 w.2 h

theorem arbWriteOf_not_special (r : Json) (w : String × String × Json)
    (h : arbWriteOf r = some w) : isSpecialRoot w.1 = false := by
  cases r with
  | obj kvs =>
      cases kvs with
      | nil => simp [arbWriteOf] at h
      | cons hd tl =>
          obtain ⟨uri, value⟩ := hd
          cases hp : parseUri uri with
          | arb coll k =>
              rw [arbWriteOf] at h
              simp only [hp] at h
              have hw : w = (coll, k, value) := (Option.some.inj h).symm
              rw [hw]
              exact parseUri_arb_not_special uri coll k hp
          | comp ty oi => rw [arbWriteOf] at h; simp [hp] at h
          | page k => rw [arbWriteOf] at h; simp [hp] at h
          | user k => rw [arbWriteOf] at h; simp [hp] at h
          | bad => rw [arbWriteOf] at h; simp [hp] at h
  | null => simp [arbWriteOf] at h
  | str s => simp [arbWriteOf] at h
  | num n => simp [arbWriteOf] at h
  | bool b => simp [arbWriteOf] at h
  | arr xs => simp [arbWriteOf] at h

theorem arbWrite_wk (a : List (String × List (String × Json))) (coll k : String)
    (v : Json) (hwk : AWk a) (hcs : isSpecialRoot coll = false) :
    AWk (arbWrite a coll k v) := by
  obtain ⟨hnd, hsp, hin⟩ := hwk
  rw [arbWrite]
  cases hg : getKV a coll with
  | some es =>
      refine ⟨?_, ?_, ?_⟩
      · exact kvKeys_nodup_setKV a coll _ hnd
      · intro x hx
        rw [kvKeys_setKV] at hx
        have hcm : coll ∈ kvKeys a := by
          rw [mem_keys_iff_getKV, hg]
          rfl
        rw [if_pos hcm] at hx
        exact hsp x hx
      · intro e he
        rcases mem_setKV a coll (setKV es k v) e he with he1 | he2
        · rw [he1]
          exact kvKeys_nodup_setKV es k v (hin (coll, es) (getKV_some_mem a coll es hg))
        · exact hin e he2
  | none =>
      have hcm : coll ∉ kvKeys a := by
        intro hm
        have := getKV_isSome_of_mem a coll hm
        rw [hg] at this
        simp at this
      refine ⟨?_, ?_, ?_⟩
      · rw [show kvKeys (a ++ [(coll, [(k, v)])]) = kvKeys a ++ [coll] by simp [kvKeys]]
        exact List.nodup_append.mpr ⟨hnd, by simp, by
          intro x hx hx2
          rw [List.mem_singleton] at hx2
          exact hcm (hx2 ▸ hx)⟩
      · intro x hx
        rw [show kvKeys (a ++ [(coll, [(k, v)])]) = kvKeys a ++ [coll] by simp [kvKeys]] at hx
        rcases List.mem_append.mp hx with h1 | h2
        · exact hsp x h1
        · rw [List.mem_singleton] at h2
          rw [h2]
          exact hcs
      · intro e he
        rcases List.mem_append.mp he with h1 | h2
        · exact hin e h1
        · rw [List.mem_singleton] at h2
          rw [h2]
          simp [kvKeys]

theorem arbsStep_wk (a : List (String × List (String × Json))) (r : Json)
    (hwk : AWk a) : AWk (arbsStep a r) := by
  rw [arbsStep_eq]
  cases hw : arbWriteOf r with
  | none => exact hwk
  | some w => exact arbWrite_wk a w.1 w.2.1 w.2.2 hwk (arbWriteOf_not_special r w hw)

theorem arbsStep_congr (a1 a2 : List (String × List (String × Json))) (r : Json)
    (h : ∀ x, (getKV a1 x = none ∧ getKV a2 x = none)
      ∨ (∃ es1 es2, getKV a1 x = some es1 ∧ getKV a2 x = some es2
          ∧ ∀ y, getKV es1 y = getKV es2 y)) :
    ∀ x, (getKV (arbsStep a1 r) x = none ∧ getKV (arbsStep a2 r) x = none)
      ∨ (∃ es1 es2, getKV (arbsStep a1 r) x = some es1
          ∧ getKV (arbsStep a2 r) x = some es2
          ∧ ∀ y, getKV es1 y = getKV es2 y) := by
  intro x
  rw [arbsStep_eq, arbsStep_eq]
  cases arbWriteOf r with
  | none => exact h x
  | some w =>
      rw [arbWrite_getKV, arbWrite_getKV]
      by_cases hcx : w.1 = x
      · rw [if_pos hcx, if_pos hcx]
        rcases h w.1 with ⟨hn1, hn2⟩ | ⟨es1, es2, hs1, hs2, hes⟩
        · rw [hn1, hn2]
          refine Or.inr ⟨_, _, rfl, rfl, ?_⟩
          intro y
          rfl
        · rw [hs1, hs2]
          refine Or.inr ⟨_, _, rfl, rfl, ?_⟩
          intro y
          by_cases hy : w.2.1 = y
          · subst hy
            rw [Option.getD_some, Option.getD_some, getKV_setKV_self, getKV_setKV_self]
          · rw [Option.getD_some, Option.getD_some,
              getKV_setKV_other _ _ _ _ hy, getKV_setKV_other _ _ _ _ hy]
            exact hes y
      · rw [if_neg hcx, if_neg hcx]
        exact h x

theorem SRel_step (S T : BState) (r : Json) (h : SRel S T) :
    SRel (bootstrapStep S r) (bootstrapStep T r) := by
  obtain ⟨⟨hc1, hc2, hcp⟩, ⟨hp1, hp2, hpp⟩, hu, ⟨haw1, haw2, hap⟩⟩ := h
  rw [bootstrapStep_parts, bootstrapStep_parts]
  refine ⟨⟨compsStep_nodup _ r hc1, compsStep_nodup _ r hc2, compsStep_congr _ _ r hcp⟩,
    ⟨pagesStep_nodup _ r hp1, pagesStep_nodup _ r hp2, pagesStep_congr _ _ r hpp⟩,
    by rw [show (⟨compsStep S.comps r, pagesStep S.pages r, usersStep S.users r,
        arbsStep S.arbs r⟩ : BState).users = usersStep S.users r from rfl, hu],
    ⟨arbsStep_wk _ r haw1, arbsStep_wk _ r haw2, arbsStep_congr _ _ r hap⟩⟩

theorem SRel_fold (l : List Json) :
    ∀ (S T : BState), SRel S T →
      SRel (List.foldl bootstrapStep S l) (List.foldl bootstrapStep T l) := by
  induction l with
  | nil => intro S T h; exact h
  | cons r rest ih =>
      intro S T h
      exact ih _ _ (SRel_step S T r h)

theorem setKV_setKV_getKV_comm {α : Type} (p : List (String × α)) (k1 k2 : String)
    (v1 v2 : α) (hne : ¬k1 = k2) :
    ∀ t, getKV (setKV (setKV p k1 v1) k2 v2) t
      = getKV (setKV (setKV p k2 v2) k1 v1) t := by
  intro t
  by_cases h1 : k1 = t
  · subst h1
    rw [getKV_setKV_other _ _ _ _ (fun h => hne h.symm), getKV_setKV_self,
      getKV_setKV_self]
  · by_cases h2 : k2 = t
    · subst h2
      rw [getKV_setKV_self, getKV_setKV_other _ _ _ _ hne, getKV_setKV_self]
    · rw [getKV_setKV_other _ _ _ _ h2, getKV_setKV_other _ _ _ _ h1,
        getKV_setKV_other _ _ _ _ h1, getKV_setKV_other _ _ _ _ h2]

theorem arel_pw_of_eq (A B : List (String × List (String × Json))) (x : String)
    (h : getKV A x = getKV B x) :
    (getKV A x = none ∧ getKV B x = none)
      ∨ (∃ es1 es2, getKV A x = some es1 ∧ getKV B x = some es2
          ∧ ∀ y, getKV es1 y = getKV es2 y) := by
  cases hg : getKV A x with
  | none => exact Or.inl ⟨rfl, by rw [← h, hg]⟩
  | some es => exact Or.inr ⟨es, es, rfl, by rw [← h, hg], fun _ => rfl⟩

theorem comp_touch_mem (r : Json) (w : String × Option String × List (String × Json))
    (hw : w ∈ compWritesOf r) : ("c:" ++ w.1) ∈ recTouches r := by
  rw [recTouches]
  refine List.mem_append.mpr (Or.inl ?_)
  refine List.mem_append.mpr (Or.inl ?_)
  refine List.mem_append.mpr (Or.inl ?_)
  exact List.mem_map.mpr ⟨w, hw, rfl⟩

theorem page_touch_mem (r : Json) (w : String × Json)
    (hw : pageWriteOf r = some w) : ("p:" ++ w.1) ∈ recTouches r := by
  rw [recTouches]
  refine List.mem_append.mpr (Or.inl ?_)
  refine List.mem_append.mpr (Or.inl ?_)
  refine List.mem_append.mpr (Or.inr ?_)
  rw [hw]
  simp [Option.toList]

theorem user_touch_mem (r : Json) (v : Json)
    (hw : userPushOf r = some v) : "u" ∈ recTouches r := by
  rw [recTouches]
  refine List.mem_append.mpr (Or.inl ?_)
  refine List.mem_append.mpr (Or.inr ?_)
  rw [hw]
  simp [Option.toList]

theorem arb_touch_mem (r : Json) (w : String × String × Json)
    (hw : arbWriteOf r = some w) :
    ("a:" ++ w.1 ++ "/" ++ w.2.1) ∈ recTouches r := by
  rw [recTouches]
  refine List.mem_append.mpr (Or.inr ?_)
  rw [hw]
  simp [Option.toList]

theorem arbWrite_comm_ne (a : List (String × List (String × Json)))
    (c1 c2 k1 k2 : String) (v1 v2 : Json) (hcc : ¬c1 = c2) :
    ∀ x, getKV (arbWrite (arbWrite a c1 k1 v1) c2 k2 v2) x
      = getKV (arbWrite (arbWrite a c2 k2 v2) c1 k1 v1) x := by
  intro x
  have hcc2 : ¬c2 = c1 := fun h => hcc h.symm
  by_cases hx1 : c1 = x
  · have hx2 : ¬c2 = x := fun h => hcc (hx1.trans h.symm)
    rw [arbWrite_getKV, if_neg hx2, arbWrite_getKV, if_pos hx1,
      arbWrite_getKV, if_pos hx1, arbWrite_getKV, if_neg hcc2]
  · by_cases hx2 : c2 = x
    · rw [arbWrite_getKV, if_pos hx2, arbWrite_getKV, if_neg hcc,
        arbWrite_getKV, if_neg hx1, arbWrite_getKV, if_pos hx2]
    · rw [arbWrite_getKV, if_neg hx2, arbWrite_getKV, if_neg hx1,
        arbWrite_getKV, if_neg hx1, arbWrite_getKV, if_neg hx2]

theorem arbWrite_comm_same (a : List (String × List (String × Json)))
    (c k1 k2 : String) (v1 v2 : Json) (hkk : ¬k1 = k2) :
    ∀ x, (getKV (arbWrite (arbWrite a c k1 v1) c k2 v2) x = none
        ∧ getKV (arbWrite (arbWrite a c k2 v2) c k1 v1) x = none)
      ∨ (∃ es1 es2, getKV (arbWrite (arbWrite a c k1 v1) c k2 v2) x = some es1
          ∧ getKV (arbWrite (arbWrite a c k2 v2) c k1 v1) x = some es2
          ∧ ∀ y, getKV es1 y = getKV es2 y) := by
  intro x
  by_cases hx : c = x
  · have hL : getKV (arbWrite (arbWrite a c k1 v1) c k2 v2) x
        = some (setKV (setKV ((getKV a c).getD []) k1 v1) k2 v2) := by
      rw [arbWrite_getKV, if_pos hx, arbWrite_getKV, if_pos rfl, Option.getD_some]
    have hR : getKV (arbWrite (arbWrite a c k2 v2) c k1 v1) x
        = some (setKV (setKV ((getKV a c).getD []) k2 v2) k1 v1) := by
      rw [arbWrite_getKV, if_pos hx, arbWrite_getKV, if_pos rfl, Option.getD_some]
    exact Or.inr ⟨_, _, hL, hR,
      fun y => setKV_setKV_getKV_comm ((getKV a c).getD []) k1 k2 v1 v2 hkk y⟩
  · have hE : getKV (arbWrite (arbWrite a c k1 v1) c k2 v2) x
        = getKV (arbWrite (arbWrite a c k2 v2) c k1 v1) x := by
      rw [arbWrite_getKV, if_neg hx, arbWrite_getKV, if_neg hx,
        arbWrite_getKV, if_neg hx, arbWrite_getKV, if_neg hx]
    exact arel_pw_of_eq _ _ x hE

theorem step_swap (r1 r2 : Json) (S : BState) (hind : Indep r1 r2) (hS : SRel S S) :
    SRel (bootstrapStep (bootstrapStep S r1) r2)
      (bootstrapStep (bootstrapStep S r2) r1) := by
  obtain ⟨⟨hc1, _, _⟩, ⟨hp1, _, _⟩, _, ⟨haw, _, _⟩⟩ := hS
  simp only [bootstrapStep_parts]
  have hcdisj : ∀ t, (∃ w ∈ compWritesOf r1, w.1 = t)
      → ¬∃ w ∈ compWritesOf r2, w.1 = t := by
    rintro t ⟨w1, hw1, he1⟩ ⟨w2, hw2, he2⟩
    have h1 := comp_touch_mem r1 w1 hw1
    have h2 := comp_touch_mem r2 w2 hw2
    rw [he1] at h1
    rw [he2] at h2
    exact hind _ h1 h2
  refine ⟨⟨compsStep_nodup _ r2 (compsStep_nodup _ r1 hc1),
      compsStep_nodup _ r1 (compsStep_nodup _ r2 hc1), ?_⟩,
    ⟨pagesStep_nodup _ r2 (pagesStep_nodup _ r1 hp1),
      pagesStep_nodup _ r1 (pagesStep_nodup _ r2 hp1), ?_⟩, ?_,
    ⟨arbsStep_wk _ r2 (arbsStep_wk _ r1 haw),
      arbsStep_wk _ r1 (arbsStep_wk _ r2 haw), ?_⟩⟩
  · intro t
    simp only [compsStep_eq_foldCW]
    exact foldCW_comm (compWritesOf r1) (compWritesOf r2) S.comps hcdisj t
  · intro t
    cases hw1 : pageWriteOf r1 with
    | none =>
        simp only [pagesStep_eq, hw1]
    | some w1 =>
        cases hw2 : pageWriteOf r2 with
        | none => simp only [pagesStep_eq, hw1, hw2]
        | some w2 =>
            have hkk : ¬w1.1 = w2.1 := by
              intro hk
              have h1 := page_touch_mem r1 w1 hw1
              have h2 := page_touch_mem r2 w2 hw2
              rw [hk] at h1
              exact hind _ h1 h2
            simp only [pagesStep_eq, hw1, hw2]
            exact setKV_setKV_getKV_comm S.pages w1.1 w2.1 w1.2 w2.2 hkk t
  · cases hw1 : userPushOf r1 with
    | none => simp only [usersStep_eq, hw1]
    | some v1 =>
        cases hw2 : userPushOf r2 with
        | none => simp only [usersStep_eq, hw1, hw2]
        | some v2 =>
            have h1 := user_touch_mem r1 v1 hw1
            have h2 := user_touch_mem r2 v2 hw2
            exact absurd h2 (hind _ h1)
  · intro x
    cases hw1 : arbWriteOf r1 with
    | none =>
        simp only [arbsStep_eq, hw1]
        exact arel_pw_of_eq _ _ x rfl
    | some w1 =>
        cases hw2 : arbWriteOf r2 with
        | none =>
            simp only [arbsStep_eq, hw1, hw2]
            exact arel_pw_of_eq _ _ x rfl
        | some w2 =>
            have hnb : ¬(w1.1 = w2.1 ∧ w1.2.1 = w2.2.1) := by
              rintro ⟨ha, hb⟩
              have h1 := arb_touch_mem r1 w1 hw1
              have h2 := arb_touch_mem r2 w2 hw2
              rw [ha, hb] at h1
              exact hind _ h1 h2
            simp only [arbsStep_eq, hw1, hw2]
            by_cases hcc : w1.1 = w2.1
            · have hkk : ¬w1.2.1 = w2.2.1 := fun hk => hnb ⟨hcc, hk⟩
              rw [← hcc]
              exact arbWrite_comm_same S.arbs w1.1 w1.2.1 w2.2.1 w1.2.2 w2.2.2 hkk x
            · exact arel_pw_of_eq _ _ x
                (arbWrite_comm_ne S.arbs w1.1 w2.1 w1.2.1 w2.2.1 w1.2.2 w2.2.2 hcc x)

theorem Indep_symm {r1 r2 : Json} (h : Indep r1 r2) : Indep r2 r1 :=
  fun t ht2 ht1 => h t ht1 ht2

theorem SRel_perm {l1 l2 : List Json} (hp : l1.Perm l2) :
    ∀ (_ : l1.Pairwise Indep) (S T : BState), SRel S T →
      SRel (List.foldl bootstrapStep S l1) (List.foldl bootstrapStep T l2) := by
  induction hp with
  | nil => intro _ S T h; exact h
  | cons x hp ih =>
      intro hpw S T h
      rw [List.pairwise_cons] at hpw
      exact ih hpw.2 _ _ (SRel_step S T x h)
  | swap x y l =>
      intro hpw S T h
      have hyx : Indep y x := by
        rw [List.pairwise_cons] at hpw
        exact hpw.1 x (by simp)
      simp only [List.foldl_cons]
      exact SRel_fold l _ _ (SRel_trans (step_swap y x S hyx (SRel_left h))
        (SRel_step _ _ y (SRel_step S T x h)))
  | trans hp1 hp2 ih1 ih2 =>
      intro hpw S T h
      have hpw2 := (hp1.pairwise_iff (fun hab => Indep_symm hab)).mp hpw
      exact SRel_trans (ih1 hpw S S (SRel_left h)) (ih2 hpw2 S T h)

theorem pw_eq_nil (l1 l2 : List (String × Json))
    (h : ∀ t, getKV l1 t = getKV l2 t) (h1 : l1 = []) : l2 = [] := by
  refine eq_nil_of_getKV_none l2 ?_
  intro k
  rw [← h k, h1]
  rfl

theorem SRel_finalize (S T : BState) (h : SRel S T) :
    sortJ (finalizeBootstrap S) = sortJ (finalizeBootstrap T) := by
  obtain ⟨⟨hc1, hc2, hcp⟩, ⟨hp1, hp2, hpp⟩, hu,
    ⟨⟨ha1, has1, hain1⟩, ⟨ha2, has2, hain2⟩, hap⟩⟩ := h
  obtain ⟨sc, sp, su, sa⟩ := S
  obtain ⟨tc, tp, tu, ta⟩ := T
  have hu2 : su = tu := hu
  subst hu2
  have hrfl1 : finalizeBootstrap ⟨sc, sp, su, sa⟩
      = Json.obj ((if sc.isEmpty then [] else [("_components", Json.obj sc)])
          ++ ((if sp.isEmpty then [] else [("_pages", Json.obj sp)])
          ++ ((if su.isEmpty then [] else [("_users", Json.arr su)])
          ++ sa.map (fun p => (p.1, Json.obj p.2))))) := by
    rw [finalizeBootstrap]
    simp [List.append_assoc]
  have hrfl2 : finalizeBootstrap ⟨tc, tp, su, ta⟩
      = Json.obj ((if tc.isEmpty then [] else [("_components", Json.obj tc)])
          ++ ((if tp.isEmpty then [] else [("_pages", Json.obj tp)])
          ++ ((if su.isEmpty then [] else [("_users", Json.arr su)])
          ++ ta.map (fun p => (p.1, Json.obj p.2))))) := by
    rw [finalizeBootstrap]
    simp [List.append_assoc]
  rw [hrfl1, hrfl2]
  refine sortJ_obj_ext _ _ ?_ ?_ ?_
  · exact finalize_keys_nodup sc sp su sa ha1 has1
  · exact finalize_keys_nodup tc tp su ta ha2 has2
  · intro key
    rw [getKV_finalize_parts sc sp su sa key has1,
      getKV_finalize_parts tc tp su ta key has2]
    by_cases hk1 : key = "_components"
    · subst hk1
      rw [if_pos rfl, if_pos rfl]
      by_cases hsce : sc.isEmpty = true
      · have htce : tc.isEmpty = true := by
          rw [List.isEmpty_iff] at hsce ⊢
          exact pw_eq_nil sc tc hcp hsce
        rw [if_pos hsce, if_pos htce]
      · have htce : ¬tc.isEmpty = true := by
          intro h2
          rw [List.isEmpty_iff] at h2
          exact hsce (by
            rw [List.isEmpty_iff]
            exact pw_eq_nil tc sc (fun t => (hcp t).symm) h2)
        rw [if_neg hsce, if_neg htce]
        simp only [Option.map_some']
        congr 1
        exact sortJ_obj_ext sc tc hc1 hc2 (fun k => by rw [hcp k])
    · rw [if_neg hk1, if_neg hk1]
      by_cases hk2 : key = "_pages"
      · subst hk2
        rw [if_pos rfl, if_pos rfl]
        by_cases hspe : sp.isEmpty = true
        · have htpe : tp.isEmpty = true := by
            rw [List.isEmpty_iff] at hspe ⊢
            exact pw_eq_nil sp tp hpp hspe
          rw [if_pos hspe, if_pos htpe]
        · have htpe : ¬tp.isEmpty = true := by
            intro h2
            rw [List.isEmpty_iff] at h2
            exact hspe (by
              rw [List.isEmpty_iff]
              exact pw_eq_nil tp sp (fun t => (hpp t).symm) h2)
          rw [if_neg hspe, if_neg htpe]
          simp only [Option.map_some']
          congr 1
          exact sortJ_obj_ext sp tp hp1 hp2 (fun k => by rw [hpp k])
      · rw [if_neg hk2, if_neg hk2]
        by_cases hk3 : key = "_users"
        · subst hk3
          rw [if_pos rfl, if_pos rfl]
        · rw [if_neg hk3, if_neg hk3]
          rcases hap key with ⟨hn1, hn2⟩ | ⟨es1, es2, hs1, hs2, hes⟩
          · rw [hn1, hn2]
          · rw [hs1, hs2]
            simp only [Option.map_some']
            congr 1
            refine sortJ_obj_ext es1 es2 ?_ ?_ (fun y => by rw [hes y])
            · exact hain1 (key, es1) (getKV_some_mem sa key es1 hs1)
            · exact hain2 (key, es2) (getKV_some_mem ta key es2 hs2)

theorem SRel_empty : SRel BState.empty BState.empty := by
  refine ⟨⟨List.nodup_nil, List.nodup_nil, fun _ => rfl⟩,
    ⟨List.nodup_nil, List.nodup_nil, fun _ => rfl⟩, rfl,
    ⟨⟨List.nodup_nil, ?_, ?_⟩, ⟨List.nodup_nil, ?_, ?_⟩, ?_⟩⟩
  · intro x hx
    simp [kvKeys, BState.empty] at hx
  · intro e he
    simp [BState.empty] at he
  · intro x hx
    simp [kvKeys, BState.empty] at hx
  · intro e he
    simp [BState.empty] at he
  · intro x
    exact Or.inl ⟨rfl, rfl⟩

theorem foldl_chunks (L : List (List Json)) :
    ∀ st, L.foldl (fun s c => List.foldl bootstrapStep s c) st
      = List.foldl bootstrapStep st L.join := by
  induction L with
  | nil => intro st; rfl
  | cons c rest ih =>
      intro st
      rw [show (c :: rest).join = c ++ rest.join from rfl, List.foldl_append,
        List.foldl_cons]
      exact ih _

/-- C8: `toBootstrap` is order-independent and chunk-associative — for a
sequence of pairwise independent (non-conflicting) dispatch records, any
permutation of arrival order yields the same final bootstrap document (up
to JSON object key order, the equality used by the repository's
deep-equality tests), and consuming the sequence in arbitrary contiguous
chunks, folding each chunk's records into the partial accumulator and
merging by continuing from it, equals consuming the sequence whole. -/
theorem bootstrap_order_independent (l1 l2 : List Json) (chunks : List (List Json))
    (hperm : l1.Perm l2) (hind : l1.Pairwise Indep) (hch : chunks.join = l1) :
    sortJ (toBootstrap l1) = sortJ (toBootstrap l2)
      ∧ toBootstrap l1 = finalizeBootstrap
          (chunks.foldl (fun st c => List.foldl bootstrapStep st c) BState.empty) := by
  constructor
  · rw [toBootstrap, toBootstrap]
    refine SRel_finalize _ _ ?_
    rw [runBootstrap, runBootstrap]
    exact SRel_perm hperm hind BState.empty BState.empty SRel_empty
  · rw [foldl_chunks chunks BState.empty, hch, toBootstrap, runBootstrap]

instance (r1 r2 : Json) : Decidable (Indep r1 r2) :=
  inferInstanceAs (Decidable (∀ t ∈ recTouches r1, t ∉ recTouches r2))

/-- Concrete independent dispatch records for the order-independence
witness: one component, one page, one user and one arbitrary-collection
record. -/
def c8Rec1 : Json := Json.obj [("/_components/a", Json.obj [("x", Json.num 1)])]

/-- Page record of the order-independence witness. -/
def c8Rec2 : Json := Json.obj [("/_pages/p1", Json.obj [("main", Json.str "m")])]

/-- User record of the order-independence witness. -/
def c8Rec3 : Json := Json.obj [("/_users/Zm9v", Json.obj [("username", Json.str "f")])]

/-- Arbitrary-collection record of the order-independence witness. -/
def c8Rec4 : Json := Json.obj [("/mylist/k", Json.str "v")]

theorem bootstrap_order_independent_witness :
    ([c8Rec1, c8Rec2, c8Rec3, c8Rec4].Perm [c8Rec4, c8Rec3, c8Rec2, c8Rec1]
      ∧ [c8Rec1, c8Rec2, c8Rec3, c8Rec4].Pairwise Indep
      ∧ ([[c8Rec1, c8Rec2], [c8Rec3, c8Rec4]] : List (List Json)).join
          = [c8Rec1, c8Rec2, c8Rec3, c8Rec4])
    ∧ sortJ (toBootstrap [c8Rec1, c8Rec2, c8Rec3, c8Rec4])
        = sortJ (toBootstrap [c8Rec4, c8Rec3, c8Rec2, c8Rec1])
    ∧ toBootstrap [c8Rec1, c8Rec2, c8Rec3, c8Rec4]
        = finalizeBootstrap
            (([[c8Rec1, c8Rec2], [c8Rec3, c8Rec4]] : List (List Json)).foldl
              (fun st c => List.foldl bootstrapStep st c) BState.empty) :=
  ⟨⟨by decide, by decide, by decide⟩,
    (bootstrap_order_independent [c8Rec1, c8Rec2, c8Rec3, c8Rec4]
      [c8Rec4, c8Rec3, c8Rec2, c8Rec1] [[c8Rec1, c8Rec2], [c8Rec3, c8Rec4]]
      (by decide) (by decide) (by decide)).1,
    (bootstrap_order_independent [c8Rec1, c8Rec2, c8Rec3, c8Rec4]
      [c8Rec4, c8Rec3, c8Rec2, c8Rec1] [[c8Rec1, c8Rec2], [c8Rec3, c8Rec4]]
      (by decide) (by decide) (by decide)).2⟩
